import Mathlib

/-!
# Font source-code generator: a shallow embedding

The definitions below follow `src/lib/src/fontdata.h`, `src/lib/src/format.h` and
`src/lib/src/fontsourcecodegenerator.h`, and, for the application, the option setters of
`src/app/src/mainwindowmodel.cpp` and the grid of `src/app/ui/facewidget.cpp`.

Conventions of the embedding:

* `std::size_t` is a 64-bit unsigned integer: arithmetic that can wrap is written with an
  explicit `% 2 ^ 64`; `uint16_t` and `uint8_t` values wrap with `% 2 ^ 16` and `% 2 ^ 8`.
* `char` is a signed 8-bit integer: the character codes 128 to 255 are negative values.
* `std::bitset<8>` is the natural number below 256 that `to_ulong` returns; single bits are
  read with `Nat.testBit`.
* `std::string` is a `String`, one character per C++ `char`; `std::ostream::tellp` is the
  length of the text written so far.
* An output stream is recorded as the list of idiom elements that were written to it with
  `<<`; the text of the stream is the concatenation of what the format appends for each.
* `std::set<std::size_t>` is the list of its elements in ascending order (`ascending`).
* `sourcecode.h` (the idiom elements and the indentation type) and the bodies of
  `calculate_margins`, `with_margins`, `pixel_margins`, `current_timestamp` and
  `comment_for_glyph` are not among the sources: the idioms are taken from their uses in the
  generator, the margin helpers follow the specification, and the two interface methods are
  parameters.
* The classes of Qt the application uses (`QMap`, `QSettings`, `QVariant`,
  `QGraphicsGridLayout`) are given by the documented behaviour of the methods that are
  called; starting a `SourceCodeRunnable` is recorded as an entry of a list.
-/

namespace f2b

/-! ## Font data (`fontdata.h`) -/

/-- The struct `Font::Size`. -/
structure Size where
  width : Nat
  height : Nat
deriving DecidableEq, Repr

/-- The struct `Font::Point`. -/
structure Point where
  x : Nat
  y : Nat
deriving DecidableEq, Repr

/-- The method `Point::offset`: `y * sz.width + x`, computed in `std::size_t` arithmetic,
which wraps at `2 ^ 64`. -/
def Point.offset (p : Point) (sz : Size) : Nat := (p.y * sz.width + p.x) % 2 ^ 64

/-- The class `Font::Glyph`: a size and a row-major pixel vector. -/
structure Glyph where
  size : Size
  pixels : List Bool
deriving DecidableEq, Repr

/-- Modelled from the spec: the struct `font::margins` (top, bottom, left, right counts),
whose declaration is not part of the sources at hand. -/
structure Margins where
  top : Nat
  bottom : Nat
  left : Nat
  right : Nat
deriving DecidableEq, Repr

/-- The class `Font::Face`. The field `exported_glyph_ids` is the `std::set<std::size_t>` the
generator reads, listed in ascending order; `calculate_margins` is the value returned by the
method of that name, whose body is not part of the sources at hand. -/
structure Face where
  glyph_size : Size
  glyphs : List Glyph
  exported_glyph_ids : List Nat
  calculate_margins : Margins
deriving Repr

/-- Ways in which a call does not return a value: `out_of_range` is the exception thrown by
`std::vector::at` and by the guard of `Face::operator[]`; `undefined` marks an execution
that leaves defined behaviour (`std::prev` of `end()` of an empty set, dereferenced; an
unchecked access outside a vector). -/
inductive Failure where
  | out_of_range
  | undefined
deriving DecidableEq, Repr

/-- The method `Face::glyph_at`: `glyphs_.at(index)`, which throws when out of range. -/
def Face.glyph_at (face : Face) (index : Nat) : Except Failure Glyph :=
  match face.glyphs.get? index with
  | some g => .ok g
  | none => .error .out_of_range

/-- The method `Glyph::is_pixel_set`: `pixels_[p.offset(size_)]`. The vector is not
range-checked; outside it the read is shown as `false`. -/
def Glyph.is_pixel_set (g : Glyph) (p : Point) : Bool :=
  g.pixels.getD (p.offset g.size) false

/-- The method `Glyph::set_pixel_set`: `pixels_[p.offset(size_)] = is_set`. The vector is not
range-checked; outside it the write is shown as changing nothing. -/
def Glyph.set_pixel_set (g : Glyph) (p : Point) (is_set : Bool) : Glyph :=
  { g with pixels := g.pixels.set (p.offset g.size) is_set }

/-- The value of the `char` that holds the character code `code`: `char` is a signed 8-bit
integer, so that the codes 128 to 255 are the values -128 to -1; a code is taken modulo
`2 ^ 8`. -/
def char_value (code : Nat) : Int :=
  if code % 2 ^ 8 < 128 then ((code % 2 ^ 8 : Nat) : Int)
  else ((code % 2 ^ 8 : Nat) : Int) - 2 ^ 8

/-- The method `Face::operator[]` called with the `char` of character code `code`: it throws
when the `char` compares below the space character and otherwise returns `glyphs_[ascii-32]`,
a vector access that is not range-checked and has no defined result outside the vector. -/
def Face.subscript (face : Face) (code : Nat) : Except Failure Glyph :=
  let ascii := char_value code
  if ascii < 32 then Except.error Failure.out_of_range
  else
    match face.glyphs.get? (ascii - 32).toNat with
    | some g => Except.ok g
    | none => Except.error Failure.undefined

/-- The iteration order of a `std::set<std::size_t>`: strictly ascending. -/
def ascending (ids : List Nat) : Prop := ids.Pairwise (fun a b => a < b)

instance (ids : List Nat) : Decidable (ascending ids) := by
  unfold ascending; infer_instance

/-- Modelled from the spec: `font::size::with_margins`, the size minus the trimmed row
counts in height; its body is not part of the sources at hand. -/
def Size.with_margins (sz : Size) (m : Margins) : Size :=
  { width := sz.width, height := sz.height - m.top - m.bottom }

/-- Modelled from the spec: `pixel_margins`, declared in `fontsourcecodegenerator.h` and
defined elsewhere: `top_pixels = top_lines * width`, `bottom_pixels = bottom_lines * width`;
left and right are not used by the packing path. -/
def pixel_margins (line_margins : Margins) (glyph_size : Size) : Margins :=
  { top := line_margins.top * glyph_size.width,
    bottom := line_margins.bottom * glyph_size.width,
    left := 0, right := 0 }

/-! ## Options -/

/-- The constant `byte_size`. -/
def byte_size : Nat := 8

/-- The enum `source_code_options::BitNumbering`. -/
inductive BitNumbering where
  | LSB
  | MSB
deriving DecidableEq, Repr

/-- The enum `source_code_options::ExportMethod`. -/
inductive ExportMethod where
  | ExportSelected
  | ExportAll
deriving DecidableEq, Repr

/-- The struct `source_code_options`, with its default member initialisers. The indentation is
the text written at the start of an array row (a tab by default). -/
structure source_code_options where
  wrap_column : Nat := 80
  export_method : ExportMethod := ExportMethod.ExportSelected
  bit_numbering : BitNumbering := BitNumbering.LSB
  invert_bits : Bool := false
  include_line_spacing : Bool := false
  indentation : String := "\t"
deriving Repr

/-- The two pure virtual methods of `font_source_code_generator_interface`, whose
implementations are not part of the sources at hand: the value `current_timestamp()` returns
at the time of the call, and the function `comment_for_glyph`. -/
structure generator_interface where
  current_timestamp : String
  comment_for_glyph : Nat → String

/-! ## Idioms and formats (`format.h`) -/

/-- The elements written to the output stream (`source_code::idiom`). `begin_array` and `value`
record the width in bits of the element type `V`. -/
inductive Idiom where
  | begin (font_name : String) (size : Size) (timestamp : String)
  | begin_array (V : Nat) (name : String)
  | begin_array_row (indentation : String)
  | value (V : Nat) (v : Nat)
  | comment (text : String)
  | array_line_break
  | end_array
  | end_
deriving DecidableEq, Repr

/-- The output formats of `format.h`. -/
inductive Format where
  | C
  | Arduino
  | PythonList
  | PythonBytes
deriving DecidableEq, Repr

/-- The `identifier` constant of each format struct. -/
def Format.identifier : Format → String
  | .C => "c"
  | .Arduino => "arduino"
  | .PythonList => "python-list"
  | .PythonBytes => "python-bytes"

/-- One upper-case hexadecimal digit (`std::hex`, `std::uppercase`). -/
def hex_digit (d : Nat) : Char :=
  ['0', '1', '2', '3', '4', '5', '6', '7', '8', '9', 'A', 'B', 'C', 'D', 'E', 'F'].getD d '0'

/-- The hexadecimal digits of `n`, most significant first, at most `fuel` of them. -/
def hex_digits : Nat → Nat → List Char
  | 0, _ => []
  | fuel + 1, n =>
    if n < 16 then [hex_digit n] else hex_digits fuel (n / 16) ++ [hex_digit (n % 16)]

/-- An unsigned integer written with `std::setw(2) << std::setfill('0') << std::uppercase <<
std::hex`: its hexadecimal digits, left-padded with `0` to two characters. -/
def hex_setw2 (n : Nat) : String :=
  let ds := hex_digits (n + 1) n
  String.mk (List.replicate (2 - ds.length) '0' ++ ds)

/-- `Format::C::append`, for each kind of element. `format.h` prints the timestamp of `begin`
and ignores its other fields; for `begin_array_row` it writes a tab, which is the default of
the indentation the generator hands over and is written here; it has the printing of a value
for bytes only, and a value of a wider element type is printed here in the same way. -/
def C_append : Idiom → String
  | .begin _ _ timestamp => "//\n// Font Data\n// Created: " ++ timestamp ++ "\n//\n"
  | .begin_array _ name => "\n\nconst unsigned char " ++ name ++ "[] = \x7b\n"
  | .begin_array_row indentation => indentation
  | .value _ v => "0x" ++ hex_setw2 v ++ ","
  | .comment text => " // " ++ text
  | .array_line_break => "\n"
  | .end_array => "\x7d;\n"
  | .end_ => "\n\n"

/-- `Format::Arduino::append`. -/
def Arduino_append : Idiom → String
  | .begin font_name size timestamp =>
    C_append (.begin font_name size timestamp) ++ "\n#include <Arduino.h>\n"
  | .begin_array _ name => "\n\nconst uint8_t " ++ name ++ "[] PROGMEM = \x7b\n"
  | e => C_append e

/-- `Format::PythonList::append`. -/
def PythonList_append : Idiom → String
  | .begin _ _ timestamp => "#\n# Font Data\n# Created: " ++ timestamp ++ "\n#\n"
  | .begin_array _ name => "\n\n" ++ name ++ " = [\n"
  | .comment text => " # " ++ text
  | .end_array => "\n]\n"
  | e => C_append e

/-- `Format::PythonBytes::append`. -/
def PythonBytes_append : Idiom → String
  | .begin _ _ timestamp => "#\n# Font Data\n# Created: " ++ timestamp ++ "\n#\n"
  | .begin_array _ name => "\n\n" ++ name ++ " = b\x27\x27 \\\n"
  | .begin_array_row indentation => indentation ++ "\x27"
  | .value _ v => "\\x" ++ hex_setw2 v
  | .comment _ => ""
  | .array_line_break => "\x27 \\\n"
  | .end_array => ""
  | .end_ => "\n\n"

/-- The text that format `T` appends to the stream for one element (`T::append`). -/
def Format.append : Format → Idiom → String
  | .C => C_append
  | .Arduino => Arduino_append
  | .PythonList => PythonList_append
  | .PythonBytes => PythonBytes_append

/-- The text held by a stream to which the elements `s` were written (`s.str()`). -/
def str (T : Format) : List Idiom → String
  | [] => ""
  | e :: s => T.append e ++ str T s

/-- The write position of the stream (`s.tellp()`). -/
def tellp (T : Format) (s : List Idiom) : Nat := (str T s).length

/-- The values written to a stream, in order. -/
def values : List Idiom → List Nat
  | [] => []
  | .value _ v :: s => v :: values s
  | _ :: s => values s

/-! ## The bit packer (`output_glyph`) -/

/-- The assignment `bits[i] = v` on a `std::bitset<8>`. -/
def bitset_set (bits i : Nat) (v : Bool) : Nat :=
  if v then bits ||| (1 <<< i) else bits &&& ((2 ^ byte_size - 1) ^^^ (1 <<< i))

/-- The method `std::bitset<8>::flip()`. -/
def bitset_flip (bits : Nat) : Nat := bits ^^^ (2 ^ byte_size - 1)

/-- The local variables of `output_glyph` that its two lambdas capture and change. -/
structure glyph_state where
  bits : Nat
  bit_pos : Nat
  col : Nat
  pos : Nat
  s : List Idiom

/-- The lambda `append_byte` of `output_glyph`. -/
def append_byte (o : source_code_options) (T : Format) (st : glyph_state) : glyph_state :=
  let bits := if o.invert_bits then bitset_flip st.bits else st.bits
  let byte := bits % 2 ^ 8
  let s := st.s ++ [Idiom.value 8 byte]
  if tellp T s - st.pos ≥ o.wrap_column then
    let s1 := s ++ [Idiom.array_line_break]
    { st with bits := 0, pos := tellp T s1, s := s1 ++ [Idiom.begin_array_row o.indentation] }
  else
    { st with bits := 0, s := s }

/-- The body of the `std::for_each` lambda of `output_glyph`, for one pixel. -/
def pixel_step (o : source_code_options) (T : Format) (width : Nat)
    (st : glyph_state) (pixel : Bool) : glyph_state :=
  let bits :=
    match o.bit_numbering with
    | .LSB => bitset_set st.bits st.bit_pos pixel
    | .MSB => bitset_set st.bits (byte_size - 1 - st.bit_pos) pixel
  let bit_pos := st.bit_pos + 1
  let col := st.col + 1
  if col ≥ width then
    let st1 := append_byte o T { st with bits := bits }
    { st1 with bit_pos := 0, col := 0 }
  else if bit_pos ≥ byte_size then
    let st1 := append_byte o T { st with bits := bits }
    { st1 with bit_pos := 0, col := col }
  else
    { st with bits := bits, bit_pos := bit_pos, col := col }

/-- The pixels between `pixels().cbegin() + margins.top` and `pixels().cend() - margins.bottom`. -/
def trimmed_pixels (glyph : Glyph) (margins : Margins) : List Bool :=
  (glyph.pixels.drop margins.top).take (glyph.pixels.length - margins.top - margins.bottom)

/-- The method `output_glyph`: the stream `s` after the glyph was written to it. -/
def output_glyph (o : source_code_options) (T : Format) (glyph : Glyph) (size : Size)
    (margins : Margins) (s : List Idiom) : List Idiom :=
  let pos := tellp T s
  let s := s ++ [Idiom.begin_array_row o.indentation]
  ((trimmed_pixels glyph margins).foldl (pixel_step o T size.width)
    { bits := 0, bit_pos := 0, col := 0, pos := pos, s := s }).s

/-- The bytes `output_glyph` writes for a glyph: the values it adds to an empty stream. -/
def glyph_bytes (o : source_code_options) (T : Format) (glyph : Glyph) (size : Size)
    (margins : Margins) : List Nat :=
  values (output_glyph o T glyph size margins [])

/-- The expression `size.width / byte_size + (size.width % byte_size ? 1 : 0)` of
`generate_subset`. -/
def bytes_per_line (width : Nat) : Nat :=
  width / byte_size + (if width % byte_size ≠ 0 then 1 else 0)

/-- The value `bytes_per_glyph` of `generate_subset`: `size.height * bytes_per_line`, in
`std::size_t` arithmetic. -/
def bytes_per_glyph (size : Size) : Nat :=
  (size.height * bytes_per_line size.width) % 2 ^ 64

/-! ## The generator (`generate_all`, `subset_lut`, `generate_subset`, `generate`) -/

/-- The pair `[size, margins]` computed at the start of `generate_all` and `generate_subset`. -/
def size_and_margins (o : source_code_options) (face : Face) : Size × Margins :=
  if o.include_line_spacing then
    (face.glyph_size, { top := 0, bottom := 0, left := 0, right := 0 })
  else
    let line_margins := face.calculate_margins
    (face.glyph_size.with_margins line_margins, pixel_margins line_margins face.glyph_size)

/-- The loop of `generate_all` over `face.glyphs()`, from glyph index `glyph_id` on. -/
def all_glyphs (o : source_code_options) (itf : generator_interface) (T : Format) (size : Size)
    (margins : Margins) : List Glyph → Nat → List Idiom → List Idiom
  | [], _, s => s
  | glyph :: rest, glyph_id, s =>
    let s := output_glyph o T glyph size margins s
    let s := s ++ [Idiom.comment (itf.comment_for_glyph glyph_id)]
    let s := s ++ [Idiom.array_line_break]
    all_glyphs o itf T size margins rest (glyph_id + 1) s

/-- The stream built by `generate_all`. -/
def generate_all_stream (o : source_code_options) (itf : generator_interface) (T : Format)
    (face : Face) (font_name : String) : List Idiom :=
  let sm := size_and_margins o face
  let s := [Idiom.begin font_name sm.1 itf.current_timestamp]
  let s := s ++ [Idiom.begin_array 8 font_name]
  let s := all_glyphs o itf T sm.1 sm.2 face.glyphs 0 s
  let s := s ++ [Idiom.end_array]
  s ++ [Idiom.end_]

/-- The method `generate_all`: the text of its stream. -/
def generate_all (o : source_code_options) (itf : generator_interface) (T : Format)
    (face : Face) (font_name : String) : String :=
  str T (generate_all_stream o itf T face font_name)

/-- The local variables of `subset_lut` its loop changes: the `uint16_t` counter
`exported_id`, the flag `is_previous_exported` and the stream. -/
structure lut_state where
  exported_id : Nat
  is_previous_exported : Bool
  s : List Idiom

/-- The body of the loop of `subset_lut<T, V>` for one `glyph_id`; `V` is the width in bits of
the element type. The product `bytes_per_glyph * exported_id` is a `std::size_t`, cast to
`V`; `++exported_id` is done on a `uint16_t`. -/
def lut_step (o : source_code_options) (itf : generator_interface) (V : Nat)
    (exported_glyph_ids : List Nat) (bytes_per_glyph : Nat) (st : lut_state)
    (glyph_id : Nat) : lut_state :=
  if glyph_id ∈ exported_glyph_ids then
    let s := if !st.is_previous_exported then st.s ++ [Idiom.array_line_break] else st.s
    let s := s ++ [Idiom.begin_array_row o.indentation]
    let s := s ++ [Idiom.value V ((bytes_per_glyph * st.exported_id) % 2 ^ 64 % 2 ^ V)]
    let s := s ++ [Idiom.comment (itf.comment_for_glyph glyph_id)]
    let exported_id := (st.exported_id + 1) % 2 ^ 16
    let s := s ++ [Idiom.array_line_break]
    { exported_id := exported_id, is_previous_exported := true, s := s }
  else
    let s := if st.is_previous_exported then st.s ++ [Idiom.begin_array_row o.indentation]
      else st.s
    let s := s ++ [Idiom.value V 0]
    { exported_id := st.exported_id, is_previous_exported := false, s := s }

/-- The method `subset_lut<T, V>`: the elements written to its own stream. With an empty set
`std::prev(exported_glyph_ids.end())` has no element to point to and the call has no defined
result. The loop runs `glyph_id` from 0 to the last (largest) exported id, which is below
`2 ^ 64 - 1` for an index of a glyph. -/
def subset_lut (o : source_code_options) (itf : generator_interface) (V : Nat)
    (exported_glyph_ids : List Nat) (bytes_per_glyph : Nat) : Except Failure (List Idiom) :=
  match exported_glyph_ids.getLast? with
  | none => Except.error Failure.undefined
  | some last_exported_glyph =>
    let s := [Idiom.begin_array V "lut"]
    let st := (List.range (last_exported_glyph + 1)).foldl
      (lut_step o itf V exported_glyph_ids bytes_per_glyph)
      { exported_id := 0, is_previous_exported := true, s := s }
    Except.ok (st.s ++ [Idiom.end_array])

/-- The loop of `generate_subset` over `face.exported_glyph_ids()`; `glyph_at` may throw. -/
def subset_glyphs (o : source_code_options) (itf : generator_interface) (T : Format)
    (face : Face) (size : Size) (margins : Margins) :
    List Nat → List Idiom → Except Failure (List Idiom)
  | [], s => Except.ok s
  | glyph_id :: rest, s =>
    match face.glyph_at glyph_id with
    | Except.error e => Except.error e
    | Except.ok glyph =>
      let s := output_glyph o T glyph size margins s
      let s := s ++ [Idiom.comment (itf.comment_for_glyph glyph_id)]
      let s := s ++ [Idiom.array_line_break]
      subset_glyphs o itf T face size margins rest s

/-- The value `max_offset` of `generate_subset`:
`(face.exported_glyph_ids().size() - 1) * bytes_per_glyph` in `std::size_t` arithmetic. -/
def max_offset (exported_count bytes_per_glyph : Nat) : Nat :=
  ((exported_count + 2 ^ 64 - 1) % 2 ^ 64 * bytes_per_glyph) % 2 ^ 64

/-- The width in bits of the element type `generate_subset` instantiates `subset_lut` with. -/
def lut_bits (max_offset : Nat) : Nat :=
  if max_offset < 1 <<< 8 then 8
  else if max_offset < 1 <<< 16 then 16
  else if max_offset < 1 <<< 32 then 32
  else 64

/-- The LUT part of `generate_subset`: `bytes_per_glyph`, `max_offset`, the choice of the
element type and the call of `subset_lut`. -/
def subset_lut_of (o : source_code_options) (itf : generator_interface)
    (exported_glyph_ids : List Nat) (bytes_per_glyph : Nat) : Except Failure (List Idiom) :=
  let max_offset := max_offset exported_glyph_ids.length bytes_per_glyph
  subset_lut o itf (lut_bits max_offset) exported_glyph_ids bytes_per_glyph

/-- The stream built by `generate_subset`, when the call returns. -/
def generate_subset_stream (o : source_code_options) (itf : generator_interface) (T : Format)
    (face : Face) (font_name : String) : Except Failure (List Idiom) :=
  let sm := size_and_margins o face
  let s := [Idiom.begin font_name sm.1 itf.current_timestamp]
  let s := s ++ [Idiom.begin_array 8 font_name]
  match subset_glyphs o itf T face sm.1 sm.2 face.exported_glyph_ids s with
  | Except.error e => Except.error e
  | Except.ok s =>
    let s := s ++ [Idiom.end_array]
    match subset_lut_of o itf face.exported_glyph_ids (bytes_per_glyph sm.1) with
    | Except.error e => Except.error e
    | Except.ok lut => Except.ok (s ++ lut ++ [Idiom.end_])

/-- The method `generate_subset`. -/
def generate_subset (o : source_code_options) (itf : generator_interface) (T : Format)
    (face : Face) (font_name : String) : Except Failure String :=
  match generate_subset_stream o itf T face font_name with
  | Except.error e => Except.error e
  | Except.ok s => Except.ok (str T s)

/-- The method `generate`: dispatch on `export_method`. -/
def generate (o : source_code_options) (itf : generator_interface) (T : Format)
    (face : Face) (font_name : String) : Except Failure String :=
  match o.export_method with
  | ExportMethod.ExportAll => Except.ok (generate_all o itf T face font_name)
  | ExportMethod.ExportSelected => generate_subset o itf T face font_name

/-! ## Definitions for stating and proving the properties

`pack_state`, `pack_step` and `pack` are the part of `output_glyph` that decides the bytes
(`pixel_step_view` relates them to `pixel_step`); the rest are concrete inputs and the
predicates the invariants are made of. -/

/-- The position in the accumulator that receives the pixel met at `bit_pos`. -/
def bit_index (o : source_code_options) (bit_pos : Nat) : Nat :=
  match o.bit_numbering with
  | .LSB => bit_pos
  | .MSB => byte_size - 1 - bit_pos

/-- The byte `append_byte` writes for accumulator `bits`. -/
def emitted_byte (o : source_code_options) (bits : Nat) : Nat :=
  (if o.invert_bits then bitset_flip bits else bits) % 2 ^ 8

/-- The part of a `glyph_state` the packed bytes depend on: the accumulator, the two counters
and the values written so far. -/
structure pack_state where
  bits : Nat
  bit_pos : Nat
  col : Nat
  out : List Nat

/-- The view of a `glyph_state` as a `pack_state`. -/
def pack_view (st : glyph_state) : pack_state :=
  { bits := st.bits, bit_pos := st.bit_pos, col := st.col, out := values st.s }

/-- What `pixel_step` does to the `pack_view` of its state. -/
def pack_step (o : source_code_options) (width : Nat) (st : pack_state) (pixel : Bool) :
    pack_state :=
  let bits := bitset_set st.bits (bit_index o st.bit_pos) pixel
  if st.col + 1 ≥ width then
    { bits := 0, bit_pos := 0, col := 0, out := st.out ++ [emitted_byte o bits] }
  else if st.bit_pos + 1 ≥ byte_size then
    { bits := 0, bit_pos := 0, col := st.col + 1, out := st.out ++ [emitted_byte o bits] }
  else
    { bits := bits, bit_pos := st.bit_pos + 1, col := st.col + 1, out := st.out }

/-- The packed bytes of a pixel sequence, by `pack_step` from the initial state. -/
def pack (o : source_code_options) (width : Nat) (pixels : List Bool) : List Nat :=
  (pixels.foldl (pack_step o width) { bits := 0, bit_pos := 0, col := 0, out := [] }).out

/-- The glyph `9` of the class documentation, 8 pixels wide and 9 high. -/
def glyph_nine : Glyph :=
  { size := { width := 8, height := 9 },
    pixels := [
      false, false, true, true, true, true, false, false,
      false, true, true, false, false, true, true, false,
      false, true, true, false, false, true, true, false,
      false, false, true, true, true, true, true, false,
      false, false, false, false, false, true, true, false,
      false, false, false, false, false, true, true, false,
      false, true, true, false, false, true, true, false,
      false, false, true, true, true, true, false, false,
      false, false, false, false, false, false, false, false] }

/-- The state `st` of `output_glyph`, seen from a stream that already held `pre`: the stream
and the remembered position move by `pre`. -/
def glyph_state.shift (T : Format) (pre : List Idiom) (st : glyph_state) : glyph_state :=
  { st with pos := tellp T pre + st.pos, s := pre ++ st.s }

/-- The face that holds the single glyph `glyph_nine`, with a given exported set and a given
result of `calculate_margins`. -/
def face_nine (exported_glyph_ids : List Nat) (line_margins : Margins) : Face :=
  { glyph_size := { width := 8, height := 9 }, glyphs := [glyph_nine],
    exported_glyph_ids := exported_glyph_ids, calculate_margins := line_margins }

/-- The values the class documentation lists for the glyph `9`. -/
def nine_documented : List Nat := [0x3C, 0x66, 0x66, 0x3E, 0x06, 0x06, 0x66, 0x3C, 0x00]

/-- The values of the glyph `9` with each bit pattern read from the other end. -/
def nine_lsb : List Nat := [0x3C, 0x66, 0x66, 0x7C, 0x60, 0x60, 0x66, 0x3C, 0x00]

/-- The text of the C source file of `face_nine`, given the text of its row of values. -/
def nine_text (itf : generator_interface) (row : String) : String :=
  "//\n// Font Data\n// Created: " ++ itf.current_timestamp ++ "\n//\n"
    ++ "\n\nconst unsigned char font[] = \x7b\n"
    ++ row ++ " // " ++ itf.comment_for_glyph 0 ++ "\n"
    ++ "\x7d;\n" ++ "\n\n"

/-- Two bytes that are bit reversals of each other: bit `i` of `b` is bit `7 - i` of `a`. -/
def rev_rel (a b : Nat) : Prop :=
  a < 256 ∧ b < 256 ∧ ∀ i, i < 8 → b.testBit i = a.testBit (7 - i)

/-- Packing states of an LSB run and an MSB run over the same pixels. -/
def sim_numbering (sl sm : pack_state) : Prop :=
  sm.bit_pos = sl.bit_pos ∧ sm.col = sl.col ∧ sl.bit_pos < 8 ∧ rev_rel sl.bits sm.bits ∧
    List.Forall₂ rev_rel sl.out sm.out

/-- Packing states of a run without and a run with `invert_bits` over the same pixels. -/
def sim_invert (sp si : pack_state) : Prop :=
  si.bits = sp.bits ∧ si.bit_pos = sp.bit_pos ∧ si.col = sp.col ∧ sp.bits < 256 ∧
    sp.bit_pos < 8 ∧ si.out = sp.out.map (fun b => b ^^^ 0xFF)

/-- The number of exported glyph ids smaller than `i`: the position `k` of `i` among the
exported ids in ascending order, when `i` is exported. -/
def rank (exported_glyph_ids : List Nat) (i : Nat) : Nat :=
  (exported_glyph_ids.filter fun j => decide (j < i)).length

/-- The value `subset_lut<T, V>` writes for glyph index `i`. -/
def lut_entry (V : Nat) (exported_glyph_ids : List Nat) (bytes_per_glyph i : Nat) : Nat :=
  if i ∈ exported_glyph_ids then
    (bytes_per_glyph * (rank exported_glyph_ids i % 2 ^ 16)) % 2 ^ 64 % 2 ^ V
  else 0

/-- A face with no glyphs and no exported ids. -/
def empty_face : Face :=
  { glyph_size := { width := 8, height := 9 }, glyphs := [], exported_glyph_ids := [],
    calculate_margins := { top := 0, bottom := 0, left := 0, right := 0 } }

/-- The 8-pixel row `..XXXXX.` of the class documentation. -/
def row_doc_8 : List Bool := [false, false, true, true, true, true, true, false]

/-- The 17-pixel row `...######........` of the class documentation. -/
def row_doc_17 : List Bool :=
  [false, false, false, true, true, true, true, true, true,
   false, false, false, false, false, false, false, false]

/-- The glyph made of the `n` pixel rows `top`, `top + 1`, ... of `g`, each row being the
`g.size.width` pixels from offset `row * g.size.width` on. -/
def Glyph.rows_from (g : Glyph) (top n : Nat) : Glyph :=
  { size := { width := g.size.width, height := n },
    pixels := ((List.range n).map fun r =>
      (g.pixels.drop ((top + r) * g.size.width)).take g.size.width).flatten }

/-- The packed bytes of the glyph with index `glyph_id` of a face (none for an index that is
not in the face). -/
def face_glyph_bytes (o : source_code_options) (T : Format) (face : Face) (size : Size)
    (margins : Margins) (glyph_id : Nat) : List Nat :=
  match face.glyphs.get? glyph_id with
  | some glyph => glyph_bytes o T glyph size margins
  | none => []

/-- The bytes emitted while the pixels `l` are walked from the packing state `st`. -/
def pack_from (o : source_code_options) (width : Nat) (st : pack_state) (l : List Bool) :
    List Nat :=
  (l.foldl (pack_step o width) { st with out := [] }).out

/-- The line-wrapping contract in the words of the specification: the values `bytes` are
written one after the other to a row that holds `cur` characters so far (its indentation
included); after each value, a line break and the opening of a new row follow if and only if
the row has reached `wrap_column` characters. -/
def wrapped_rows (o : source_code_options) (T : Format) : Nat → List Nat → List Idiom
  | _, [] => []
  | cur, b :: rest =>
    Idiom.value 8 b ::
      (if cur + (T.append (Idiom.value 8 b)).length ≥ o.wrap_column then
        Idiom.array_line_break :: Idiom.begin_array_row o.indentation ::
          wrapped_rows o T (T.append (Idiom.begin_array_row o.indentation)).length rest
      else
        wrapped_rows o T (cur + (T.append (Idiom.value 8 b)).length) rest)

/-- Rows of exactly two values: after every second value a line break and the opening of
a new row. -/
def rows_of_two (indentation : String) : List Nat → List Idiom
  | [] => []
  | [a] => [Idiom.value 8 a]
  | a :: b :: rest =>
    Idiom.value 8 a :: Idiom.value 8 b :: Idiom.array_line_break ::
      Idiom.begin_array_row indentation :: rows_of_two indentation rest

/-- Whether an element opens an array. -/
def is_begin_array : Idiom → Bool
  | Idiom.begin_array _ _ => true
  | _ => false

/-- The comments written to a stream, in order. -/
def comments : List Idiom → List String
  | [] => []
  | Idiom.comment text :: s => text :: comments s
  | _ :: s => comments s

/-- What `generate_all` writes for the glyph with index `glyph_id`: the glyph, its comment
and a line break. -/
def glyph_chunk (o : source_code_options) (itf : generator_interface) (T : Format) (size : Size)
    (margins : Margins) (glyph_id : Nat) (glyph : Glyph) : List Idiom :=
  output_glyph o T glyph size margins []
    ++ [Idiom.comment (itf.comment_for_glyph glyph_id), Idiom.array_line_break]

/-- The table entries of the glyph indices `indices`: the value and the comment of an
exported index, nothing for an index that is not exported. -/
def lut_entries (itf : generator_interface) (V : Nat) (exported_glyph_ids : List Nat)
    (bytes_per_glyph : Nat) (indices : List Nat) : List (Option (Nat × String)) :=
  indices.map fun i =>
    if i ∈ exported_glyph_ids then
      some (lut_entry V exported_glyph_ids bytes_per_glyph i, itf.comment_for_glyph i)
    else none

/-- The elements the loop of `subset_lut` writes for a list of entries, `prev` being the
flag `is_previous_exported`. -/
def lut_emit (V : Nat) (indentation : String) :
    Bool → List (Option (Nat × String)) → List Idiom
  | _, [] => []
  | prev, some (v, c) :: rest =>
    (if !prev then [Idiom.array_line_break] else [])
      ++ [Idiom.begin_array_row indentation, Idiom.value V v, Idiom.comment c,
          Idiom.array_line_break]
      ++ lut_emit V indentation true rest
  | prev, none :: rest =>
    (if prev then [Idiom.begin_array_row indentation] else [])
      ++ [Idiom.value V 0] ++ lut_emit V indentation false rest

/-- The flag `is_previous_exported` after a list of entries. -/
def flag_after : Bool → List (Option (Nat × String)) → Bool
  | prev, [] => prev
  | _, e :: rest => flag_after e.isSome rest

/-- The row layout of the table in the words of the specification: every exported entry has
a row of its own (the opening of the row, its value, its comment, a line break); the
entries of a run of consecutive non-exported indices share one row of zeros, which the line
break before the next exported row closes. `run` is the number of zeros of the row that is
open. -/
def lut_rows (V : Nat) (indentation : String) :
    Nat → List (Option (Nat × String)) → List (List Idiom)
  | run, [] =>
    if run = 0 then []
    else [Idiom.begin_array_row indentation :: List.replicate run (Idiom.value V 0)]
  | run, none :: rest => lut_rows V indentation (run + 1) rest
  | run, some (v, c) :: rest =>
    (if run = 0 then []
      else [Idiom.begin_array_row indentation :: List.replicate run (Idiom.value V 0)
              ++ [Idiom.array_line_break]])
      ++ [[Idiom.begin_array_row indentation, Idiom.value V v, Idiom.comment c,
            Idiom.array_line_break]]
      ++ lut_rows V indentation 0 rest

/-- The number of maximal runs of consecutive non-exported entries: a run starts at a
non-exported entry that is the first one or follows an exported one (`prev`). -/
def entry_runs : Bool → List (Option (Nat × String)) → Nat
  | _, [] => 0
  | prev, none :: rest => (if prev then 1 else 0) + entry_runs false rest
  | _, some _ :: rest => entry_runs true rest

/-- Whether an element is the `begin` of the document. -/
def is_begin : Idiom → Bool
  | Idiom.begin _ _ _ => true
  | _ => false

/-- The elements of the row that is open at the end of a stream: those after its last line
break, `acc` being the elements of the open row so far. -/
def open_row_from : List Idiom → List Idiom → List Idiom
  | acc, [] => acc
  | _, Idiom.array_line_break :: s => open_row_from [] s
  | acc, e :: s => open_row_from (acc ++ [e]) s

/-- The number of characters of the row that is open after the values `bytes` were written
(as by `wrapped_rows`) to a row that held `cur` characters: the difference
`s.tellp() - pos` the next call of `append_byte` starts from. -/
def row_chars (o : source_code_options) (T : Format) : Nat → List Nat → Nat
  | cur, [] => cur
  | cur, b :: rest =>
    if cur + (T.append (Idiom.value 8 b)).length ≥ o.wrap_column then
      row_chars o T (T.append (Idiom.begin_array_row o.indentation)).length rest
    else
      row_chars o T (cur + (T.append (Idiom.value 8 b)).length) rest

/-- A glyph of 8 by 2 pixels, none of them set. -/
def glyph_8x2 : Glyph :=
  { size := { width := 8, height := 2 }, pixels := List.replicate 16 false }

/-- The walk over the elements between the opening and the closing of an array; `in_row`
tells whether a row is open. The opening of a row is in place only when no row is open; a
value, a comment and a line break only when one is; nothing else is in place. The result is
the flag after the last element, `none` when an element is out of place. -/
def row_scan : Bool → List Idiom → Option Bool
  | in_row, [] => some in_row
  | false, Idiom.begin_array_row _ :: s => row_scan true s
  | true, Idiom.array_line_break :: s => row_scan false s
  | true, Idiom.value _ _ :: s => row_scan true s
  | true, Idiom.comment _ :: s => row_scan true s
  | _, _ :: _ => none

/-- The elements of an array are rows: openings of rows and line breaks alternate, the first
element opens a row, the last one is a line break, and every value and comment is between
the opening of a row and its line break. -/
def rows_closed (body : List Idiom) : Prop :=
  row_scan false body = some false ∧
  (∃ indentation, body.head? = some (Idiom.begin_array_row indentation)) ∧
  body.getLast? = some Idiom.array_line_break

/-- What `generate_subset` writes for the glyph index `glyph_id` of a face (nothing for an
index that is not in the face). -/
def face_glyph_chunk (o : source_code_options) (itf : generator_interface) (T : Format)
    (face : Face) (size : Size) (margins : Margins) (glyph_id : Nat) : List Idiom :=
  match face.glyphs.get? glyph_id with
  | some glyph => glyph_chunk o itf T size margins glyph_id glyph
  | none => []

/-- A glyph of 8 by 16 pixels with every pixel equal to `v`. -/
def glyph_8x16 (v : Bool) : Glyph :=
  { size := { width := 8, height := 16 }, pixels := List.replicate 128 v }

/-- A face of 65537 glyphs of 8 by 16 pixels, all of them exported: 65536 blank glyphs and a
last one, of index 65536, with every pixel set. -/
def face_65537 : Face :=
  { glyph_size := { width := 8, height := 16 },
    glyphs := List.replicate 65536 (glyph_8x16 false) ++ [glyph_8x16 true],
    exported_glyph_ids := List.range 65537,
    calculate_margins := { top := 0, bottom := 0, left := 0, right := 0 } }

/-! ## The application model (`MainWindowModel`, `mainwindowmodel.cpp`)

The declarations of `mainwindowmodel.h` are not among the sources. `settings_` is a
`QSettings`, a store of `QVariant` values by key. `formats_` is used with `insert`,
`firstKey`, `first` and `key(value, defaultKey)`, the interface of `QMap<QString, QString>`:
a map from the identifier of a format to its display name, kept in ascending order of the
keys. `QString` is `String`, compared character by character. -/

/-- The list `Format::available_formats` of `format.h`. -/
def available_formats : List String :=
  [Format.identifier Format.C, Format.identifier Format.Arduino,
    Format.identifier Format.PythonList, Format.identifier Format.PythonBytes]

/-- The values the model stores as `QVariant`: a `bool`, an `int` (an enumerator of
`BitNumbering`) or a `QString`. -/
inductive QVariant where
  | bool (b : Bool)
  | int (n : Int)
  | string (s : String)
deriving DecidableEq, Repr

/-- The conversion `QVariant::toString`: a string as it is, a `bool` as `true` or `false`,
an `int` in decimal. -/
def QVariant.toString : QVariant → String
  | QVariant.string s => s
  | QVariant.bool b => if b then "true" else "false"
  | QVariant.int n => Int.repr n

/-- The conversion `QVariant::toBool`: the value of a `bool`, whether an `int` is not 0,
whether the lower-case content of a string is none of the empty string, `0` and `false`. -/
def QVariant.toBool : QVariant → Bool
  | QVariant.bool b => b
  | QVariant.int n => decide (n ≠ 0)
  | QVariant.string s => !(decide (s.toLower ∈ ["", "0", "false"]))

/-- The store `QSettings`: the value stored under each key, if any. -/
structure QSettings where
  stored : String → Option QVariant

/-- The method `QSettings::value(key, defaultValue)`. -/
def QSettings.value (s : QSettings) (key : String) (defaultValue : QVariant) : QVariant :=
  (s.stored key).getD defaultValue

/-- The method `QSettings::setValue(key, value)`. -/
def QSettings.setValue (s : QSettings) (key : String) (value : QVariant) : QSettings :=
  { stored := fun k => if k = key then some value else s.stored k }

/-- A `QMap<QString, QString>`: its items in ascending order of the keys. -/
structure QMap where
  items : List (String × String)
deriving DecidableEq, Repr

/-- The lexical comparison of two texts by the codes of their characters. -/
def chars_less : List Char → List Char → Bool
  | _, [] => false
  | [], _ :: _ => true
  | a :: s, b :: t => decide (a.toNat < b.toNat) || (decide (a.toNat = b.toNat) && chars_less s t)

/-- The comparison `operator<` of `QString`: lexical, by the codes of the characters. -/
def QString_less (a b : String) : Bool := chars_less a.data b.data

/-- The insertion of an item into the items of a `QMap`, at the place of its key; the value
of a key that is there already is replaced. -/
def QMap.insert_items : List (String × String) → String → String → List (String × String)
  | [], key, value => [(key, value)]
  | (k, v) :: rest, key, value =>
    if QString_less key k then (key, value) :: (k, v) :: rest
    else if key = k then (key, value) :: rest
    else (k, v) :: QMap.insert_items rest key value

/-- The method `QMap::insert(key, value)`. -/
def QMap.insert (m : QMap) (key value : String) : QMap :=
  { items := QMap.insert_items m.items key value }

/-- The method `QMap::firstKey()`: the smallest key. For an empty map the call has no
defined result (the empty string here); the maps it is called on hold four items. -/
def QMap.firstKey (m : QMap) : String :=
  match m.items with
  | [] => ""
  | (k, _) :: _ => k

/-- The method `QMap::first()`: the value of the smallest key. For an empty map the call has
no defined result (the empty string here). -/
def QMap.first (m : QMap) : String :=
  match m.items with
  | [] => ""
  | (_, v) :: _ => v

/-- The method `QMap::key(value, defaultKey)`: the first key, in ascending order, that has
the value `value`; `defaultKey` if no item has it. -/
def QMap.key (m : QMap) (value defaultKey : String) : String :=
  match m.items.find? fun kv => kv.2 == value with
  | some kv => kv.1
  | none => defaultKey

/-- The constant `SettingsKey::bitNumbering`. -/
def SettingsKey.bitNumbering : String := "source_code_options/bit_numbering"

/-- The constant `SettingsKey::invertBits`. -/
def SettingsKey.invertBits : String := "source_code_options/invert_bits"

/-- The constant `SettingsKey::includeLineSpacing`. -/
def SettingsKey.includeLineSpacing : String := "source_code_options/include_line_spacing"

/-- The constant `SettingsKey::format`. -/
def SettingsKey.format : String := "source_code_options/format"

/-- The members of `MainWindowModel` the option setters and the constructor use.
`runnables_` is not a member: it lists, in order, the options and the format each
`SourceCodeRunnable` was created with by `reloadSourceCode`. -/
structure MainWindowModel where
  sourceCodeOptions_ : source_code_options
  formats_ : QMap
  currentFormat_ : String
  settings_ : QSettings
  runnables_ : List (source_code_options × String)

/-- The constructor `MainWindowModel::MainWindowModel` of the class, for the settings store `settings_`
it finds. `qvariant_cast` is the conversion `qvariant_cast<SourceCodeOptions::BitNumbering>`
of Qt, a parameter here. The enumerator `LSB` is 0. -/
def MainWindowModel.construct (qvariant_cast : QVariant → BitNumbering)
    (settings_ : QSettings) : MainWindowModel :=
  let sourceCodeOptions_ : source_code_options := {}
  let sourceCodeOptions_ := { sourceCodeOptions_ with
    bit_numbering := qvariant_cast (settings_.value SettingsKey.bitNumbering (QVariant.int 0)) }
  let sourceCodeOptions_ := { sourceCodeOptions_ with
    invert_bits := (settings_.value SettingsKey.invertBits (QVariant.bool false)).toBool }
  let formats_ : QMap := { items := [] }
  let formats_ := formats_.insert (Format.identifier Format.C) "C/C++"
  let formats_ := formats_.insert (Format.identifier Format.Arduino) "Arduino"
  let formats_ := formats_.insert (Format.identifier Format.PythonList) "Python List"
  let formats_ := formats_.insert (Format.identifier Format.PythonBytes) "Python Bytes"
  let currentFormat_ :=
    (settings_.value SettingsKey.format (QVariant.string formats_.firstKey)).toString
  { sourceCodeOptions_ := sourceCodeOptions_, formats_ := formats_,
    currentFormat_ := currentFormat_, settings_ := settings_, runnables_ := [] }

/-- The method `reloadSourceCode`: a `SourceCodeRunnable` is created with the options and
the current format, and started. -/
def MainWindowModel.reloadSourceCode (m : MainWindowModel) : MainWindowModel :=
  { m with runnables_ := m.runnables_ ++ [(m.sourceCodeOptions_, m.currentFormat_)] }

/-- The method `setInvertBits`. -/
def MainWindowModel.setInvertBits (m : MainWindowModel) (enabled : Bool) : MainWindowModel :=
  let m := { m with sourceCodeOptions_ := { m.sourceCodeOptions_ with invert_bits := enabled } }
  let m := { m with
    settings_ := m.settings_.setValue SettingsKey.invertBits (QVariant.bool enabled) }
  m.reloadSourceCode

/-- The method `setMSBEnabled`; the enumerators `LSB` and `MSB` are 0 and 1. -/
def MainWindowModel.setMSBEnabled (m : MainWindowModel) (enabled : Bool) : MainWindowModel :=
  let bitNumbering := if enabled then BitNumbering.MSB else BitNumbering.LSB
  let m := { m with
    sourceCodeOptions_ := { m.sourceCodeOptions_ with bit_numbering := bitNumbering } }
  let m := { m with
    settings_ := m.settings_.setValue SettingsKey.bitNumbering
      (QVariant.int (match bitNumbering with
        | BitNumbering.LSB => 0
        | BitNumbering.MSB => 1)) }
  m.reloadSourceCode

/-- The method `setIncludeLineSpacing`; the key it passes to `setValue` is
`SettingsKey::invertBits`. -/
def MainWindowModel.setIncludeLineSpacing (m : MainWindowModel) (enabled : Bool) :
    MainWindowModel :=
  let m := { m with
    sourceCodeOptions_ := { m.sourceCodeOptions_ with include_line_spacing := enabled } }
  let m := { m with
    settings_ := m.settings_.setValue SettingsKey.invertBits (QVariant.bool enabled) }
  m.reloadSourceCode

/-- The method `setOutputFormat`; the default key it passes to `key` is `formats_.first()`. -/
def MainWindowModel.setOutputFormat (m : MainWindowModel) (format : String) :
    MainWindowModel :=
  let m := { m with currentFormat_ := m.formats_.key format m.formats_.first }
  let m := { m with
    settings_ := m.settings_.setValue SettingsKey.format (QVariant.string m.currentFormat_) }
  m.reloadSourceCode

/-- The states of `MainWindowModel` after the constructor and any number of calls of
`setOutputFormat`. -/
inductive reachable (qvariant_cast : QVariant → BitNumbering) (settings_ : QSettings) :
    MainWindowModel → Prop where
  | constructed : reachable qvariant_cast settings_
      (MainWindowModel.construct qvariant_cast settings_)
  | setOutputFormat (m : MainWindowModel) (format : String) :
      reachable qvariant_cast settings_ m →
      reachable qvariant_cast settings_ (m.setOutputFormat format)

/-- A settings store that holds no value. -/
def no_settings : QSettings := { stored := fun _ => none }

/-! ## The grid of glyph widgets (`FaceWidget`, `facewidget.cpp`)

A `GlyphInfoWidget` is stood for by the index of its glyph. `columnCount_` is an `int` and
the indices are `int` and `std::size_t` values; they are natural numbers here, the counts of
the widgets of a face being far below `2 ^ 31`. A division by `columnCount_` is meant for a
column count of at least 1. -/

/-- The items of a `QGraphicsGridLayout`: the cell (row, column) of each item, in the order
in which the items were added. -/
structure QGraphicsGridLayout where
  items : List ((Nat × Nat) × Nat)
deriving DecidableEq, Repr

/-- The method `QGraphicsGridLayout::addItem(item, row, column, 1, 1)`. -/
def QGraphicsGridLayout.addItem (l : QGraphicsGridLayout) (item row column : Nat) :
    QGraphicsGridLayout :=
  { items := l.items ++ [((row, column), item)] }

/-- The method `QGraphicsGridLayout::itemAt(row, column)`: the item at the cell, none (a null
pointer) if there is no item at it. -/
def QGraphicsGridLayout.itemAt (l : QGraphicsGridLayout) (row column : Nat) : Option Nat :=
  (l.items.find? fun it => decide (it.1 = (row, column))).map Prod.snd

/-- The members of `FaceWidget` that `load` and `glyphWidgetAtIndex` use. -/
structure FaceWidget where
  columnCount_ : Nat
  showsNonExportedItems_ : Bool
  face_ : Face
  layout_ : QGraphicsGridLayout

/-- The method `FaceWidget::addGlyphInfoWidget`: the widget goes to the cell
`(index / columnCount_, index % columnCount_)`. -/
def FaceWidget.addGlyphInfoWidget (w : FaceWidget) (glyphWidget index : Nat) : FaceWidget :=
  let row := index / w.columnCount_
  let col := index % w.columnCount_
  { w with layout_ := w.layout_.addItem glyphWidget row col }

/-- The local variables `index` and `widgetIndex` of `load`, and the widget. -/
structure load_state where
  index : Nat
  widgetIndex : Nat
  w : FaceWidget

/-- The body of the loop of `load(Font::Face &, Font::Margins)` for one glyph. -/
def load_step (exportedGlyphIDs : List Nat) (st : load_state) (_g : Glyph) : load_state :=
  let isExported := decide (st.index ∈ exportedGlyphIDs)
  if isExported || st.w.showsNonExportedItems_ then
    { index := st.index + 1, widgetIndex := st.widgetIndex + 1,
      w := st.w.addGlyphInfoWidget st.index st.widgetIndex }
  else
    { st with index := st.index + 1 }

/-- The method `FaceWidget::load(Font::Face &, Font::Margins)`: `reset` deletes the widgets
of the layout, then one widget is added for every glyph that is exported or shown anyway. -/
def FaceWidget.load (w : FaceWidget) (face : Face) : FaceWidget :=
  let w := { w with face_ := face, layout_ := { items := [] } }
  let exportedGlyphIDs := face.exported_glyph_ids
  (face.glyphs.foldl (load_step exportedGlyphIDs) { index := 0, widgetIndex := 0, w := w }).w

/-- The value `itemIndex` of `glyphWidgetAtIndex`: `index`, or with non-exported items hidden
the result of `std::count_if` of `i < index` over the exported ids from the first one up to
`find(index)`, which is the end of the set if `index` is not in it. -/
def FaceWidget.itemIndex (w : FaceWidget) (index : Nat) : Nat :=
  if !w.showsNonExportedItems_ then
    ((w.face_.exported_glyph_ids.takeWhile fun i => i != index).filter
      fun i => decide (i < index)).length
  else index

/-- The method `FaceWidget::glyphWidgetAtIndex`. -/
def FaceWidget.glyphWidgetAtIndex (w : FaceWidget) (index : Nat) : Option Nat :=
  let itemIndex := w.itemIndex index
  w.layout_.itemAt (itemIndex / w.columnCount_) (itemIndex % w.columnCount_)

/-- The number of exported ids among the glyph indices below `n`. -/
def exported_below (exported_glyph_ids : List Nat) (n : Nat) : Nat :=
  ((List.range n).filter fun j => decide (j ∈ exported_glyph_ids)).length

/-- The byte `b` is the one expected for byte `j` of pixel row `r`: it is below 256 and its bit
for the `i`-th pixel of the byte is that pixel (0 past the row end), flipped under
`invert_bits`. -/
def byte_ok (o : source_code_options) (w : Nat) (px : List Bool) (r j b : Nat) : Prop :=
  b < 256 ∧ ∀ i, i < 8 →
    b.testBit (bit_index o i)
      = ((decide (8 * j + i < w) && px.getD (r * w + 8 * j + i) false) != o.invert_bits)

/-- The state reached after `n` pixels of `px`, for rows of `w` pixels. -/
def pack_inv (o : source_code_options) (w : Nat) (px : List Bool) (n : Nat)
    (st : pack_state) : Prop :=
  ∃ r c, n = r * w + c ∧ c < w ∧ st.col = c ∧ st.bit_pos = c % 8 ∧ st.bits < 256 ∧
    (∀ i, i < 8 → st.bits.testBit (bit_index o i)
      = (decide (i < c % 8) && px.getD (r * w + 8 * (c / 8) + i) false)) ∧
    st.out.length = r * bytes_per_line w + c / 8 ∧
    ∀ k, k < st.out.length →
      byte_ok o w px (k / bytes_per_line w) (k % bytes_per_line w) (st.out.getD k 0)

/-! ## Lemmas on streams and on the accumulator -/

theorem values_append (a b : List Idiom) : values (a ++ b) = values a ++ values b := by
  induction a with
  | nil => rfl
  | cons e a ih => cases e <;> simp [values, ih]

theorem str_append (T : Format) (a b : List Idiom) : str T (a ++ b) = str T a ++ str T b := by
  induction a with
  | nil => simp [str]
  | cons e a ih => simp [str, ih, String.append_assoc]

theorem append_byte_view (o : source_code_options) (T : Format) (st : glyph_state) :
    pack_view (append_byte o T st) =
      { bits := 0, bit_pos := st.bit_pos, col := st.col,
        out := values st.s ++ [emitted_byte o st.bits] } := by
  simp only [append_byte, pack_view, emitted_byte, apply_ite glyph_state.bits,
    apply_ite glyph_state.bit_pos, apply_ite glyph_state.col, apply_ite glyph_state.s,
    apply_ite values, values_append, values, ite_self, List.append_nil]

theorem pixel_step_view (o : source_code_options) (T : Format) (width : Nat)
    (st : glyph_state) (pixel : Bool) :
    pack_view (pixel_step o T width st pixel) = pack_step o width (pack_view st) pixel := by
  have hb : (match o.bit_numbering with
      | .LSB => bitset_set st.bits st.bit_pos pixel
      | .MSB => bitset_set st.bits (byte_size - 1 - st.bit_pos) pixel)
      = bitset_set st.bits (bit_index o st.bit_pos) pixel := by
    unfold bit_index; cases o.bit_numbering <;> rfl
  unfold pixel_step pack_step
  simp only [hb]
  by_cases h1 : st.col + 1 ≥ width
  · have := append_byte_view o T
      { st with bits := bitset_set st.bits (bit_index o st.bit_pos) pixel }
    simp only [pack_view, pack_state.mk.injEq] at this
    simp [h1, pack_view, this]
  · by_cases h2 : st.bit_pos + 1 ≥ byte_size
    · have := append_byte_view o T
        { st with bits := bitset_set st.bits (bit_index o st.bit_pos) pixel }
      simp only [pack_view, pack_state.mk.injEq] at this
      simp [h1, h2, pack_view, this]
    · simp [h1, h2, pack_view]

theorem foldl_pixel_step_view (o : source_code_options) (T : Format) (width : Nat)
    (pixels : List Bool) (st : glyph_state) :
    pack_view (pixels.foldl (pixel_step o T width) st)
      = pixels.foldl (pack_step o width) (pack_view st) := by
  induction pixels generalizing st with
  | nil => rfl
  | cons p ps ih => simp only [List.foldl_cons, ih, pixel_step_view]

theorem pack_step_prepend (o : source_code_options) (width : Nat) (pre : List Nat)
    (st : pack_state) (pixel : Bool) :
    pack_step o width { st with out := pre ++ st.out } pixel
      = { pack_step o width st pixel with out := pre ++ (pack_step o width st pixel).out } := by
  unfold pack_step
  by_cases h1 : st.col + 1 ≥ width
  · simp [h1]
  · by_cases h2 : st.bit_pos + 1 ≥ byte_size
    · simp [h1, h2]
    · simp [h1, h2]

theorem foldl_pack_step_prepend (o : source_code_options) (width : Nat) (pre : List Nat)
    (pixels : List Bool) (st : pack_state) :
    pixels.foldl (pack_step o width) { st with out := pre ++ st.out }
      = { pixels.foldl (pack_step o width) st with
          out := pre ++ (pixels.foldl (pack_step o width) st).out } := by
  induction pixels generalizing st with
  | nil => rfl
  | cons p ps ih =>
    simp only [List.foldl_cons]
    rw [pack_step_prepend, ih]

/-- The values `output_glyph` adds to a stream are the packed bytes of the pixels it walks. -/
theorem values_output_glyph (o : source_code_options) (T : Format) (glyph : Glyph) (size : Size)
    (margins : Margins) (s : List Idiom) :
    values (output_glyph o T glyph size margins s)
      = values s ++ pack o size.width (trimmed_pixels glyph margins) := by
  have h := foldl_pixel_step_view o T size.width (trimmed_pixels glyph margins)
    { bits := 0, bit_pos := 0, col := 0, pos := tellp T s,
      s := s ++ [Idiom.begin_array_row o.indentation] }
  have h2 := foldl_pack_step_prepend o size.width (values s) (trimmed_pixels glyph margins)
    { bits := 0, bit_pos := 0, col := 0, out := [] }
  simp only [List.append_nil] at h2
  have h3 : pack_view (glyph_state.mk 0 0 0 (tellp T s)
      (s ++ [Idiom.begin_array_row o.indentation])) = pack_state.mk 0 0 0 (values s) := by
    simp [pack_view, values_append, values]
  rw [h3, h2] at h
  have h4 := congrArg pack_state.out h
  simpa [pack_view, output_glyph, pack] using h4

theorem glyph_bytes_eq_pack (o : source_code_options) (T : Format) (glyph : Glyph) (size : Size)
    (margins : Margins) :
    glyph_bytes o T glyph size margins = pack o size.width (trimmed_pixels glyph margins) := by
  unfold glyph_bytes
  rw [values_output_glyph]
  rfl

theorem bitset_set_lt (bits i : Nat) (v : Bool) (hb : bits < 256) (hi : i < 8) :
    bitset_set bits i v < 256 := by
  unfold bitset_set
  cases v
  · exact lt_of_le_of_lt Nat.and_le_left hb
  · have h1 : (1 <<< i) < 2 ^ 8 := by
      rw [Nat.one_shiftLeft]; exact Nat.pow_lt_pow_right (by decide) hi
    have := Nat.or_lt_two_pow (show bits < 2 ^ 8 from hb) h1
    simpa using this

theorem testBit_bitset_set (bits i k : Nat) (v : Bool) (hk : k < 8) :
    (bitset_set bits i v).testBit k = if k = i then v else bits.testBit k := by
  unfold bitset_set byte_size
  cases v
  · simp only [Bool.false_eq_true, if_false]
    rw [Nat.testBit_and, Nat.testBit_xor, Nat.testBit_two_pow_sub_one, Nat.one_shiftLeft,
      Nat.testBit_two_pow]
    by_cases h : k = i
    · subst h; simp [hk]
    · have h2 : ¬ i = k := fun e => h e.symm
      simp [hk, h, h2]
  · simp only [if_true]
    rw [Nat.testBit_or, Nat.one_shiftLeft, Nat.testBit_two_pow]
    by_cases h : k = i
    · subst h; simp
    · have h2 : ¬ i = k := fun e => h e.symm
      simp [h, h2]

theorem emitted_byte_lt (o : source_code_options) (bits : Nat) : emitted_byte o bits < 256 := by
  unfold emitted_byte
  exact Nat.mod_lt _ (by decide)

theorem testBit_emitted_byte (o : source_code_options) (bits k : Nat) (hk : k < 8) :
    (emitted_byte o bits).testBit k = (bits.testBit k != o.invert_bits) := by
  unfold emitted_byte bitset_flip byte_size
  rw [Nat.testBit_mod_two_pow]
  cases o.invert_bits
  · simp [hk]
  · simp only [if_true]
    rw [Nat.testBit_xor, Nat.testBit_two_pow_sub_one]
    simp [hk]

/-! ## The packing invariant -/

theorem bit_index_lt (o : source_code_options) (i : Nat) (hi : i < 8) : bit_index o i < 8 := by
  unfold bit_index byte_size
  cases o.bit_numbering <;> simp <;> omega

theorem bit_index_inj (o : source_code_options) (i j : Nat) (hi : i < 8) (hj : j < 8)
    (h : bit_index o i = bit_index o j) : i = j := by
  unfold bit_index byte_size at h
  cases hb : o.bit_numbering <;> simp [hb] at h <;> omega

theorem div_mod_of_lt (r m j : Nat) (hj : j < m) : (r * m + j) / m = r ∧ (r * m + j) % m = j := by
  have hm : 0 < m := by omega
  rw [Nat.div_mod_unique hm]
  constructor
  · rw [Nat.mul_comm]; omega
  · exact hj

theorem bytes_per_line_pos (w c : Nat) (hc : c < w) : c / 8 < bytes_per_line w := by
  unfold bytes_per_line byte_size
  split_ifs <;> omega

theorem bytes_per_line_last (w : Nat) (hw : 1 ≤ w) : (w - 1) / 8 + 1 = bytes_per_line w := by
  unfold bytes_per_line byte_size
  split_ifs <;> omega

theorem byte_ok_emitted (o : source_code_options) (w : Nat) (px : List Bool) (r j bits : Nat)
    (h : ∀ i, i < 8 → bits.testBit (bit_index o i)
      = (decide (8 * j + i < w) && px.getD (r * w + 8 * j + i) false)) :
    byte_ok o w px r j (emitted_byte o bits) := by
  refine ⟨emitted_byte_lt o bits, fun i hi => ?_⟩
  rw [testBit_emitted_byte o bits _ (bit_index_lt o i hi), h i hi]

theorem pack_inv_out_snoc (o : source_code_options) (w : Nat) (px : List Bool)
    (out : List Nat) (r j e : Nat) (hj : j < bytes_per_line w)
    (hlen : out.length = r * bytes_per_line w + j)
    (hout : ∀ k, k < out.length →
      byte_ok o w px (k / bytes_per_line w) (k % bytes_per_line w) (out.getD k 0))
    (he : byte_ok o w px r j e) :
    ∀ k, k < (out ++ [e]).length →
      byte_ok o w px (k / bytes_per_line w) (k % bytes_per_line w) ((out ++ [e]).getD k 0) := by
  intro k hk
  rw [List.length_append, List.length_singleton] at hk
  by_cases hlt : k < out.length
  · rw [List.getD_append _ _ _ _ hlt]
    exact hout k hlt
  · have hk2 : k = out.length := by omega
    rw [List.getD_append_right _ _ _ _ (by omega)]
    have hd := div_mod_of_lt r (bytes_per_line w) j hj
    rw [hk2, hlen, hd.1, hd.2]
    simpa using he

theorem pack_inv_init (o : source_code_options) (w : Nat) (px : List Bool) (hw : 1 ≤ w) :
    pack_inv o w px 0 { bits := 0, bit_pos := 0, col := 0, out := [] } := by
  refine ⟨0, 0, by simp, by omega, rfl, rfl, by decide, ?_, by simp, ?_⟩
  · intro i _; simp
  · intro k hk; simp at hk

theorem pack_inv_step (o : source_code_options) (w : Nat) (px : List Bool) (n : Nat)
    (st : pack_state) (h : pack_inv o w px n st) :
    pack_inv o w px (n + 1) (pack_step o w st (px.getD n false)) := by
  obtain ⟨r, c, hn, hc, hcol, hbp, hbits, htb, hlen, hout⟩ := h
  have hc8 : c % 8 < 8 := Nat.mod_lt _ (by decide)
  have hb1 : bitset_set st.bits (bit_index o st.bit_pos) (px.getD n false) < 256 := by
    rw [hbp]; exact bitset_set_lt _ _ _ hbits (bit_index_lt o _ hc8)
  have htb1 : ∀ i, i < 8 →
      (bitset_set st.bits (bit_index o st.bit_pos) (px.getD n false)).testBit (bit_index o i)
        = (decide (i < c % 8 + 1) && px.getD (r * w + 8 * (c / 8) + i) false) := by
    intro i hi
    rw [testBit_bitset_set _ _ _ _ (bit_index_lt o i hi), hbp]
    by_cases e : i = c % 8
    · have e2 : r * w + 8 * (c / 8) + i = n := by omega
      rw [e2, e]; simp
    · have e2 : bit_index o i ≠ bit_index o (c % 8) :=
        fun hh => e (bit_index_inj o i (c % 8) hi hc8 hh)
      rw [if_neg e2, htb i hi]
      by_cases e3 : i < c % 8
      · have e4 : i < c % 8 + 1 := by omega
        simp [e3, e4]
      · have e4 : ¬ i < c % 8 + 1 := by omega
        simp [e3, e4]
  have hj : c / 8 < bytes_per_line w := bytes_per_line_pos w c hc
  have hr1 : (r + 1) * w = r * w + w := Nat.succ_mul r w
  have hr2 : (r + 1) * bytes_per_line w = r * bytes_per_line w + bytes_per_line w :=
    Nat.succ_mul r _
  unfold pack_step
  by_cases h1 : st.col + 1 ≥ w
  · -- the pixel row ends here
    simp only [h1, if_true]
    have hcw : c + 1 = w := by omega
    have hlast := bytes_per_line_last w (by omega)
    have hcl : (w - 1) / 8 = c / 8 := by rw [← hcw]; simp
    refine ⟨r + 1, 0, by omega, by omega, rfl, rfl, by simp, ?_, ?_, ?_⟩
    · intro i _; simp
    · simp only [List.length_append, List.length_singleton, hlen]; omega
    · apply pack_inv_out_snoc o w px st.out r (c / 8) _ hj hlen hout
      apply byte_ok_emitted
      intro i hi
      rw [htb1 i hi]
      have : (8 * (c / 8) + i < w) ↔ (i < c % 8 + 1) := by omega
      simp [this]
  · by_cases h2 : st.bit_pos + 1 ≥ byte_size
    · -- the byte is full inside the row
      simp only [h1, h2, if_true, if_false]
      have hc7 : c % 8 = 7 := by unfold byte_size at h2; omega
      refine ⟨r, c + 1, by omega, by omega, by dsimp only; omega, by dsimp only; omega,
        by simp, ?_, ?_, ?_⟩
      · intro i _
        have : (c + 1) % 8 = 0 := by omega
        simp [this]
      · simp only [List.length_append, List.length_singleton, hlen]; omega
      · apply pack_inv_out_snoc o w px st.out r (c / 8) _ hj hlen hout
        apply byte_ok_emitted
        intro i hi
        rw [htb1 i hi]
        have e1 : 8 * (c / 8) + i < w := by omega
        have e2 : i < c % 8 + 1 := by omega
        simp [e1, e2]
    · simp only [h1, h2, if_false]
      have hc7 : c % 8 + 1 < 8 := by unfold byte_size at h2; omega
      have e1 : (c + 1) % 8 = c % 8 + 1 := by omega
      have e2 : (c + 1) / 8 = c / 8 := by omega
      refine ⟨r, c + 1, by omega, by omega, by dsimp only; omega, by dsimp only; omega,
        hb1, ?_, ?_, hout⟩
      · intro i hi
        rw [e1, e2]; exact htb1 i hi
      · rw [e2]; exact hlen

theorem pack_inv_foldl (o : source_code_options) (w : Nat) (px : List Bool) (hw : 1 ≤ w)
    (n : Nat) (hn : n ≤ px.length) :
    pack_inv o w px n
      ((px.take n).foldl (pack_step o w) { bits := 0, bit_pos := 0, col := 0, out := [] }) := by
  induction n with
  | zero => simpa using pack_inv_init o w px hw
  | succ n ih =>
    have hlt : n < px.length := by omega
    rw [List.take_succ, List.foldl_append]
    have hg : px[n]? = some (px.getD n false) := by
      rw [List.getD_eq_getElem _ _ hlt]; exact List.getElem?_eq_getElem hlt
    rw [hg]
    simp only [Option.toList, List.foldl_cons, List.foldl_nil]
    exact pack_inv_step o w px n _ (ih (by omega))

theorem trimmed_pixels_zero (glyph : Glyph) (margins : Margins) (ht : margins.top = 0)
    (hb : margins.bottom = 0) : trimmed_pixels glyph margins = glyph.pixels := by
  simp [trimmed_pixels, ht, hb]

/-- The packed bytes of `h` rows of `w ≥ 1` pixels: `h * bytes_per_line w` bytes, the one at
position `r * bytes_per_line w + j` being the expected byte `j` of row `r`. -/
theorem pack_spec (o : source_code_options) (w h : Nat) (px : List Bool) (hw : 1 ≤ w)
    (hpx : px.length = w * h) :
    (pack o w px).length = h * bytes_per_line w ∧
    ∀ r j, r < h → j < bytes_per_line w →
      byte_ok o w px r j ((pack o w px).getD (r * bytes_per_line w + j) 0) := by
  have hinv := pack_inv_foldl o w px hw px.length (le_refl _)
  rw [List.take_length] at hinv
  obtain ⟨r, c, hn, hc, -, -, -, -, hlen, hout⟩ := hinv
  have hd := div_mod_of_lt r w c hc
  have hr : r = h := by
    have h1 : (r * w + c) / w = h := by
      rw [← hn, hpx]; exact Nat.mul_div_cancel_left h (by omega)
    rw [← h1]; exact hd.1.symm
  have hc0 : c = 0 := by
    have h1 : (r * w + c) % w = 0 := by
      rw [← hn, hpx]; exact Nat.mul_mod_right w h
    rw [← h1]; exact hd.2.symm
  subst hr
  subst hc0
  have hlen2 : (pack o w px).length = r * bytes_per_line w := by
    unfold pack; rw [hlen]; simp
  refine ⟨hlen2, fun r0 j hr0 hj => ?_⟩
  have hk : r0 * bytes_per_line w + j < r * bytes_per_line w := by
    have h1 : (r0 + 1) * bytes_per_line w ≤ r * bytes_per_line w :=
      Nat.mul_le_mul_right _ (by omega)
    have h2 : (r0 + 1) * bytes_per_line w = r0 * bytes_per_line w + bytes_per_line w :=
      Nat.succ_mul _ _
    omega
  have hq := hout (r0 * bytes_per_line w + j) (by rw [hlen]; simpa using hk)
  have hdm := div_mod_of_lt r0 (bytes_per_line w) j hj
  rw [hdm.1, hdm.2] at hq
  exact hq

theorem pack_length (o : source_code_options) (w h : Nat) (px : List Bool)
    (hpx : px.length = w * h) : (pack o w px).length = h * bytes_per_line w := by
  by_cases hw : 1 ≤ w
  · exact (pack_spec o w h px hw hpx).1
  · have hw0 : w = 0 := by omega
    subst hw0
    have : px = [] := by
      apply List.eq_nil_of_length_eq_zero; simpa using hpx
    subst this
    simp [pack, bytes_per_line]

/-! ## The claims -/

/-- C1: with `invert_bits` false and no margin trimmed, a glyph of `width * height` pixels
(`width ≥ 1`) is written row by row from the top, each row as `ceil(width / 8)` bytes from the
left: the byte at position `r * bytes_per_line + j` holds pixel `(8 * j + i, r)`, the one at
index `r * width + 8 * j + i` of the pixel vector, in bit `i` (LSB numbering) or in bit
`7 - i` (MSB numbering), every bit of a column `≥ width` is 0, and these bytes are what
`output_glyph` adds to the values of any stream. -/
theorem output_glyph_bits (o : source_code_options) (T : Format) (glyph : Glyph) (size : Size)
    (margins : Margins) (hinv : o.invert_bits = false) (hw : 1 ≤ size.width)
    (hpx : glyph.pixels.length = size.width * size.height)
    (ht : margins.top = 0) (hb : margins.bottom = 0) :
    (∀ s, values (output_glyph o T glyph size margins s)
        = values s ++ glyph_bytes o T glyph size margins) ∧
    bytes_per_line size.width = (size.width + 7) / 8 ∧
    (glyph_bytes o T glyph size margins).length = size.height * bytes_per_line size.width ∧
    ∀ r j i, r < size.height → j < bytes_per_line size.width → i < 8 →
      ((glyph_bytes o T glyph size margins).getD (r * bytes_per_line size.width + j) 0).testBit
          (match o.bit_numbering with
            | BitNumbering.LSB => i
            | BitNumbering.MSB => 7 - i)
        = (decide (8 * j + i < size.width) &&
            glyph.pixels.getD (r * size.width + (8 * j + i)) false) := by
  have hg := glyph_bytes_eq_pack o T glyph size margins
  rw [trimmed_pixels_zero glyph margins ht hb] at hg
  have hs := pack_spec o size.width size.height glyph.pixels hw hpx
  refine ⟨fun s => ?_, ?_, ?_, ?_⟩
  · rw [values_output_glyph, glyph_bytes_eq_pack]
  · unfold bytes_per_line byte_size; split_ifs <;> omega
  · rw [hg]; exact hs.1
  · intro r j i hr hj hi
    rw [hg]
    have hq := (hs.2 r j hr hj).2 i hi
    have hidx : (match o.bit_numbering with
        | BitNumbering.LSB => i
        | BitNumbering.MSB => 7 - i) = bit_index o i := by
      unfold bit_index byte_size; cases o.bit_numbering <;> rfl
    rw [hidx, hq, hinv]
    simp [Nat.add_assoc]

/-- The instance of `output_glyph_bits` at a 3 x 2 glyph in the C format, default options. -/
theorem output_glyph_bits_witness :
    (∀ s, values (output_glyph {} Format.C ⟨⟨3, 2⟩, [true, false, true, false, true, true]⟩
          ⟨3, 2⟩ ⟨0, 0, 0, 0⟩ s)
        = values s ++ glyph_bytes {} Format.C
            ⟨⟨3, 2⟩, [true, false, true, false, true, true]⟩ ⟨3, 2⟩ ⟨0, 0, 0, 0⟩) ∧
    bytes_per_line 3 = (3 + 7) / 8 ∧
    (glyph_bytes {} Format.C ⟨⟨3, 2⟩, [true, false, true, false, true, true]⟩
        ⟨3, 2⟩ ⟨0, 0, 0, 0⟩).length = 2 * bytes_per_line 3 ∧
    ∀ r j i, r < 2 → j < bytes_per_line 3 → i < 8 →
      ((glyph_bytes {} Format.C ⟨⟨3, 2⟩, [true, false, true, false, true, true]⟩
          ⟨3, 2⟩ ⟨0, 0, 0, 0⟩).getD (r * bytes_per_line 3 + j) 0).testBit i
        = (decide (8 * j + i < 3) &&
            [true, false, true, false, true, true].getD (r * 3 + (8 * j + i)) false) :=
  output_glyph_bits {} Format.C ⟨⟨3, 2⟩, [true, false, true, false, true, true]⟩ ⟨3, 2⟩
    ⟨0, 0, 0, 0⟩ rfl (by decide) (by decide) rfl rfl

/-- C2: for a glyph whose walked pixels are `width * height` many, whatever the bit numbering,
`invert_bits`, `wrap_column`, indentation and format, `output_glyph` adds exactly
`height * ceil(width / 8)` values to the stream; this is the `bytes_per_glyph` of
`generate_subset` (no `std::size_t` wrap-around below `2 ^ 64`), and a row ending on a byte
boundary gets no padding byte: widths 5, 7, 8, 12, 16, 19 take 1, 1, 1, 2, 2, 3 bytes. -/
theorem output_glyph_value_count (o : source_code_options) (T : Format) (glyph : Glyph)
    (size : Size) (margins : Margins) (s : List Idiom)
    (hpx : (trimmed_pixels glyph margins).length = size.width * size.height) :
    (values (output_glyph o T glyph size margins s)).length
        = (values s).length + size.height * ((size.width + 7) / 8) ∧
    (glyph_bytes o T glyph size margins).length = size.height * ((size.width + 7) / 8) ∧
    size.height * ((size.width + 7) / 8)
        = size.height * (size.width / byte_size + (if size.width % byte_size ≠ 0 then 1 else 0)) ∧
    (size.height * ((size.width + 7) / 8) < 2 ^ 64 →
      bytes_per_glyph size = size.height * ((size.width + 7) / 8)) ∧
    [5, 7, 8, 12, 16, 19].map bytes_per_line = [1, 1, 1, 2, 2, 3] := by
  have hceil : bytes_per_line size.width = (size.width + 7) / 8 := by
    unfold bytes_per_line byte_size; split_ifs <;> omega
  have hlen := pack_length o size.width size.height (trimmed_pixels glyph margins) hpx
  rw [hceil] at hlen
  refine ⟨?_, ?_, ?_, ?_, by decide⟩
  · rw [values_output_glyph, List.length_append, hlen]
  · rw [glyph_bytes_eq_pack, hlen]
  · rw [← hceil]; rfl
  · intro hlt
    unfold bytes_per_glyph
    rw [hceil]
    exact Nat.mod_eq_of_lt hlt

/-- The instance of `output_glyph_value_count` at a 12 x 1 glyph, MSB numbering, inverted,
`wrap_column` 10, Python bytes format: 2 values. -/
theorem output_glyph_value_count_witness :
    (values (output_glyph
        { wrap_column := 10, bit_numbering := BitNumbering.MSB, invert_bits := true }
        Format.PythonBytes ⟨⟨12, 1⟩, List.replicate 12 true⟩ ⟨12, 1⟩ ⟨0, 0, 0, 0⟩ [])).length
        = (values []).length + 1 * ((12 + 7) / 8) ∧
    (glyph_bytes { wrap_column := 10, bit_numbering := BitNumbering.MSB, invert_bits := true }
        Format.PythonBytes ⟨⟨12, 1⟩, List.replicate 12 true⟩ ⟨12, 1⟩ ⟨0, 0, 0, 0⟩).length
        = 1 * ((12 + 7) / 8) ∧
    1 * ((12 + 7) / 8) = 1 * (12 / byte_size + (if 12 % byte_size ≠ 0 then 1 else 0)) ∧
    (1 * ((12 + 7) / 8) < 2 ^ 64 → bytes_per_glyph ⟨12, 1⟩ = 1 * ((12 + 7) / 8)) ∧
    [5, 7, 8, 12, 16, 19].map bytes_per_line = [1, 1, 1, 2, 2, 3] :=
  output_glyph_value_count
    { wrap_column := 10, bit_numbering := BitNumbering.MSB, invert_bits := true }
    Format.PythonBytes ⟨⟨12, 1⟩, List.replicate 12 true⟩ ⟨12, 1⟩ ⟨0, 0, 0, 0⟩ [] (by decide)


/-! ## `output_glyph` does not depend on what the stream held before -/

theorem tellp_append (T : Format) (a b : List Idiom) :
    tellp T (a ++ b) = tellp T a + tellp T b := by
  unfold tellp
  rw [str_append, String.length_append]

theorem append_byte_shift (o : source_code_options) (T : Format) (pre : List Idiom)
    (st : glyph_state) :
    append_byte o T (st.shift T pre) = (append_byte o T st).shift T pre := by
  unfold append_byte glyph_state.shift
  generalize hb : (if o.invert_bits then bitset_flip st.bits else st.bits) % 2 ^ 8 = b
  have h1 : tellp T (pre ++ st.s ++ [Idiom.value 8 b]) - (tellp T pre + st.pos)
      = tellp T (st.s ++ [Idiom.value 8 b]) - st.pos := by
    rw [List.append_assoc, tellp_append T pre]; omega
  have h2 : tellp T (pre ++ st.s ++ [Idiom.value 8 b] ++ [Idiom.array_line_break])
      = tellp T pre + tellp T (st.s ++ [Idiom.value 8 b] ++ [Idiom.array_line_break]) := by
    rw [List.append_assoc, List.append_assoc, tellp_append T pre, List.append_assoc]
  simp only [hb, h1, h2]
  split_ifs <;> simp

theorem pixel_step_shift (o : source_code_options) (T : Format) (width : Nat)
    (pre : List Idiom) (st : glyph_state) (pixel : Bool) :
    pixel_step o T width (st.shift T pre) pixel = (pixel_step o T width st pixel).shift T pre := by
  unfold pixel_step
  have h := fun bits => append_byte_shift o T pre { st with bits := bits }
  simp only [glyph_state.shift] at h ⊢
  split_ifs <;> simp [h]

theorem foldl_pixel_step_shift (o : source_code_options) (T : Format) (width : Nat)
    (pre : List Idiom) (pixels : List Bool) (st : glyph_state) :
    pixels.foldl (pixel_step o T width) (st.shift T pre)
      = (pixels.foldl (pixel_step o T width) st).shift T pre := by
  induction pixels generalizing st with
  | nil => rfl
  | cons p ps ih => simp only [List.foldl_cons, pixel_step_shift, ih]

/-- Writing a glyph to a stream that holds `s` appends to `s` what writing it to an empty
stream produces. -/
theorem output_glyph_append (o : source_code_options) (T : Format) (glyph : Glyph) (size : Size)
    (margins : Margins) (s : List Idiom) :
    output_glyph o T glyph size margins s = s ++ output_glyph o T glyph size margins [] := by
  unfold output_glyph
  have h := foldl_pixel_step_shift o T size.width s (trimmed_pixels glyph margins)
    (glyph_state.mk 0 0 0 (tellp T []) ([] ++ [Idiom.begin_array_row o.indentation]))
  have h0 : tellp T [] = 0 := rfl
  simp only [glyph_state.shift, h0, Nat.add_zero, List.nil_append] at h ⊢
  rw [h]

/-! ## The glyph `9` -/

theorem pack_step_congr (o o2 : source_code_options) (hn : o.bit_numbering = o2.bit_numbering)
    (hi : o.invert_bits = o2.invert_bits) (width : Nat) :
    pack_step o width = pack_step o2 width := by
  funext st pixel
  unfold pack_step bit_index emitted_byte
  rw [hn, hi]

theorem pack_congr (o o2 : source_code_options) (hn : o.bit_numbering = o2.bit_numbering)
    (hi : o.invert_bits = o2.invert_bits) (width : Nat) (pixels : List Bool) :
    pack o width pixels = pack o2 width pixels := by
  unfold pack
  rw [pack_step_congr o o2 hn hi]

theorem size_and_margins_nine (o : source_code_options) (ids : List Nat) (m : Margins)
    (h : o.include_line_spacing = true ∨ (m.top = 0 ∧ m.bottom = 0)) :
    size_and_margins o (face_nine ids m)
      = ({ width := 8, height := 9 }, { top := 0, bottom := 0, left := 0, right := 0 }) := by
  unfold size_and_margins face_nine
  by_cases hb : o.include_line_spacing = true
  · simp [hb]
  · rcases h with h | ⟨ht, hbm⟩
    · exact absurd h hb
    · simp [hb, Size.with_margins, pixel_margins, ht, hbm]

theorem values_all_glyphs (o : source_code_options) (itf : generator_interface) (T : Format)
    (size : Size) (margins : Margins) (glyphs : List Glyph) (glyph_id : Nat) (s : List Idiom) :
    values (all_glyphs o itf T size margins glyphs glyph_id s)
      = values s ++ (glyphs.map fun g => pack o size.width (trimmed_pixels g margins)).flatten := by
  induction glyphs generalizing glyph_id s with
  | nil => simp [all_glyphs]
  | cons g gs ih =>
    unfold all_glyphs
    simp only [ih, values_append, values_output_glyph, values, List.append_nil, List.map_cons,
      List.flatten_cons, List.append_assoc]

theorem values_generate_all_stream (o : source_code_options) (itf : generator_interface)
    (T : Format) (face : Face) (font_name : String) :
    values (generate_all_stream o itf T face font_name)
      = (face.glyphs.map fun g => pack o (size_and_margins o face).1.width
          (trimmed_pixels g (size_and_margins o face).2)).flatten := by
  unfold generate_all_stream
  simp only [values_append, values_all_glyphs, values, List.append_nil, List.nil_append]

theorem values_generate_all_nine (o : source_code_options) (itf : generator_interface)
    (T : Format) (ids : List Nat) (m : Margins)
    (h : o.include_line_spacing = true ∨ (m.top = 0 ∧ m.bottom = 0)) :
    values (generate_all_stream o itf T (face_nine ids m) "font")
      = pack o 8 glyph_nine.pixels := by
  rw [values_generate_all_stream, size_and_margins_nine o ids m h]
  have hg : (face_nine ids m).glyphs = [glyph_nine] := rfl
  rw [hg]
  simp only [List.map_cons, List.map_nil, List.flatten_cons, List.flatten_nil, List.append_nil]
  rw [trimmed_pixels_zero _ _ rfl rfl]

set_option maxRecDepth 100000 in
theorem pack_nine_lsb : pack {} 8 glyph_nine.pixels = nine_lsb := by decide

set_option maxRecDepth 100000 in
theorem pack_nine_msb :
    pack { bit_numbering := BitNumbering.MSB } 8 glyph_nine.pixels = nine_documented := by
  decide

set_option maxRecDepth 100000 in
theorem output_glyph_nine_lsb (b : Bool) :
    output_glyph { export_method := ExportMethod.ExportAll, include_line_spacing := b }
        Format.C glyph_nine ⟨8, 9⟩ ⟨0, 0, 0, 0⟩ []
      = Idiom.begin_array_row "\t" :: nine_lsb.map (Idiom.value 8) := by
  cases b <;> decide

set_option maxRecDepth 100000 in
theorem output_glyph_nine_msb (b : Bool) :
    output_glyph
        { export_method := ExportMethod.ExportAll, bit_numbering := BitNumbering.MSB,
          include_line_spacing := b }
        Format.C glyph_nine ⟨8, 9⟩ ⟨0, 0, 0, 0⟩ []
      = Idiom.begin_array_row "\t" :: nine_documented.map (Idiom.value 8) := by
  cases b <;> decide

set_option maxRecDepth 100000 in
theorem str_nine_lsb :
    str Format.C (Idiom.begin_array_row "\t" :: nine_lsb.map (Idiom.value 8))
      = "\t0x3C,0x66,0x66,0x7C,0x60,0x60,0x66,0x3C,0x00," := by
  decide

set_option maxRecDepth 100000 in
theorem str_nine_msb :
    str Format.C (Idiom.begin_array_row "\t" :: nine_documented.map (Idiom.value 8))
      = "\t0x3C,0x66,0x66,0x3E,0x06,0x06,0x66,0x3C,0x00," := by
  decide

theorem generate_all_stream_nine (o : source_code_options) (itf : generator_interface)
    (ids : List Nat) (m : Margins)
    (h : o.include_line_spacing = true ∨ (m.top = 0 ∧ m.bottom = 0)) :
    generate_all_stream o itf Format.C (face_nine ids m) "font"
      = [Idiom.begin "font" ⟨8, 9⟩ itf.current_timestamp, Idiom.begin_array 8 "font"]
        ++ output_glyph o Format.C glyph_nine ⟨8, 9⟩ ⟨0, 0, 0, 0⟩ []
        ++ [Idiom.comment (itf.comment_for_glyph 0), Idiom.array_line_break,
            Idiom.end_array, Idiom.end_] := by
  unfold generate_all_stream
  rw [size_and_margins_nine o ids m h]
  have hg : (face_nine ids m).glyphs = [glyph_nine] := rfl
  rw [hg]
  simp only [all_glyphs]
  rw [output_glyph_append]
  simp

theorem str_nine (itf : generator_interface) (body : List Idiom) :
    str Format.C ([Idiom.begin "font" ⟨8, 9⟩ itf.current_timestamp, Idiom.begin_array 8 "font"]
        ++ body
        ++ [Idiom.comment (itf.comment_for_glyph 0), Idiom.array_line_break,
            Idiom.end_array, Idiom.end_])
      = nine_text itf (str Format.C body) := by
  have e : ∀ X : String, "\n\nconst unsigned char " ++ ("font" ++ ("[] = \x7b\n" ++ X))
      = "\n\nconst unsigned char font[] = \x7b\n" ++ X := fun X => by
    rw [← String.append_assoc, ← String.append_assoc]; rfl
  rw [str_append, str_append]
  simp only [str, Format.append, C_append, nine_text, String.append_assoc, String.append_empty, e]

/-- C3, as the code has it: for the one-glyph face of the 8 x 9 glyph `9`, with `invert_bits`
false, no rows trimmed, `ExportAll` and format C, the values emitted are
`0x3C,0x66,0x66,0x7C,0x60,0x60,0x66,0x3C,0x00` with LSB numbering and
`0x3C,0x66,0x66,0x3E,0x06,0x06,0x66,0x3C,0x00` with MSB numbering, for every `wrap_column` and
indentation; with `wrap_column` 80 and a tab they stand on one row inside the array opened by
`const unsigned char font[] = {` and closed by `};`. -/
theorem generate_nine (o : source_code_options) (itf : generator_interface) (ids : List Nat)
    (m : Margins) (hall : o.export_method = ExportMethod.ExportAll)
    (hinv : o.invert_bits = false)
    (hm : o.include_line_spacing = true ∨ (m.top = 0 ∧ m.bottom = 0)) :
    generate o itf Format.C (face_nine ids m) "font"
        = Except.ok (str Format.C (generate_all_stream o itf Format.C (face_nine ids m) "font")) ∧
    values (generate_all_stream o itf Format.C (face_nine ids m) "font")
        = (match o.bit_numbering with
            | BitNumbering.LSB => nine_lsb
            | BitNumbering.MSB => nine_documented) ∧
    (o.wrap_column = 80 → o.indentation = "\t" →
      generate o itf Format.C (face_nine ids m) "font"
        = Except.ok (nine_text itf
            (match o.bit_numbering with
              | BitNumbering.LSB => "\t0x3C,0x66,0x66,0x7C,0x60,0x60,0x66,0x3C,0x00,"
              | BitNumbering.MSB => "\t0x3C,0x66,0x66,0x3E,0x06,0x06,0x66,0x3C,0x00,"))) := by
  have hgen : generate o itf Format.C (face_nine ids m) "font"
      = Except.ok (str Format.C (generate_all_stream o itf Format.C (face_nine ids m) "font")) := by
    unfold generate generate_all
    rw [hall]
  refine ⟨hgen, ?_, ?_⟩
  · rw [values_generate_all_nine o itf Format.C ids m hm]
    cases hn : o.bit_numbering
    · rw [pack_congr o {} (by rw [hn]) (by rw [hinv]), pack_nine_lsb]
    · rw [pack_congr o { bit_numbering := BitNumbering.MSB } (by rw [hn]) (by rw [hinv]),
        pack_nine_msb]
  · intro hwrap hind
    rw [hgen, generate_all_stream_nine o itf ids m hm, str_nine]
    obtain ⟨wc, em, bn, ib, ils, ind⟩ := o
    simp only at hall hinv hwrap hind
    subst hall hinv hwrap hind
    cases bn
    · rw [output_glyph_nine_lsb ils, str_nine_lsb]
    · rw [output_glyph_nine_msb ils, str_nine_msb]

/-- The instance of `generate_nine` at the default `wrap_column` and indentation, LSB
numbering, line spacing included. -/
theorem generate_nine_witness :
    generate { export_method := ExportMethod.ExportAll, include_line_spacing := true }
        ⟨"now", fun _ => "9"⟩ Format.C (face_nine [] ⟨0, 1, 0, 0⟩) "font"
      = Except.ok (nine_text ⟨"now", fun _ => "9"⟩
          "\t0x3C,0x66,0x66,0x7C,0x60,0x60,0x66,0x3C,0x00,") :=
  (generate_nine { export_method := ExportMethod.ExportAll, include_line_spacing := true }
    ⟨"now", fun _ => "9"⟩ [] ⟨0, 1, 0, 0⟩ rfl rfl (Or.inl rfl)).2.2 rfl rfl

/-- C3 as stated fails: with LSB numbering the values emitted for the glyph `9` are not
`0x3C,0x66,0x66,0x3E,0x06,0x06,0x66,0x3C,0x00` (the fourth is `0x7C`). -/
theorem generate_nine_lsb_not_documented :
    values (generate_all_stream
        { export_method := ExportMethod.ExportAll, bit_numbering := BitNumbering.LSB,
          invert_bits := false, include_line_spacing := true }
        ⟨"now", fun _ => "9"⟩ Format.C (face_nine [] ⟨0, 0, 0, 0⟩) "font")
      ≠ [0x3C, 0x66, 0x66, 0x3E, 0x06, 0x06, 0x66, 0x3C, 0x00] := by
  rw [values_generate_all_nine _ _ _ _ _ (Or.inl rfl),
    pack_congr
      { export_method := ExportMethod.ExportAll, bit_numbering := BitNumbering.LSB,
        invert_bits := false, include_line_spacing := true } {} rfl rfl,
    pack_nine_lsb]
  decide

/-! ## LSB against MSB, inverted against plain -/

theorem rev_rel_bitset_set (a b bp : Nat) (p : Bool) (h : rev_rel a b) (hbp : bp < 8) :
    rev_rel (bitset_set a bp p) (bitset_set b (7 - bp) p) := by
  obtain ⟨ha, hb, hab⟩ := h
  refine ⟨bitset_set_lt _ _ _ ha hbp, bitset_set_lt _ _ _ hb (by omega), fun i hi => ?_⟩
  rw [testBit_bitset_set _ _ _ _ hi, testBit_bitset_set _ _ _ _ (show 7 - i < 8 by omega),
    hab i hi]
  by_cases e : i = 7 - bp
  · have e2 : 7 - i = bp := by omega
    rw [if_pos e, if_pos e2]
  · have e2 : ¬ 7 - i = bp := by omega
    rw [if_neg e, if_neg e2]

theorem rev_rel_emitted (ol om : source_code_options) (hinv : ol.invert_bits = om.invert_bits)
    (a b : Nat) (h : rev_rel a b) : rev_rel (emitted_byte ol a) (emitted_byte om b) := by
  obtain ⟨-, -, hab⟩ := h
  refine ⟨emitted_byte_lt _ _, emitted_byte_lt _ _, fun i hi => ?_⟩
  rw [testBit_emitted_byte _ _ _ hi, testBit_emitted_byte _ _ _ (show 7 - i < 8 by omega),
    hab i hi, hinv]

theorem rev_rel_zero : rev_rel 0 0 := by
  refine ⟨by decide, by decide, fun i _ => ?_⟩
  simp

theorem sim_numbering_step (ol om : source_code_options)
    (hl : ol.bit_numbering = BitNumbering.LSB) (hm : om.bit_numbering = BitNumbering.MSB)
    (hinv : ol.invert_bits = om.invert_bits) (width : Nat) (sl sm : pack_state) (p : Bool)
    (h : sim_numbering sl sm) :
    sim_numbering (pack_step ol width sl p) (pack_step om width sm p) := by
  obtain ⟨hbp, hcol, hlt, hbits, hout⟩ := h
  have hil : bit_index ol sl.bit_pos = sl.bit_pos := by unfold bit_index; rw [hl]
  have him : bit_index om sm.bit_pos = 7 - sl.bit_pos := by
    unfold bit_index byte_size; rw [hm, hbp]
  have hset := rev_rel_bitset_set sl.bits sm.bits sl.bit_pos p hbits hlt
  have hemit := rev_rel_emitted ol om hinv _ _ hset
  have hsnoc : List.Forall₂ rev_rel
      (sl.out ++ [emitted_byte ol (bitset_set sl.bits sl.bit_pos p)])
      (sm.out ++ [emitted_byte om (bitset_set sm.bits (7 - sl.bit_pos) p)]) :=
    List.rel_append hout (List.Forall₂.cons hemit List.Forall₂.nil)
  unfold pack_step
  rw [hil, him, hbp, hcol]
  by_cases h1 : sl.col + 1 ≥ width
  · simp only [h1, if_true]
    exact ⟨rfl, rfl, by simp, rev_rel_zero, hsnoc⟩
  · by_cases h2 : sl.bit_pos + 1 ≥ byte_size
    · simp only [h1, h2, if_true, if_false]
      exact ⟨rfl, rfl, by simp, rev_rel_zero, hsnoc⟩
    · simp only [h1, h2, if_false]
      refine ⟨rfl, rfl, ?_, hset, hout⟩
      unfold byte_size at h2
      show sl.bit_pos + 1 < 8
      omega

theorem sim_numbering_foldl (ol om : source_code_options)
    (hl : ol.bit_numbering = BitNumbering.LSB) (hm : om.bit_numbering = BitNumbering.MSB)
    (hinv : ol.invert_bits = om.invert_bits) (width : Nat) (pixels : List Bool)
    (sl sm : pack_state) (h : sim_numbering sl sm) :
    sim_numbering (pixels.foldl (pack_step ol width) sl) (pixels.foldl (pack_step om width) sm) := by
  induction pixels generalizing sl sm with
  | nil => exact h
  | cons p ps ih =>
    simp only [List.foldl_cons]
    exact ih _ _ (sim_numbering_step ol om hl hm hinv width sl sm p h)

theorem pack_lsb_msb (ol om : source_code_options)
    (hl : ol.bit_numbering = BitNumbering.LSB) (hm : om.bit_numbering = BitNumbering.MSB)
    (hinv : ol.invert_bits = om.invert_bits) (width : Nat) (pixels : List Bool) :
    List.Forall₂ rev_rel (pack ol width pixels) (pack om width pixels) :=
  (sim_numbering_foldl ol om hl hm hinv width pixels _ _
    ⟨rfl, rfl, by decide, rev_rel_zero, List.Forall₂.nil⟩).2.2.2.2

/-- C4: for every glyph, size, margins, format and options, the bytes `output_glyph` emits with
MSB numbering are as many as with LSB numbering (the other options equal), every byte is
below 256, and bit `i` of the `n`-th MSB byte is bit `7 - i` of the `n`-th LSB byte. -/
theorem lsb_msb_bit_reversed (o : source_code_options) (T : Format) (glyph : Glyph)
    (size : Size) (margins : Margins) :
    (glyph_bytes { o with bit_numbering := BitNumbering.MSB } T glyph size margins).length
      = (glyph_bytes { o with bit_numbering := BitNumbering.LSB } T glyph size margins).length ∧
    ∀ n, n < (glyph_bytes { o with bit_numbering := BitNumbering.LSB }
        T glyph size margins).length →
      (glyph_bytes { o with bit_numbering := BitNumbering.LSB } T glyph size margins).getD n 0
          < 256 ∧
      (glyph_bytes { o with bit_numbering := BitNumbering.MSB } T glyph size margins).getD n 0
          < 256 ∧
      ∀ i, i < 8 →
        ((glyph_bytes { o with bit_numbering := BitNumbering.MSB }
            T glyph size margins).getD n 0).testBit i
          = ((glyph_bytes { o with bit_numbering := BitNumbering.LSB }
            T glyph size margins).getD n 0).testBit (7 - i) := by
  rw [glyph_bytes_eq_pack, glyph_bytes_eq_pack]
  have h := pack_lsb_msb { o with bit_numbering := BitNumbering.LSB }
    { o with bit_numbering := BitNumbering.MSB } rfl rfl rfl size.width
    (trimmed_pixels glyph margins)
  rw [List.forall₂_iff_get] at h
  obtain ⟨hlen, hget⟩ := h
  refine ⟨hlen.symm, fun n hn => ?_⟩
  have hn2 : n < (pack { o with bit_numbering := BitNumbering.MSB } size.width
      (trimmed_pixels glyph margins)).length := by rw [← hlen]; exact hn
  have hr := hget n hn hn2
  rw [List.getD_eq_getElem _ _ hn, List.getD_eq_getElem _ _ hn2]
  exact hr

/-- The instance of `lsb_msb_bit_reversed` at the glyph `9`, read at its fourth byte:
`0x3E` against `0x7C`. -/
theorem lsb_msb_bit_reversed_witness :
    (glyph_bytes { bit_numbering := BitNumbering.MSB } Format.C glyph_nine ⟨8, 9⟩
        ⟨0, 0, 0, 0⟩).length
      = (glyph_bytes { bit_numbering := BitNumbering.LSB } Format.C glyph_nine ⟨8, 9⟩
        ⟨0, 0, 0, 0⟩).length ∧
    ((glyph_bytes { bit_numbering := BitNumbering.MSB } Format.C glyph_nine ⟨8, 9⟩
        ⟨0, 0, 0, 0⟩).getD 3 0).testBit 1
      = ((glyph_bytes { bit_numbering := BitNumbering.LSB } Format.C glyph_nine ⟨8, 9⟩
        ⟨0, 0, 0, 0⟩).getD 3 0).testBit (7 - 1) :=
  ⟨(lsb_msb_bit_reversed {} Format.C glyph_nine ⟨8, 9⟩ ⟨0, 0, 0, 0⟩).1,
   ((lsb_msb_bit_reversed {} Format.C glyph_nine ⟨8, 9⟩ ⟨0, 0, 0, 0⟩).2 3
      (by rw [glyph_bytes_eq_pack, trimmed_pixels_zero _ _ rfl rfl, pack_nine_lsb]
          decide)).2.2 1 (by decide)⟩

theorem sim_invert_step (op oi : source_code_options)
    (hn : op.bit_numbering = oi.bit_numbering) (hp : op.invert_bits = false)
    (hi : oi.invert_bits = true) (width : Nat) (sp si : pack_state) (p : Bool)
    (h : sim_invert sp si) :
    sim_invert (pack_step op width sp p) (pack_step oi width si p) := by
  obtain ⟨hbits, hbp, hcol, hlt, hbplt, hout⟩ := h
  have hidx : bit_index oi si.bit_pos = bit_index op sp.bit_pos := by
    unfold bit_index; rw [hn, hbp]
  have hidxlt : bit_index op sp.bit_pos < 8 := bit_index_lt op _ hbplt
  have hb1 := bitset_set_lt sp.bits (bit_index op sp.bit_pos) p hlt hidxlt
  have hemit : ∀ b, b < 256 → emitted_byte oi b = emitted_byte op b ^^^ 0xFF := by
    intro b hb
    unfold emitted_byte bitset_flip byte_size
    rw [hp, hi]
    simp only [if_true, Bool.false_eq_true, if_false]
    have h1 : b ^^^ (2 ^ 8 - 1) < 2 ^ 8 :=
      Nat.xor_lt_two_pow (show b < 2 ^ 8 from hb) (by decide)
    rw [Nat.mod_eq_of_lt h1, Nat.mod_eq_of_lt (show b < 2 ^ 8 from hb)]
    rfl
  unfold pack_step
  rw [hidx, hbits, hbp, hcol]
  by_cases h1 : sp.col + 1 ≥ width
  · simp only [h1, if_true]
    refine ⟨rfl, rfl, rfl, by simp, by simp, ?_⟩
    simp only [hout, List.map_append, List.map_cons, List.map_nil, hemit _ hb1]
  · by_cases h2 : sp.bit_pos + 1 ≥ byte_size
    · simp only [h1, h2, if_true, if_false]
      refine ⟨rfl, rfl, rfl, by simp, by simp, ?_⟩
      simp only [hout, List.map_append, List.map_cons, List.map_nil, hemit _ hb1]
    · simp only [h1, h2, if_false]
      refine ⟨rfl, rfl, rfl, hb1, ?_, hout⟩
      unfold byte_size at h2
      show sp.bit_pos + 1 < 8
      omega

theorem sim_invert_foldl (op oi : source_code_options)
    (hn : op.bit_numbering = oi.bit_numbering) (hp : op.invert_bits = false)
    (hi : oi.invert_bits = true) (width : Nat) (pixels : List Bool)
    (sp si : pack_state) (h : sim_invert sp si) :
    sim_invert (pixels.foldl (pack_step op width) sp) (pixels.foldl (pack_step oi width) si) := by
  induction pixels generalizing sp si with
  | nil => exact h
  | cons p ps ih =>
    simp only [List.foldl_cons]
    exact ih _ _ (sim_invert_step op oi hn hp hi width sp si p h)

theorem pack_invert (op oi : source_code_options)
    (hn : op.bit_numbering = oi.bit_numbering) (hp : op.invert_bits = false)
    (hi : oi.invert_bits = true) (width : Nat) (pixels : List Bool) :
    pack oi width pixels = (pack op width pixels).map (fun b => b ^^^ 0xFF) :=
  (sim_invert_foldl op oi hn hp hi width pixels _ _
    ⟨rfl, rfl, rfl, by decide, by decide, rfl⟩).2.2.2.2.2

theorem map_xor_xor (l : List Nat) :
    (l.map (fun b => b ^^^ 0xFF)).map (fun b => b ^^^ 0xFF) = l := by
  rw [List.map_map]
  have : ((fun b => b ^^^ 0xFF) ∘ fun b : Nat => b ^^^ 0xFF) = id := by
    funext b
    simp only [Function.comp, id]
    rw [Nat.xor_assoc, Nat.xor_self, Nat.xor_zero]
  rw [this, List.map_id]

/-- C5: for every glyph, size, margins, format and options, the bytes emitted with
`invert_bits` true are, position by position, the bytes emitted with `invert_bits` false
XOR `0xFF` (all eight bits, those padding a row's last byte too, so the inverted padding bits
are 1), and complementing the inverted bytes once more gives back the bytes emitted without
inversion. -/
theorem invert_bits_complement (o : source_code_options) (T : Format) (glyph : Glyph)
    (size : Size) (margins : Margins) :
    glyph_bytes { o with invert_bits := true } T glyph size margins
      = (glyph_bytes { o with invert_bits := false } T glyph size margins).map
          (fun b => b ^^^ 0xFF) ∧
    (glyph_bytes { o with invert_bits := true } T glyph size margins).map (fun b => b ^^^ 0xFF)
      = glyph_bytes { o with invert_bits := false } T glyph size margins ∧
    (glyph_bytes { o with invert_bits := true } T glyph size margins).length
      = (glyph_bytes { o with invert_bits := false } T glyph size margins).length := by
  have h := pack_invert { o with invert_bits := false } { o with invert_bits := true }
    rfl rfl rfl size.width (trimmed_pixels glyph margins)
  rw [glyph_bytes_eq_pack, glyph_bytes_eq_pack, h]
  exact ⟨rfl, map_xor_xor _, List.length_map _ _⟩

/-! ## The lookup table (`subset_lut`) -/

theorem rank_succ (ids : List Nat) (hn : ids.Nodup) (n : Nat) :
    rank ids (n + 1) = rank ids n + (if n ∈ ids then 1 else 0) := by
  unfold rank
  induction ids with
  | nil => simp
  | cons a t ih =>
    have hat : a ∉ t := (List.nodup_cons.mp hn).1
    have ht := ih (List.nodup_cons.mp hn).2
    simp only [List.filter_cons, List.mem_cons]
    by_cases h1 : a < n
    · have h2 : a < n + 1 := by omega
      have h3 : ¬ n = a := by omega
      simp only [h1, h2, h3, decide_True, if_true, List.length_cons, false_or]
      omega
    · by_cases h2 : a = n
      · subst h2
        have h3 : a < a + 1 := by omega
        simp only [h1, h3, decide_True, decide_False, if_true, List.length_cons, true_or,
          Bool.false_eq_true, if_false]
        rw [ht, if_neg hat]
      · have h3 : ¬ a < n + 1 := by omega
        have h4 : ¬ n = a := fun e => h2 e.symm
        simp only [h1, h3, h4, decide_False, Bool.false_eq_true, if_false, false_or]
        exact ht

theorem lut_step_exported_id (o : source_code_options) (itf : generator_interface) (V : Nat)
    (ids : List Nat) (bpg : Nat) (st : lut_state) (g : Nat) :
    (lut_step o itf V ids bpg st g).exported_id
      = if g ∈ ids then (st.exported_id + 1) % 2 ^ 16 else st.exported_id := by
  unfold lut_step
  split_ifs <;> rfl

theorem lut_step_values (o : source_code_options) (itf : generator_interface) (V : Nat)
    (ids : List Nat) (bpg : Nat) (st : lut_state) (g : Nat) :
    values (lut_step o itf V ids bpg st g).s
      = values st.s ++ [if g ∈ ids then (bpg * st.exported_id) % 2 ^ 64 % 2 ^ V else 0] := by
  unfold lut_step
  by_cases hg : g ∈ ids
  · simp only [hg, if_true]
    cases st.is_previous_exported <;> simp [values_append, values]
  · simp only [hg, if_false]
    cases st.is_previous_exported <;> simp [values_append, values]

theorem lut_foldl (o : source_code_options) (itf : generator_interface) (V : Nat)
    (ids : List Nat) (hn : ids.Nodup) (bpg : Nat) (s0 : List Idiom) (n : Nat) :
    ((List.range n).foldl (lut_step o itf V ids bpg)
        { exported_id := 0, is_previous_exported := true, s := s0 }).exported_id
      = rank ids n % 2 ^ 16 ∧
    values ((List.range n).foldl (lut_step o itf V ids bpg)
        { exported_id := 0, is_previous_exported := true, s := s0 }).s
      = values s0 ++ (List.range n).map (lut_entry V ids bpg) := by
  induction n with
  | zero => simp [rank]
  | succ n ih =>
    obtain ⟨h1, h2⟩ := ih
    rw [List.range_succ, List.foldl_append]
    simp only [List.foldl_cons, List.foldl_nil]
    constructor
    · rw [lut_step_exported_id, h1, rank_succ ids hn]
      split_ifs <;> omega
    · rw [lut_step_values, h2, h1, List.map_append, List.append_assoc]
      rfl

/-- The values of the table `subset_lut<T, V>` returns, for a non-empty set of ids. -/
theorem values_subset_lut (o : source_code_options) (itf : generator_interface) (V : Nat)
    (ids : List Nat) (hn : ids.Nodup) (bpg : Nat) (last : Nat)
    (hlast : ids.getLast? = some last) :
    ∃ lut, subset_lut o itf V ids bpg = Except.ok lut ∧
      values lut = (List.range (last + 1)).map (lut_entry V ids bpg) := by
  unfold subset_lut
  rw [hlast]
  refine ⟨_, rfl, ?_⟩
  rw [values_append, (lut_foldl o itf V ids hn bpg _ (last + 1)).2]
  simp [values]

theorem ascending_nodup (ids : List Nat) (h : ascending ids) : ids.Nodup :=
  List.Pairwise.imp (fun hab => Nat.ne_of_lt hab) h

theorem rank_getElem (ids : List Nat) (h : ascending ids) (k : Nat) (hk : k < ids.length) :
    rank ids ids[k] = k := by
  induction ids generalizing k with
  | nil => simp at hk
  | cons a t ih =>
    have hp := List.pairwise_cons.mp h
    cases k with
    | zero =>
      simp only [List.getElem_cons_zero, rank, List.filter_cons, Nat.lt_irrefl, decide_False,
        Bool.false_eq_true, if_false]
      rw [List.length_eq_zero, List.filter_eq_nil_iff]
      intro b hb
      have := hp.1 b hb
      simp only [decide_eq_true_eq]
      omega
    | succ k =>
      have hk2 : k < t.length := by simpa using hk
      have hlt : a < t[k] := hp.1 _ (List.getElem_mem hk2)
      have := ih hp.2 k hk2
      simp only [List.getElem_cons_succ, rank, List.filter_cons, hlt, decide_True, if_true,
        List.length_cons]
      unfold rank at this
      omega

theorem ascending_le_getLast (ids : List Nat) (h : ascending ids) (last : Nat)
    (hlast : ids.getLast? = some last) : ∀ i, i ∈ ids → i ≤ last := by
  obtain ⟨ys, rfl⟩ := List.getLast?_eq_some_iff.mp hlast
  intro i hi
  rcases List.mem_append.mp hi with h1 | h1
  · have := List.pairwise_append.mp h
    exact Nat.le_of_lt (this.2.2 i h1 last (by simp))
  · simp at h1; omega

theorem max_offset_eq (count bpg : Nat) (hc : 1 ≤ count) (hc2 : count ≤ 2 ^ 64)
    (hfit : (count - 1) * bpg < 2 ^ 64) : max_offset count bpg = (count - 1) * bpg := by
  unfold max_offset
  have h1 : (count + 2 ^ 64 - 1) % 2 ^ 64 = count - 1 := by omega
  rw [h1, Nat.mod_eq_of_lt hfit]

theorem lut_bits_holds (m : Nat) (hm : m < 2 ^ 64) : m < 2 ^ lut_bits m := by
  unfold lut_bits
  simp only [Nat.one_shiftLeft]
  split_ifs <;> assumption

theorem max_offset_lt (count bpg : Nat) : max_offset count bpg < 2 ^ 64 :=
  Nat.mod_lt _ (by decide)

/-- Without wrap-around, the table entry of the `k`-th exported id is `k * bytes_per_glyph`. -/
theorem lut_entry_getElem (ids : List Nat) (h : ascending ids) (bpg : Nat)
    (hcount : ids.length ≤ 2 ^ 16) (hfit : (ids.length - 1) * bpg < 2 ^ 64)
    (k : Nat) (hk : k < ids.length) :
    lut_entry (lut_bits (max_offset ids.length bpg)) ids bpg ids[k] = k * bpg := by
  unfold lut_entry
  rw [if_pos (List.getElem_mem hk), rank_getElem ids h k hk]
  have hk16 : k % 2 ^ 16 = k := Nat.mod_eq_of_lt (by omega)
  have hle : bpg * k ≤ (ids.length - 1) * bpg := by
    rw [Nat.mul_comm]; exact Nat.mul_le_mul_right _ (by omega)
  have hmo := max_offset_eq ids.length bpg (by omega)
    (le_trans hcount (by decide)) hfit
  have hV := lut_bits_holds _ (max_offset_lt ids.length bpg)
  rw [hk16, Nat.mod_eq_of_lt (by omega), Nat.mod_eq_of_lt (by omega), Nat.mul_comm]

theorem values_subset_lut_of (o : source_code_options) (itf : generator_interface)
    (ids : List Nat) (h : ascending ids) (bpg : Nat) (last : Nat)
    (hlast : ids.getLast? = some last) :
    ∃ lut, subset_lut_of o itf ids bpg = Except.ok lut ∧
      values lut = (List.range (last + 1)).map
        (lut_entry (lut_bits (max_offset ids.length bpg)) ids bpg) := by
  unfold subset_lut_of
  exact values_subset_lut o itf _ ids (ascending_nodup ids h) bpg last hlast

theorem getD_map_range (f : Nat → Nat) (n i : Nat) (hi : i < n) :
    ((List.range n).map f).getD i 0 = f i := by
  rw [List.getD_eq_getElem _ _ (by simpa using hi), List.getElem_map, List.getElem_range]

theorem lut_step_s (o : source_code_options) (itf : generator_interface) (V : Nat)
    (ids : List Nat) (bpg : Nat) (st : lut_state) (g : Nat) :
    ∃ t, (lut_step o itf V ids bpg st g).s = st.s ++ t := by
  unfold lut_step
  by_cases hg : g ∈ ids
  · simp only [hg, if_true]
    cases st.is_previous_exported
    · exact ⟨_, by simp only [Bool.not_false, if_true, List.append_assoc]; rfl⟩
    · exact ⟨_, by simp only [Bool.not_true, Bool.false_eq_true, if_false,
        List.append_assoc]; rfl⟩
  · simp only [hg, if_false]
    cases st.is_previous_exported
    · exact ⟨_, by simp only [Bool.false_eq_true, if_false]; rfl⟩
    · exact ⟨_, by simp only [if_true, List.append_assoc]; rfl⟩

theorem lut_foldl_s (o : source_code_options) (itf : generator_interface) (V : Nat)
    (ids : List Nat) (bpg : Nat) (l : List Nat) (st : lut_state) :
    ∃ t, (l.foldl (lut_step o itf V ids bpg) st).s = st.s ++ t := by
  induction l generalizing st with
  | nil => exact ⟨[], by simp⟩
  | cons g gs ih =>
    obtain ⟨t1, h1⟩ := lut_step_s o itf V ids bpg st g
    obtain ⟨t2, h2⟩ := ih (lut_step o itf V ids bpg st g)
    exact ⟨t1 ++ t2, by simp only [List.foldl_cons, h2, h1, List.append_assoc]⟩

theorem subset_lut_head (o : source_code_options) (itf : generator_interface) (V : Nat)
    (ids : List Nat) (hne : ids ≠ []) (bpg : Nat) :
    ∃ rest, subset_lut o itf V ids bpg = Except.ok (Idiom.begin_array V "lut" :: rest) := by
  unfold subset_lut
  rw [List.getLast?_eq_getLast ids hne]
  obtain ⟨t, ht⟩ := lut_foldl_s o itf V ids bpg (List.range (ids.getLast hne + 1))
    { exported_id := 0, is_previous_exported := true, s := [Idiom.begin_array V "lut"] }
  exact ⟨t ++ [Idiom.end_array], by simp only [ht]; rfl⟩

/-- C6, the code at an input where it departs from the claim: with the 65537 exported ids
0..65536 and 16 bytes per glyph, `generate_subset` selects a 32-bit table of 65537 values,
and the value at index 65536 (the exported id of position 65536) is 0, not `65536 * 16`:
the `uint16_t` counter `exported_id` has wrapped. -/
theorem subset_lut_counter_wraps (o : source_code_options) (itf : generator_interface) :
    ∃ lut, subset_lut_of o itf (List.range 65537) 16 = Except.ok lut ∧
      lut.head? = some (Idiom.begin_array 32 "lut") ∧
      (values lut).length = 65537 ∧
      (values lut).getD 65535 0 = 65535 * 16 ∧
      (values lut).getD 65536 0 = 0 := by
  have hasc : ascending (List.range 65537) := List.pairwise_lt_range _
  have hlast : (List.range 65537).getLast? = some 65536 := by
    rw [List.getLast?_range]; rfl
  have hlen : (List.range 65537).length = 65537 := List.length_range _
  have hV : lut_bits (max_offset (List.range 65537).length 16) = 32 := by
    rw [hlen]; decide
  obtain ⟨lut, hl, hv⟩ := values_subset_lut_of o itf _ hasc 16 65536 hlast
  obtain ⟨rest, hr⟩ := subset_lut_head o itf 32 (List.range 65537)
    (by intro e; rw [e] at hlen; simp at hlen) 16
  have hr2 : subset_lut_of o itf (List.range 65537) 16
      = Except.ok (Idiom.begin_array 32 "lut" :: rest) := by
    show subset_lut o itf (lut_bits (max_offset (List.range 65537).length 16))
      (List.range 65537) 16 = _
    rw [hV]; exact hr
  have hrank : ∀ k, k < 65537 → rank (List.range 65537) k = k := by
    intro k hk
    have := rank_getElem (List.range 65537) hasc k (by rw [hlen]; exact hk)
    rwa [List.getElem_range] at this
  refine ⟨lut, hl, ?_, ?_, ?_, ?_⟩
  · rw [hl] at hr2
    cases hr2
    rfl
  · rw [hv, List.length_map, List.length_range]
  · rw [hv, getD_map_range _ _ _ (by decide), hV]
    unfold lut_entry
    rw [if_pos (List.mem_range.mpr (by decide)), hrank _ (by decide)]
    decide
  · rw [hv, getD_map_range _ _ _ (by decide), hV]
    unfold lut_entry
    rw [if_pos (List.mem_range.mpr (by decide)), hrank _ (by decide)]
    decide

/-- The table of `generate_subset` when the counter does not wrap: one value per index up to
the largest exported id, `k * bytes_per_glyph` at the `k`-th exported id, 0 elsewhere. -/
theorem subset_lut_of_spec (o : source_code_options) (itf : generator_interface)
    (ids : List Nat) (h : ascending ids) (bpg : Nat) (last : Nat)
    (hlast : ids.getLast? = some last)
    (hcount : ids.length ≤ 2 ^ 16) (hfit : (ids.length - 1) * bpg < 2 ^ 64) :
    ∃ lut, subset_lut_of o itf ids bpg = Except.ok lut ∧
      (values lut).length = last + 1 ∧
      (∀ i, i ≤ last → i ∉ ids → (values lut).getD i 0 = 0) ∧
      (∀ k (hk : k < ids.length), (values lut).getD ids[k] 0 = k * bpg) := by
  obtain ⟨lut, hl, hv⟩ := values_subset_lut_of o itf ids h bpg last hlast
  refine ⟨lut, hl, ?_, ?_, ?_⟩
  · rw [hv, List.length_map, List.length_range]
  · intro i hi hni
    rw [hv, getD_map_range _ _ _ (by omega)]
    unfold lut_entry
    rw [if_neg hni]
  · intro k hk
    have hle := ascending_le_getLast ids h last hlast _ (List.getElem_mem hk)
    rw [hv, getD_map_range _ _ _ (by omega)]
    exact lut_entry_getElem ids h bpg hcount hfit k hk

/-- C7: for a non-empty exported set, the table of `generate_subset` is opened with the
element type of `lut_bits m` bits, where `m` is `max_offset` as the code computes it;
that width is 8 iff `m < 2^8`, 16 iff `2^8 ≤ m < 2^16`, 32 iff `2^16 ≤ m < 2^32`, 64
otherwise; it holds `m` and no smaller of the four widths does; `m` is
`(exported_count - 1) * bytes_per_glyph` whenever that product is below `2^64`; and 2
exported glyphs of 100 bytes give `m = 100` and 8 bits. -/
theorem lut_element_type (o : source_code_options) (itf : generator_interface)
    (ids : List Nat) (bpg m : Nat) (hne : ids ≠ [])
    (hm : m = max_offset ids.length bpg) :
    (∃ rest, subset_lut_of o itf ids bpg
        = Except.ok (Idiom.begin_array (lut_bits m) "lut" :: rest)) ∧
    (lut_bits m = 8 ↔ m < 2 ^ 8) ∧
    (lut_bits m = 16 ↔ 2 ^ 8 ≤ m ∧ m < 2 ^ 16) ∧
    (lut_bits m = 32 ↔ 2 ^ 16 ≤ m ∧ m < 2 ^ 32) ∧
    (lut_bits m = 64 ↔ 2 ^ 32 ≤ m) ∧
    m < 2 ^ lut_bits m ∧
    (∀ V, V ∈ [8, 16, 32, 64] → m < 2 ^ V → lut_bits m ≤ V) ∧
    (ids.length ≤ 2 ^ 64 → (ids.length - 1) * bpg < 2 ^ 64 → m = (ids.length - 1) * bpg) ∧
    max_offset 2 100 = 100 ∧ lut_bits 100 = 8 := by
  have hlt : m < 2 ^ 64 := by rw [hm]; exact max_offset_lt _ _
  have hcount : 1 ≤ ids.length := by
    cases ids with
    | nil => exact absurd rfl hne
    | cons a t => simp
  refine ⟨?_, ?_, ?_, ?_, ?_, lut_bits_holds m hlt, ?_, ?_, by decide, by decide⟩
  · obtain ⟨rest, hr⟩ := subset_lut_head o itf (lut_bits m) ids hne bpg
    exact ⟨rest, by rw [← hr, hm]; rfl⟩
  · unfold lut_bits; simp only [Nat.one_shiftLeft]; split_ifs <;> omega
  · unfold lut_bits; simp only [Nat.one_shiftLeft]; split_ifs <;> omega
  · unfold lut_bits; simp only [Nat.one_shiftLeft]; split_ifs <;> omega
  · unfold lut_bits; simp only [Nat.one_shiftLeft]; split_ifs <;> omega
  · intro V hV hmV
    simp only [List.mem_cons, List.mem_singleton, List.not_mem_nil, or_false] at hV
    unfold lut_bits; simp only [Nat.one_shiftLeft]
    rcases hV with rfl | rfl | rfl | rfl <;> split_ifs <;> omega
  · intro h1 h2
    rw [hm]; exact max_offset_eq _ _ hcount h1 h2

/-- The instance of `lut_element_type` at the exported ids 2 and 5 with 100 bytes per
glyph: an 8-bit table. -/
theorem lut_element_type_witness :
    ∃ rest, subset_lut_of {} ⟨"", fun _ => ""⟩ [2, 5] 100
      = Except.ok (Idiom.begin_array 8 "lut" :: rest) :=
  (lut_element_type {} ⟨"", fun _ => ""⟩ [2, 5] 100 100 (by decide) (by decide)).1

/-- C8, as the code has it: for a non-empty exported set of at most 65536 ids and
`bytes_per_glyph ≥ 1` (with `max_offset` below `2^64`), the table values of the exported
glyphs, read in ascending glyph-id order, are strictly increasing, and each is below
`max_offset + bytes_per_glyph` where `max_offset = (exported_count - 1) * bytes_per_glyph`. -/
theorem lut_offsets_increasing (o : source_code_options) (itf : generator_interface)
    (ids : List Nat) (bpg : Nat) (h : ascending ids) (hne : ids ≠ []) (hbpg : 1 ≤ bpg)
    (hcount : ids.length ≤ 2 ^ 16) (hfit : (ids.length - 1) * bpg < 2 ^ 64) :
    ∃ lut, subset_lut_of o itf ids bpg = Except.ok lut ∧
      (ids.map fun i => (values lut).getD i 0).Pairwise (fun a b => a < b) ∧
      ∀ i, i ∈ ids → (values lut).getD i 0 < (ids.length - 1) * bpg + bpg := by
  obtain ⟨lut, hl, -, -, hk⟩ := subset_lut_of_spec o itf ids h bpg _
    (List.getLast?_eq_getLast ids hne) hcount hfit
  refine ⟨lut, hl, ?_, ?_⟩
  · rw [List.pairwise_iff_getElem]
    intro i j hi hj hij
    rw [List.length_map] at hi hj
    rw [List.getElem_map, List.getElem_map, hk i hi, hk j hj]
    exact Nat.mul_lt_mul_of_lt_of_le hij (le_refl _) (by omega)
  · intro i hi
    obtain ⟨k, hklt, rfl⟩ := List.mem_iff_getElem.mp hi
    rw [hk k hklt]
    have : k * bpg ≤ (ids.length - 1) * bpg := Nat.mul_le_mul_right _ (by omega)
    omega

/-- The instance of `lut_offsets_increasing` at the exported ids 2 and 5 with 16 bytes per
glyph. -/
theorem lut_offsets_increasing_witness :
    ∃ lut, subset_lut_of {} ⟨"", fun _ => ""⟩ [2, 5] 16 = Except.ok lut ∧
      ([2, 5].map fun i => (values lut).getD i 0).Pairwise (fun a b => a < b) ∧
      ∀ i, i ∈ [2, 5] → (values lut).getD i 0 < ([2, 5].length - 1) * 16 + 16 :=
  lut_offsets_increasing {} ⟨"", fun _ => ""⟩ [2, 5] 16 (by decide) (by decide) (by decide)
    (by decide) (by decide)

/-- C8 as stated fails for `bytes_per_glyph = 0`: with the exported ids 0 and 1 both table
values are 0, so they are not strictly increasing and not below `max_offset +
bytes_per_glyph = 0`. -/
theorem lut_offsets_not_increasing :
    ∃ lut, subset_lut_of {} ⟨"", fun _ => ""⟩ [0, 1] 0 = Except.ok lut ∧
      ([0, 1].map fun i => (values lut).getD i 0) = [0, 0] ∧
      ¬ ([0, 1].map fun i => (values lut).getD i 0).Pairwise (fun a b => a < b) ∧
      ¬ ((values lut).getD 0 0 < ([0, 1].length - 1) * 0 + 0) :=
  ⟨_, rfl, by decide, by decide, by decide⟩

/-! ## The generator: when it returns, and what depends on the time -/

theorem all_glyphs_append (o : source_code_options) (itf : generator_interface) (T : Format)
    (size : Size) (margins : Margins) (glyphs : List Glyph) (glyph_id : Nat) (s : List Idiom) :
    all_glyphs o itf T size margins glyphs glyph_id s
      = s ++ all_glyphs o itf T size margins glyphs glyph_id [] := by
  induction glyphs generalizing glyph_id s with
  | nil => simp [all_glyphs]
  | cons g gs ih =>
    unfold all_glyphs
    simp only []
    rw [ih, ih (glyph_id + 1) (_ ++ _), output_glyph_append o T g size margins s]
    simp only [List.append_assoc]

theorem subset_glyphs_append (o : source_code_options) (itf : generator_interface)
    (T : Format) (face : Face) (size : Size) (margins : Margins) (ids : List Nat)
    (s : List Idiom) :
    subset_glyphs o itf T face size margins ids s
      = (subset_glyphs o itf T face size margins ids []).map (fun b => s ++ b) := by
  induction ids generalizing s with
  | nil => simp [subset_glyphs, Except.map]
  | cons g gs ih =>
    unfold subset_glyphs
    cases hg : face.glyph_at g with
    | error e => rfl
    | ok glyph =>
      simp only []
      rw [ih, ih (_ ++ _), output_glyph_append o T glyph size margins s]
      cases subset_glyphs o itf T face size margins gs [] with
      | error e => rfl
      | ok b => simp [Except.map, List.append_assoc]

theorem glyph_at_ok (face : Face) (i : Nat) (h : i < face.glyphs.length) :
    face.glyph_at i = Except.ok face.glyphs[i] := by
  unfold Face.glyph_at
  rw [List.get?_eq_getElem?, List.getElem?_eq_getElem h]

theorem glyph_at_error (face : Face) (i : Nat) (h : ¬ i < face.glyphs.length) :
    face.glyph_at i = Except.error Failure.out_of_range := by
  unfold Face.glyph_at
  rw [List.get?_eq_getElem?, List.getElem?_eq_none (by omega)]

theorem subset_glyphs_ok (o : source_code_options) (itf : generator_interface)
    (T : Format) (face : Face) (size : Size) (margins : Margins) (ids : List Nat)
    (h : ∀ i, i ∈ ids → i < face.glyphs.length) (s : List Idiom) :
    ∃ b, subset_glyphs o itf T face size margins ids s = Except.ok b := by
  induction ids generalizing s with
  | nil => exact ⟨s, rfl⟩
  | cons g gs ih =>
    unfold subset_glyphs
    rw [glyph_at_ok face g (h g (by simp))]
    exact ih (fun i hi => h i (by simp [hi])) _

theorem subset_glyphs_error (o : source_code_options) (itf : generator_interface)
    (T : Format) (face : Face) (size : Size) (margins : Margins) (ids : List Nat)
    (h : ∃ i, i ∈ ids ∧ ¬ i < face.glyphs.length) (s : List Idiom) :
    subset_glyphs o itf T face size margins ids s = Except.error Failure.out_of_range := by
  induction ids generalizing s with
  | nil => obtain ⟨i, hi, -⟩ := h; simp at hi
  | cons g gs ih =>
    unfold subset_glyphs
    by_cases hg : g < face.glyphs.length
    · rw [glyph_at_ok face g hg]
      obtain ⟨i, hi, hni⟩ := h
      have hi2 : i ∈ gs := by
        rcases List.mem_cons.mp hi with e | e
        · subst e; exact absurd hg hni
        · exact e
      exact ih ⟨i, hi2, hni⟩ _
    · rw [glyph_at_error face g hg]

theorem subset_lut_of_ok (o : source_code_options) (itf : generator_interface)
    (ids : List Nat) (hne : ids ≠ []) (bpg : Nat) :
    ∃ lut, subset_lut_of o itf ids bpg = Except.ok lut := by
  obtain ⟨rest, hr⟩ := subset_lut_head o itf (lut_bits (max_offset ids.length bpg)) ids hne bpg
  exact ⟨_, hr⟩

theorem subset_lut_of_nil (o : source_code_options) (itf : generator_interface) (bpg : Nat) :
    subset_lut_of o itf [] bpg = Except.error Failure.undefined := rfl

theorem generate_subset_out_of_range (o : source_code_options) (itf : generator_interface)
    (T : Format) (face : Face) (font_name : String)
    (h : ∃ i, i ∈ face.exported_glyph_ids ∧ ¬ i < face.glyphs.length) :
    generate_subset o itf T face font_name = Except.error Failure.out_of_range := by
  unfold generate_subset generate_subset_stream
  simp only []
  rw [subset_glyphs_error o itf T face _ _ _ h]

theorem generate_subset_empty (o : source_code_options) (itf : generator_interface)
    (T : Format) (face : Face) (font_name : String) (h : face.exported_glyph_ids = []) :
    generate_subset o itf T face font_name = Except.error Failure.undefined := by
  unfold generate_subset generate_subset_stream
  simp only []
  rw [h, subset_lut_of_nil]
  rfl

theorem generate_subset_ok (o : source_code_options) (itf : generator_interface)
    (T : Format) (face : Face) (font_name : String) (hne : face.exported_glyph_ids ≠ [])
    (h : ∀ i, i ∈ face.exported_glyph_ids → i < face.glyphs.length) :
    ∃ text, generate_subset o itf T face font_name = Except.ok text := by
  unfold generate_subset generate_subset_stream
  simp only []
  obtain ⟨b, hb⟩ := subset_glyphs_ok o itf T face (size_and_margins o face).1
    (size_and_margins o face).2 face.exported_glyph_ids h
    ([Idiom.begin font_name (size_and_margins o face).1 itf.current_timestamp]
      ++ [Idiom.begin_array 8 font_name])
  obtain ⟨lut, hl⟩ := subset_lut_of_ok o itf face.exported_glyph_ids hne
    (bytes_per_glyph (size_and_margins o face).1)
  rw [hb]
  simp only []
  rw [hl]
  exact ⟨_, rfl⟩

/-- C9, as the code has it: with `ExportAll`, `generate` returns the text of `generate_all`
for every face, also for a face with no glyphs; with `ExportSelected` it raises
(`out_of_range`, from `glyph_at`) and returns no text when some exported id is not the index
of a glyph, as is the case for a face with no glyphs and a non-empty exported set; and with
`ExportSelected` and a non-empty exported set it returns text exactly when every exported id
is the index of a glyph. -/
theorem generate_returns (o : source_code_options) (itf : generator_interface) (T : Format)
    (face : Face) (font_name : String) :
    (o.export_method = ExportMethod.ExportAll →
      generate o itf T face font_name = Except.ok (generate_all o itf T face font_name)) ∧
    (o.export_method = ExportMethod.ExportSelected →
      (∃ i, i ∈ face.exported_glyph_ids ∧ ¬ i < face.glyphs.length) →
      generate o itf T face font_name = Except.error Failure.out_of_range) ∧
    (o.export_method = ExportMethod.ExportSelected → face.glyphs = [] →
      face.exported_glyph_ids ≠ [] →
      generate o itf T face font_name = Except.error Failure.out_of_range) ∧
    (o.export_method = ExportMethod.ExportSelected → face.exported_glyph_ids ≠ [] →
      ((∃ text, generate o itf T face font_name = Except.ok text) ↔
        ∀ i, i ∈ face.exported_glyph_ids → i < face.glyphs.length)) := by
  have hall : o.export_method = ExportMethod.ExportAll →
      generate o itf T face font_name = Except.ok (generate_all o itf T face font_name) := by
    intro h; unfold generate; rw [h]
  have hsel : o.export_method = ExportMethod.ExportSelected →
      generate o itf T face font_name = generate_subset o itf T face font_name := by
    intro h; unfold generate; rw [h]
  refine ⟨hall, ?_, ?_, ?_⟩
  · intro h hex
    rw [hsel h]; exact generate_subset_out_of_range o itf T face font_name hex
  · intro h hg hne
    rw [hsel h]
    apply generate_subset_out_of_range
    cases hids : face.exported_glyph_ids with
    | nil => exact absurd hids hne
    | cons i rest => exact ⟨i, List.mem_cons_self _ _, by rw [hg]; simp⟩
  · intro h hne
    rw [hsel h]
    constructor
    · rintro ⟨text, ht⟩ i hi
      by_contra hni
      rw [generate_subset_out_of_range o itf T face font_name ⟨i, hi, hni⟩] at ht
      cases ht
    · intro hr
      exact generate_subset_ok o itf T face font_name hne hr

/-- The instance of `generate_returns` at `ExportSelected` and a face with no glyphs whose
exported set names glyph 0: `glyph_at` raises. -/
theorem generate_returns_witness :
    generate { export_method := ExportMethod.ExportSelected } ⟨"now", fun _ => ""⟩ Format.C
        { empty_face with exported_glyph_ids := [0] } "font"
      = Except.error Failure.out_of_range :=
  (generate_returns { export_method := ExportMethod.ExportSelected } ⟨"now", fun _ => ""⟩
    Format.C { empty_face with exported_glyph_ids := [0] } "font").2.1 rfl
    ⟨0, by decide, by decide⟩

/-- C9 as stated fails: with `ExportAll`, `generate` on a face with no glyphs returns the
text of a source file with an empty array. -/
theorem generate_all_empty_face_returns :
    generate { export_method := ExportMethod.ExportAll } ⟨"now", fun _ => ""⟩ Format.C
        empty_face "font"
      = Except.ok
          "//\n// Font Data\n// Created: now\n//\n\n\nconst unsigned char font[] = \x7b\n\x7d;\n\n\n" :=
  congrArg Except.ok (by decide)

theorem all_glyphs_congr (o : source_code_options) (itf itf2 : generator_interface)
    (h : itf.comment_for_glyph = itf2.comment_for_glyph) (T : Format)
    (size : Size) (margins : Margins) (glyphs : List Glyph) (glyph_id : Nat) (s : List Idiom) :
    all_glyphs o itf T size margins glyphs glyph_id s
      = all_glyphs o itf2 T size margins glyphs glyph_id s := by
  induction glyphs generalizing glyph_id s with
  | nil => rfl
  | cons g gs ih =>
    unfold all_glyphs
    simp only [h, ih]

theorem subset_glyphs_congr (o : source_code_options) (itf itf2 : generator_interface)
    (h : itf.comment_for_glyph = itf2.comment_for_glyph) (T : Format) (face : Face)
    (size : Size) (margins : Margins) (ids : List Nat) (s : List Idiom) :
    subset_glyphs o itf T face size margins ids s
      = subset_glyphs o itf2 T face size margins ids s := by
  induction ids generalizing s with
  | nil => rfl
  | cons g gs ih =>
    unfold subset_glyphs
    cases face.glyph_at g with
    | error e => rfl
    | ok glyph => simp only [h, ih]

theorem subset_lut_of_congr (o : source_code_options) (itf itf2 : generator_interface)
    (h : itf.comment_for_glyph = itf2.comment_for_glyph) (ids : List Nat) (bpg : Nat) :
    subset_lut_of o itf ids bpg = subset_lut_of o itf2 ids bpg := by
  have hs : ∀ V, lut_step o itf V ids bpg = lut_step o itf2 V ids bpg := by
    intro V; funext st g; unfold lut_step; rw [h]
  unfold subset_lut_of subset_lut
  simp only [hs]

/-- C10, as the code has it: the text `generate` returns is the header that the format
writes for `begin` with the current timestamp, followed by a text that depends on the face,
the options, the format, the font name and `comment_for_glyph` only; in format C the header is
`//`, `// Font Data`, `// Created: <timestamp>`, `//`. Whether the call returns at all does not
depend on the timestamp either. -/
theorem generate_timestamp_in_header_only (o : source_code_options)
    (comment_for_glyph : Nat → String) (T : Format) (face : Face) (font_name : String) :
    (∃ rest : Except Failure String, ∀ timestamp,
      generate o ⟨timestamp, comment_for_glyph⟩ T face font_name
        = rest.map (fun r =>
            T.append (Idiom.begin font_name (size_and_margins o face).1 timestamp) ++ r)) ∧
    (∀ size timestamp, Format.append Format.C (Idiom.begin font_name size timestamp)
        = "//\n// Font Data\n// Created: " ++ timestamp ++ "\n//\n") := by
  refine ⟨?_, fun _ _ => rfl⟩
  cases hm : o.export_method with
  | ExportAll =>
    refine ⟨Except.ok (str T ([Idiom.begin_array 8 font_name]
      ++ all_glyphs o ⟨"", comment_for_glyph⟩ T (size_and_margins o face).1
          (size_and_margins o face).2 face.glyphs 0 []
      ++ [Idiom.end_array] ++ [Idiom.end_])), fun ts => ?_⟩
    unfold generate generate_all generate_all_stream
    rw [hm]
    simp only []
    rw [all_glyphs_append,
      all_glyphs_congr o ⟨ts, comment_for_glyph⟩ ⟨"", comment_for_glyph⟩ rfl]
    simp only [Except.map, List.singleton_append, List.cons_append, List.nil_append, str,
      List.append_assoc]
  | ExportSelected =>
    refine ⟨match subset_glyphs o ⟨"", comment_for_glyph⟩ T face (size_and_margins o face).1
        (size_and_margins o face).2 face.exported_glyph_ids [] with
      | Except.error e => Except.error e
      | Except.ok body =>
        match subset_lut_of o ⟨"", comment_for_glyph⟩ face.exported_glyph_ids
            (bytes_per_glyph (size_and_margins o face).1) with
        | Except.error e => Except.error e
        | Except.ok lut => Except.ok (str T ([Idiom.begin_array 8 font_name] ++ body
            ++ [Idiom.end_array] ++ lut ++ [Idiom.end_])), fun ts => ?_⟩
    unfold generate generate_subset generate_subset_stream
    rw [hm]
    simp only []
    rw [subset_glyphs_append,
      subset_glyphs_congr o ⟨ts, comment_for_glyph⟩ ⟨"", comment_for_glyph⟩ rfl,
      subset_lut_of_congr o ⟨ts, comment_for_glyph⟩ ⟨"", comment_for_glyph⟩ rfl]
    cases subset_glyphs o ⟨"", comment_for_glyph⟩ T face (size_and_margins o face).1
        (size_and_margins o face).2 face.exported_glyph_ids [] with
    | error e => rfl
    | ok body =>
      cases subset_lut_of o ⟨"", comment_for_glyph⟩ face.exported_glyph_ids
          (bytes_per_glyph (size_and_margins o face).1) with
      | error e => rfl
      | ok lut =>
        simp only [Except.map, List.singleton_append, List.cons_append, List.nil_append, str,
          List.append_assoc, List.append_eq]

/-- C10 as stated fails: two calls of `generate` with equal face, options, format and font
name, made at times with different timestamps, return different texts. -/
theorem generate_depends_on_time :
    generate { export_method := ExportMethod.ExportAll } ⟨"12:00", fun _ => ""⟩ Format.C
        empty_face "font"
      ≠ generate { export_method := ExportMethod.ExportAll } ⟨"12:01", fun _ => ""⟩ Format.C
        empty_face "font" := by
  intro h
  have h2 : generate_all { export_method := ExportMethod.ExportAll } ⟨"12:00", fun _ => ""⟩
      Format.C empty_face "font"
      = generate_all { export_method := ExportMethod.ExportAll } ⟨"12:01", fun _ => ""⟩
        Format.C empty_face "font" := Except.ok.inj h
  revert h2
  decide

/-! ## The text of a value and of the opening of an array -/

theorem hex_digits_small (fuel n : Nat) (hn : n < 16) :
    hex_digits (fuel + 1) n = [hex_digit n] := by
  unfold hex_digits
  rw [if_pos hn]

theorem hex_setw2_byte (b : Nat) (hb : b < 256) :
    hex_setw2 b = String.mk [hex_digit (b / 16), hex_digit (b % 16)] := by
  unfold hex_setw2
  by_cases h : b < 16
  · rw [hex_digits_small b b h]
    have h1 : b / 16 = 0 := by omega
    have h2 : b % 16 = b := by omega
    rw [h1, h2]
    rfl
  · obtain ⟨k, rfl⟩ : ∃ k, b = k + 1 := ⟨b - 1, by omega⟩
    have h3 : hex_digits (k + 1 + 1) (k + 1)
        = hex_digits (k + 1) ((k + 1) / 16) ++ [hex_digit ((k + 1) % 16)] := by
      rw [hex_digits, if_neg h]
    rw [h3, hex_digits_small k _ (by omega)]
    rfl

theorem hex_digit_inj : ∀ i, i < 16 → ∀ j, j < 16 → hex_digit i = hex_digit j → i = j := by
  decide

theorem hex_pair_inj (b c : Nat) (hb : b < 256) (hc : c < 256)
    (h1 : hex_digit (b / 16) = hex_digit (c / 16))
    (h2 : hex_digit (b % 16) = hex_digit (c % 16)) : b = c := by
  have e1 := hex_digit_inj _ (by omega) _ (by omega) h1
  have e2 := hex_digit_inj _ (by omega) _ (by omega) h2
  omega

theorem C_append_value (V b : Nat) (hb : b < 256) :
    C_append (Idiom.value V b)
      = String.mk ['0', 'x', hex_digit (b / 16), hex_digit (b % 16), ','] := by
  show "0x" ++ hex_setw2 b ++ "," = _
  rw [hex_setw2_byte b hb]
  rfl

theorem PythonBytes_append_value (V b : Nat) (hb : b < 256) :
    PythonBytes_append (Idiom.value V b)
      = String.mk ['\\', 'x', hex_digit (b / 16), hex_digit (b % 16)] := by
  show "\\x" ++ hex_setw2 b = _
  rw [hex_setw2_byte b hb]
  rfl

/-- The text of a byte value has 5 characters in the C, Arduino and Python list formats and
4 in the Python bytes format. -/
theorem value_text_length (T : Format) (V b : Nat) (hb : b < 256) :
    (T.append (Idiom.value V b)).length
      = match T with
        | Format.PythonBytes => 4
        | _ => 5 := by
  cases T
  · show (C_append (Idiom.value V b)).length = 5
    rw [C_append_value V b hb]; rfl
  · show (C_append (Idiom.value V b)).length = 5
    rw [C_append_value V b hb]; rfl
  · show (C_append (Idiom.value V b)).length = 5
    rw [C_append_value V b hb]; rfl
  · show (PythonBytes_append (Idiom.value V b)).length = 4
    rw [PythonBytes_append_value V b hb]; rfl

/-- C12: for every byte `b < 256` the C, Arduino and Python list formats write a value as
`0x`, the upper-case hexadecimal digit of `b / 16`, that of `b % 16`, and `,` (5 characters);
the Python bytes format writes a backslash, `x` and the same two digits (4 characters); the
digits are those of `0123456789ABCDEF`, and in each format different bytes have different
texts. -/
theorem value_text (V b : Nat) (hb : b < 256) :
    Format.append Format.C (Idiom.value V b)
        = String.mk ['0', 'x', hex_digit (b / 16), hex_digit (b % 16), ','] ∧
    Format.append Format.Arduino (Idiom.value V b)
        = String.mk ['0', 'x', hex_digit (b / 16), hex_digit (b % 16), ','] ∧
    Format.append Format.PythonList (Idiom.value V b)
        = String.mk ['0', 'x', hex_digit (b / 16), hex_digit (b % 16), ','] ∧
    Format.append Format.PythonBytes (Idiom.value V b)
        = String.mk ['\\', 'x', hex_digit (b / 16), hex_digit (b % 16)] ∧
    (List.range 16).map hex_digit = "0123456789ABCDEF".toList ∧
    (∀ T : Format, (T.append (Idiom.value V b)).length
        = match T with
          | Format.PythonBytes => 4
          | _ => 5) ∧
    (∀ (T : Format) (c : Nat), c < 256 →
      T.append (Idiom.value V b) = T.append (Idiom.value V c) → b = c) := by
  refine ⟨C_append_value V b hb, C_append_value V b hb, C_append_value V b hb,
    PythonBytes_append_value V b hb, by decide, fun T => value_text_length T V b hb, ?_⟩
  intro T c hc h
  have hC : C_append (Idiom.value V b) = C_append (Idiom.value V c) → b = c := by
    intro e
    rw [C_append_value V b hb, C_append_value V c hc] at e
    have e2 := congrArg String.data e
    simp only [List.cons.injEq, and_true, true_and] at e2
    exact hex_pair_inj b c hb hc e2.1 e2.2
  cases T
  · exact hC h
  · exact hC h
  · exact hC h
  · have e : PythonBytes_append (Idiom.value V b) = PythonBytes_append (Idiom.value V c) := h
    rw [PythonBytes_append_value V b hb, PythonBytes_append_value V c hc] at e
    have e2 := congrArg String.data e
    simp only [List.cons.injEq, and_true, true_and] at e2
    exact hex_pair_inj b c hb hc e2.1 e2.2

/-- The instance of `value_text` at the byte `0x3E`, read in the C format. -/
theorem value_text_witness :
    Format.append Format.C (Idiom.value 8 0x3E)
      = String.mk ['0', 'x', hex_digit (0x3E / 16), hex_digit (0x3E % 16), ','] :=
  (value_text 8 0x3E (by decide)).1

/-- C13, as the code has it: for every array name the opening of an array is written as two
line ends followed by one line: `const unsigned char NAME[] = {` in format C,
`const uint8_t NAME[] PROGMEM = {` in format Arduino, `NAME = [` in the Python list format and
`NAME = b'' \` in the Python bytes format. -/
theorem begin_array_text (V : Nat) (name : String) :
    Format.append Format.C (Idiom.begin_array V name)
        = "\n\n" ++ ("const unsigned char " ++ name ++ "[] = \x7b") ++ "\n" ∧
    Format.append Format.Arduino (Idiom.begin_array V name)
        = "\n\n" ++ ("const uint8_t " ++ name ++ "[] PROGMEM = \x7b") ++ "\n" ∧
    Format.append Format.PythonList (Idiom.begin_array V name)
        = "\n\n" ++ (name ++ " = [") ++ "\n" ∧
    Format.append Format.PythonBytes (Idiom.begin_array V name)
        = "\n\n" ++ (name ++ " = b\x27\x27 \\") ++ "\n" := by
  have e1 : "\n\nconst unsigned char " = "\n\n" ++ "const unsigned char " := by decide
  have e2 : "[] = \x7b\n" = "[] = \x7b" ++ "\n" := by decide
  have e3 : "\n\nconst uint8_t " = "\n\n" ++ "const uint8_t " := by decide
  have e4 : "[] PROGMEM = \x7b\n" = "[] PROGMEM = \x7b" ++ "\n" := by decide
  have e5 : " = [\n" = " = [" ++ "\n" := by decide
  have e6 : " = b\x27\x27 \\\n" = " = b\x27\x27 \\" ++ "\n" := by decide
  refine ⟨?_, ?_, ?_, ?_⟩
  · show "\n\nconst unsigned char " ++ name ++ "[] = \x7b\n" = _
    rw [e1, e2]; simp only [String.append_assoc]
  · show "\n\nconst uint8_t " ++ name ++ "[] PROGMEM = \x7b\n" = _
    rw [e3, e4]; simp only [String.append_assoc]
  · show "\n\n" ++ name ++ " = [\n" = _
    rw [e5]; simp only [String.append_assoc]
  · show "\n\n" ++ name ++ " = b\x27\x27 \\\n" = _
    rw [e6]; simp only [String.append_assoc]

/-- C13 as stated fails for the Arduino format: the opening of the array `font` is
`const uint8_t font[] PROGMEM = {`, which does not contain `const unsigned char font[]`. -/
theorem arduino_begin_array_not_unsigned_char :
    Format.append Format.Arduino (Idiom.begin_array 8 "font")
        = "\n\nconst uint8_t font[] PROGMEM = \x7b\n" ∧
    ¬ ("const unsigned char font[]".toList
        <:+: (Format.append Format.Arduino (Idiom.begin_array 8 "font")).toList) := by
  decide

/-! ## Pixel offsets and glyph access (`fontdata.h`) -/

theorem offset_eq (sz : Size) (hfit : sz.width * sz.height ≤ 2 ^ 64) (p : Point)
    (hx : p.x < sz.width) (hy : p.y < sz.height) :
    p.offset sz = p.y * sz.width + p.x ∧ p.y * sz.width + p.x < sz.width * sz.height := by
  have h1 : (p.y + 1) * sz.width ≤ sz.height * sz.width := Nat.mul_le_mul_right _ (by omega)
  have h2 : (p.y + 1) * sz.width = p.y * sz.width + sz.width := Nat.succ_mul _ _
  have h3 : sz.width * sz.height = sz.height * sz.width := Nat.mul_comm _ _
  have hlt : p.y * sz.width + p.x < sz.width * sz.height := by omega
  exact ⟨Nat.mod_eq_of_lt (by omega), hlt⟩

theorem offset_lt (sz : Size) (hfit : sz.width * sz.height ≤ 2 ^ 64) (p : Point)
    (hx : p.x < sz.width) (hy : p.y < sz.height) :
    p.offset sz < sz.width * sz.height := by
  rw [(offset_eq sz hfit p hx hy).1]
  exact (offset_eq sz hfit p hx hy).2

theorem offset_inj (sz : Size) (hfit : sz.width * sz.height ≤ 2 ^ 64) (p q : Point)
    (hpx : p.x < sz.width) (hpy : p.y < sz.height) (hqx : q.x < sz.width)
    (hqy : q.y < sz.height) (h : p.offset sz = q.offset sz) : p = q := by
  rw [(offset_eq sz hfit p hpx hpy).1, (offset_eq sz hfit q hqx hqy).1] at h
  have h1 := div_mod_of_lt p.y sz.width p.x hpx
  have h2 := div_mod_of_lt q.y sz.width q.x hqx
  rw [h] at h1
  have hy : p.y = q.y := by rw [← h1.1, h2.1]
  have hx : p.x = q.x := by rw [← h1.2, h2.2]
  cases p; cases q
  simp only at hx hy
  rw [hx, hy]

/-- C17, as the code has it: for every size whose pixel count `width * height` is at most
`2 ^ 64`, so that no offset of an in-range point wraps in `std::size_t`, and every point with
`x < width` and `y < height`, the offset is `y * width + x` and is below `width * height`;
two such points with the same offset are equal; every index below `width * height` is the
offset of the in-range point `(n % width, n / width)`; offsets of in-range points grow in
row-major order; and so writing the pixel at one in-range point changes the pixel read at
that point and at no other in-range point. -/
theorem point_offset_bijective (sz : Size) (hfit : sz.width * sz.height ≤ 2 ^ 64) :
    (∀ p : Point, p.x < sz.width → p.y < sz.height →
      p.offset sz = p.y * sz.width + p.x ∧ p.offset sz < sz.width * sz.height) ∧
    (∀ p q : Point, p.x < sz.width → p.y < sz.height → q.x < sz.width → q.y < sz.height →
      p.offset sz = q.offset sz → p = q) ∧
    (∀ n, n < sz.width * sz.height →
      n % sz.width < sz.width ∧ n / sz.width < sz.height ∧
      (Point.mk (n % sz.width) (n / sz.width)).offset sz = n) ∧
    (∀ p q : Point, p.x < sz.width → p.y < sz.height → q.x < sz.width → q.y < sz.height →
      (p.offset sz < q.offset sz ↔ p.y < q.y ∨ (p.y = q.y ∧ p.x < q.x))) ∧
    (∀ (g : Glyph) (p q : Point) (v : Bool), g.size = sz →
      g.pixels.length = sz.width * sz.height →
      p.x < sz.width → p.y < sz.height → q.x < sz.width → q.y < sz.height →
      (g.set_pixel_set p v).is_pixel_set q = if q = p then v else g.is_pixel_set q) := by
  refine ⟨fun p hx hy => ⟨(offset_eq sz hfit p hx hy).1, offset_lt sz hfit p hx hy⟩,
    fun p q hpx hpy hqx hqy h => offset_inj sz hfit p q hpx hpy hqx hqy h, ?_, ?_, ?_⟩
  · intro n hn
    have hw : 0 < sz.width := by
      rcases Nat.eq_zero_or_pos sz.width with h0 | h0
      · rw [h0] at hn; simp at hn
      · exact h0
    have hm : n % sz.width < sz.width := Nat.mod_lt _ hw
    have hd : n / sz.width < sz.height := by
      rw [Nat.div_lt_iff_lt_mul hw, Nat.mul_comm]; exact hn
    refine ⟨hm, hd, ?_⟩
    rw [(offset_eq sz hfit ⟨n % sz.width, n / sz.width⟩ hm hd).1]
    exact Nat.div_add_mod' n sz.width
  · intro p q hpx hpy hqx hqy
    rw [(offset_eq sz hfit p hpx hpy).1, (offset_eq sz hfit q hqx hqy).1]
    constructor
    · intro h
      by_cases hy : p.y < q.y
      · exact Or.inl hy
      · right
        have h1 : q.y * sz.width ≤ p.y * sz.width := Nat.mul_le_mul_right _ (by omega)
        by_cases he : p.y = q.y
        · rw [he] at h; exact ⟨he, by omega⟩
        · have h2 : (q.y + 1) * sz.width ≤ p.y * sz.width :=
            Nat.mul_le_mul_right _ (by omega)
          have h3 : (q.y + 1) * sz.width = q.y * sz.width + sz.width := Nat.succ_mul _ _
          omega
    · rintro (hy | ⟨hy, hx⟩)
      · have h2 : (p.y + 1) * sz.width ≤ q.y * sz.width := Nat.mul_le_mul_right _ (by omega)
        have h3 : (p.y + 1) * sz.width = p.y * sz.width + sz.width := Nat.succ_mul _ _
        omega
      · rw [hy]; omega
  · intro g p q v hsz hlen hpx hpy hqx hqy
    unfold Glyph.is_pixel_set Glyph.set_pixel_set
    simp only [hsz]
    rw [List.getD_eq_getElem?_getD, List.getD_eq_getElem?_getD, List.getElem?_set]
    have hpl : p.offset sz < g.pixels.length := by
      rw [hlen]; exact offset_lt sz hfit p hpx hpy
    by_cases e : q = p
    · subst e
      simp [hpl]
    · have e2 : ¬ p.offset sz = q.offset sz :=
        fun hh => e (offset_inj sz hfit q p hqx hqy hpx hpy hh.symm)
      rw [if_neg e2, if_neg e]

/-- The instance of `point_offset_bijective` at the size 8 x 9 and the point (3, 2). -/
theorem point_offset_bijective_witness :
    (Point.mk 3 2).offset ⟨8, 9⟩ = 2 * 8 + 3 ∧ (Point.mk 3 2).offset ⟨8, 9⟩ < 8 * 9 :=
  (point_offset_bijective ⟨8, 9⟩ (by decide)).1 ⟨3, 2⟩ (by decide) (by decide)

/-- C17 as stated fails: for the size of width `2 ^ 32` and height `2 ^ 32 + 1` the points
`(0, 2 ^ 32)` and `(0, 0)` are both in range and differ, and both have the offset 0: the
product `2 ^ 32 * 2 ^ 32` wraps in `std::size_t`, so that the offset of the first point is
not `y * width + x`. -/
theorem point_offset_wraps :
    1 ≤ (Size.mk (2 ^ 32) (2 ^ 32 + 1)).width ∧
    (Point.mk 0 (2 ^ 32)).x < (Size.mk (2 ^ 32) (2 ^ 32 + 1)).width ∧
    (Point.mk 0 (2 ^ 32)).y < (Size.mk (2 ^ 32) (2 ^ 32 + 1)).height ∧
    (Point.mk 0 0).x < (Size.mk (2 ^ 32) (2 ^ 32 + 1)).width ∧
    (Point.mk 0 0).y < (Size.mk (2 ^ 32) (2 ^ 32 + 1)).height ∧
    Point.mk 0 (2 ^ 32) ≠ Point.mk 0 0 ∧
    (Point.mk 0 (2 ^ 32)).offset ⟨2 ^ 32, 2 ^ 32 + 1⟩ = 0 ∧
    (Point.mk 0 0).offset ⟨2 ^ 32, 2 ^ 32 + 1⟩ = 0 ∧
    (Point.mk 0 (2 ^ 32)).offset ⟨2 ^ 32, 2 ^ 32 + 1⟩ ≠ 2 ^ 32 * 2 ^ 32 + 0 := by
  decide

theorem char_value_of_lt (code : Nat) (h : code < 128) : char_value code = (code : Int) := by
  unfold char_value
  have h1 : code % 2 ^ 8 = code := Nat.mod_eq_of_lt (by omega)
  rw [h1, if_pos h]

theorem char_value_of_ge (code : Nat) (h1 : 128 ≤ code) (h2 : code < 256) :
    char_value code = (code : Int) - 256 := by
  unfold char_value
  have h3 : code % 2 ^ 8 = code := Nat.mod_eq_of_lt (by omega)
  rw [h3, if_neg (by omega)]
  rfl

theorem subscript_of_lt (face : Face) (i : Nat) (h : i < face.glyphs.length)
    (hc : i + 32 ≤ 127) : face.subscript (i + 32) = Except.ok face.glyphs[i] := by
  unfold Face.subscript
  simp only
  rw [char_value_of_lt (i + 32) (by omega)]
  have h1 : ¬ (((i + 32 : Nat) : Int) < 32) := by omega
  have h2 : (((i + 32 : Nat) : Int) - 32).toNat = i := by omega
  rw [if_neg h1, h2, List.get?_eq_getElem?, List.getElem?_eq_getElem h]

theorem subscript_below_space (face : Face) (code : Nat)
    (h : code < 32 ∨ (128 ≤ code ∧ code < 256)) :
    face.subscript code = Except.error Failure.out_of_range := by
  unfold Face.subscript
  simp only
  rcases h with h | ⟨h1, h2⟩
  · rw [char_value_of_lt code (by omega), if_pos (by omega)]
  · rw [char_value_of_ge code h1 h2, if_pos (by omega)]

/-- C18, as the code has it: `glyph_at(i)` raises for every index `i` outside
`[0, num_glyphs)` and returns the `i`-th glyph inside it; `operator[]` raises for every
character that compares below the space character, which are the codes 0 to 31 and, `char`
being signed, the codes 128 to 255, and called with the character of code `i + 32` it
returns the `i`-th glyph for `i` inside the range with `i + 32` at most 127. -/
theorem glyph_access (face : Face) :
    (∀ i, ¬ i < face.glyphs.length → face.glyph_at i = Except.error Failure.out_of_range) ∧
    (∀ i (h : i < face.glyphs.length), face.glyph_at i = Except.ok face.glyphs[i]) ∧
    (∀ code, code < 32 → face.subscript code = Except.error Failure.out_of_range) ∧
    (∀ code, 128 ≤ code → code < 256 →
      face.subscript code = Except.error Failure.out_of_range) ∧
    (∀ i (h : i < face.glyphs.length), i + 32 ≤ 127 →
      face.subscript (i + 32) = Except.ok face.glyphs[i]) :=
  ⟨fun i h => glyph_at_error face i h, fun i h => glyph_at_ok face i h,
    fun code h => subscript_below_space face code (Or.inl h),
    fun code h1 h2 => subscript_below_space face code (Or.inr ⟨h1, h2⟩),
    fun i h hc => subscript_of_lt face i h hc⟩

/-- The instance of `glyph_access` at the one-glyph face of the glyph `9`: index 1 is outside
the range and `glyph_at` raises. -/
theorem glyph_access_witness :
    (face_nine [] ⟨0, 0, 0, 0⟩).glyph_at 1 = Except.error Failure.out_of_range :=
  (glyph_access (face_nine [] ⟨0, 0, 0, 0⟩)).1 1 (by decide)

/-- C18 as stated fails: on a face of 97 glyphs the index 96 is inside the range and
`glyph_at(96)` returns the glyph, but `operator[]` called with the character of code
`96 + 32 = 128` raises: as a signed `char` it is negative and compares below the space
character. -/
theorem subscript_inside_raises :
    96 < (Face.mk ⟨8, 2⟩ (List.replicate 97 glyph_8x2) [] ⟨0, 0, 0, 0⟩).glyphs.length ∧
    (Face.mk ⟨8, 2⟩ (List.replicate 97 glyph_8x2) [] ⟨0, 0, 0, 0⟩).glyph_at 96
      = Except.ok glyph_8x2 ∧
    (Face.mk ⟨8, 2⟩ (List.replicate 97 glyph_8x2) [] ⟨0, 0, 0, 0⟩).subscript (96 + 32)
      = Except.error Failure.out_of_range ∧
    (Face.mk ⟨8, 2⟩ (List.replicate 97 glyph_8x2) [] ⟨0, 0, 0, 0⟩).subscript (96 + 32)
      ≠ Except.ok glyph_8x2 := by
  have h : (Face.mk ⟨8, 2⟩ (List.replicate 97 glyph_8x2) [] ⟨0, 0, 0, 0⟩).subscript (96 + 32)
      = Except.error Failure.out_of_range :=
    subscript_below_space _ _ (Or.inr ⟨by decide, by decide⟩)
  refine ⟨by decide, ?_, h, ?_⟩
  · rw [glyph_at_ok _ 96 (by decide)]
    exact congrArg Except.ok (by decide)
  · rw [h]
    intro e
    cases e

/-! ## The class documentation against the code -/

/-- C19, the code at the rows of the class documentation: with default-constructed options
(LSB numbering) the row `..XXXXX.` is packed to `0x7C` and the row `...######........` to
`0xF8, 0x01, 0x00`, and a row whose only set pixel is the leftmost one to `0x01`: the
leftmost pixel is in the lowest bit. The documented bytes `0x3E` and `0x1F, 0x80, 0x00`, and
`0x80` for the leftmost pixel, are what MSB numbering gives. -/
theorem default_options_pack_lowest_bit_first (T : Format) :
    glyph_bytes {} T ⟨⟨8, 1⟩, row_doc_8⟩ ⟨8, 1⟩ ⟨0, 0, 0, 0⟩ = [0x7C] ∧
    glyph_bytes {} T ⟨⟨17, 1⟩, row_doc_17⟩ ⟨17, 1⟩ ⟨0, 0, 0, 0⟩ = [0xF8, 0x01, 0x00] ∧
    glyph_bytes {} T ⟨⟨8, 1⟩, true :: List.replicate 7 false⟩ ⟨8, 1⟩ ⟨0, 0, 0, 0⟩ = [0x01] ∧
    glyph_bytes { bit_numbering := BitNumbering.MSB } T ⟨⟨8, 1⟩, row_doc_8⟩ ⟨8, 1⟩
        ⟨0, 0, 0, 0⟩ = [0x3E] ∧
    glyph_bytes { bit_numbering := BitNumbering.MSB } T ⟨⟨17, 1⟩, row_doc_17⟩ ⟨17, 1⟩
        ⟨0, 0, 0, 0⟩ = [0x1F, 0x80, 0x00] ∧
    glyph_bytes { bit_numbering := BitNumbering.MSB } T
        ⟨⟨8, 1⟩, true :: List.replicate 7 false⟩ ⟨8, 1⟩ ⟨0, 0, 0, 0⟩ = [0x80] ∧
    ({} : source_code_options).bit_numbering = BitNumbering.LSB := by
  refine ⟨?_, ?_, ?_, ?_, ?_, ?_, rfl⟩ <;> rw [glyph_bytes_eq_pack] <;> decide

/-- C20, as the code has it: a glyph of `width * height` walked pixels is converted to
`height * ceil(width / 8)` bytes, `ceil(width / 8)` per row; that is `Int(width / 8) + 1` per
row when `width` is not a multiple of 8 and `Int(width / 8)` when it is, as in the table of
the class documentation (widths 5, 7, 8, 12, 16, 19: 1, 1, 1, 2, 2, 3 bytes). -/
theorem output_glyph_row_bytes (o : source_code_options) (T : Format) (glyph : Glyph)
    (size : Size) (margins : Margins)
    (hpx : (trimmed_pixels glyph margins).length = size.width * size.height) :
    (glyph_bytes o T glyph size margins).length = size.height * bytes_per_line size.width ∧
    (size.width % 8 ≠ 0 → bytes_per_line size.width = size.width / 8 + 1) ∧
    (size.width % 8 = 0 → bytes_per_line size.width = size.width / 8) ∧
    [5, 7, 8, 12, 16, 19].map bytes_per_line = [1, 1, 1, 2, 2, 3] ∧
    ([5, 7, 8, 12, 16, 19].map fun w => w / 8 + 1) = [1, 1, 2, 2, 3, 3] := by
  refine ⟨?_, ?_, ?_, by decide, by decide⟩
  · rw [glyph_bytes_eq_pack]
    exact pack_length o size.width size.height _ hpx
  · intro h; unfold bytes_per_line byte_size; rw [if_pos h]
  · intro h; unfold bytes_per_line byte_size
    rw [if_neg (by simpa using h)]; rfl

/-- The instance of `output_glyph_row_bytes` at a blank 16 x 2 glyph: 4 bytes. -/
theorem output_glyph_row_bytes_witness :
    (glyph_bytes {} Format.C ⟨⟨16, 2⟩, List.replicate 32 false⟩ ⟨16, 2⟩ ⟨0, 0, 0, 0⟩).length
      = 2 * bytes_per_line 16 :=
  (output_glyph_row_bytes {} Format.C ⟨⟨16, 2⟩, List.replicate 32 false⟩ ⟨16, 2⟩ ⟨0, 0, 0, 0⟩
    (by decide)).1

/-- C20 as stated fails when the width is a multiple of 8: a glyph 8 pixels wide and 1 high
is converted to 1 byte, not to `1 * (Int(8 / 8) + 1) = 2`. -/
theorem output_glyph_width_8_one_byte :
    (glyph_bytes {} Format.C ⟨⟨8, 1⟩, row_doc_8⟩ ⟨8, 1⟩ ⟨0, 0, 0, 0⟩).length = 1 ∧
    (glyph_bytes {} Format.C ⟨⟨8, 1⟩, row_doc_8⟩ ⟨8, 1⟩ ⟨0, 0, 0, 0⟩).length
      ≠ 1 * (8 / 8 + 1) := by
  rw [glyph_bytes_eq_pack]
  decide

/-! ## Trimmed rows -/

theorem rows_flatten (l : List Bool) (w top n : Nat) :
    ((List.range n).map fun r => (l.drop ((top + r) * w)).take w).flatten
      = (l.drop (top * w)).take (n * w) := by
  induction n with
  | zero => simp
  | succ n ih =>
    rw [List.range_succ, List.map_append, List.flatten_append, ih]
    have h1 : (n + 1) * w = n * w + w := Nat.succ_mul n w
    have h2 : (top + n) * w = top * w + n * w := Nat.add_mul top n w
    rw [h1, List.take_add, List.drop_drop]
    simp [h2]

theorem trimmed_pixels_rows (g : Glyph) (top bottom left right : Nat)
    (hpx : g.pixels.length = g.size.width * g.size.height) :
    trimmed_pixels g ⟨top * g.size.width, bottom * g.size.width, left, right⟩
      = (g.rows_from top (g.size.height - top - bottom)).pixels := by
  unfold trimmed_pixels Glyph.rows_from
  simp only []
  rw [rows_flatten, hpx]
  have h : g.size.width * g.size.height - top * g.size.width - bottom * g.size.width
      = (g.size.height - top - bottom) * g.size.width := by
    rw [Nat.sub_mul, Nat.sub_mul, Nat.mul_comm g.size.width g.size.height]
  rw [h]

theorem values_subset_glyphs (o : source_code_options) (itf : generator_interface)
    (T : Format) (face : Face) (size : Size) (margins : Margins) (ids : List Nat)
    (s s2 : List Idiom)
    (h : subset_glyphs o itf T face size margins ids s = Except.ok s2) :
    values s2 = values s ++ (ids.map (face_glyph_bytes o T face size margins)).flatten := by
  induction ids generalizing s with
  | nil =>
    unfold subset_glyphs at h
    cases h
    simp
  | cons g gs ih =>
    unfold subset_glyphs at h
    cases hg : face.glyph_at g with
    | error e => rw [hg] at h; cases h
    | ok glyph =>
      rw [hg] at h
      have hget : face.glyphs.get? g = some glyph := by
        unfold Face.glyph_at at hg
        cases hq : face.glyphs.get? g with
        | none => rw [hq] at hg; cases hg
        | some g2 => rw [hq] at hg; cases hg; rfl
      have := ih _ h
      rw [this]
      simp only [values_append, values_output_glyph, values, List.append_nil, List.map_cons,
        List.flatten_cons, List.append_assoc]
      simp only [face_glyph_bytes, hget, glyph_bytes_eq_pack]

theorem values_generate_subset_stream (o : source_code_options) (itf : generator_interface)
    (T : Format) (face : Face) (font_name : String) (s : List Idiom)
    (h : generate_subset_stream o itf T face font_name = Except.ok s) :
    ∃ lut, subset_lut_of o itf face.exported_glyph_ids
        (bytes_per_glyph (size_and_margins o face).1) = Except.ok lut ∧
      values s = (face.exported_glyph_ids.map
          (face_glyph_bytes o T face (size_and_margins o face).1
            (size_and_margins o face).2)).flatten ++ values lut := by
  unfold generate_subset_stream at h
  simp only [] at h
  cases hb : subset_glyphs o itf T face (size_and_margins o face).1 (size_and_margins o face).2
      face.exported_glyph_ids
      ([Idiom.begin font_name (size_and_margins o face).1 itf.current_timestamp]
        ++ [Idiom.begin_array 8 font_name]) with
  | error e => rw [hb] at h; cases h
  | ok body =>
    rw [hb] at h
    simp only [] at h
    cases hl : subset_lut_of o itf face.exported_glyph_ids
        (bytes_per_glyph (size_and_margins o face).1) with
    | error e => rw [hl] at h; cases h
    | ok lut =>
      rw [hl] at h
      cases h
      refine ⟨lut, rfl, ?_⟩
      rw [values_append, values_append, values_append,
        values_subset_glyphs o itf T face _ _ _ _ _ hb]
      simp [values]

/-- C16: for a glyph of `width * height` pixels and line margins with `top + bottom ≤ height`,
`output_glyph` with the pixel margins `top * width`, `bottom * width` and the size
`(width, height - top - bottom)` emits exactly the bytes it emits, with zero margins, for the
glyph made of the rows `top .. height - bottom - 1`; and with `include_line_spacing` true,
`generate_all` and `generate_subset` pack every glyph with zero margins and the glyph size
of the face. -/
theorem trimmed_rows_packed (o : source_code_options) (itf : generator_interface) (T : Format)
    (g : Glyph) (top bottom left right : Nat) (face : Face) (font_name : String)
    (hpx : g.pixels.length = g.size.width * g.size.height)
    (hm : top + bottom ≤ g.size.height) :
    glyph_bytes o T g ⟨g.size.width, g.size.height - top - bottom⟩
        ⟨top * g.size.width, bottom * g.size.width, left, right⟩
      = glyph_bytes o T (g.rows_from top (g.size.height - top - bottom))
          ⟨g.size.width, g.size.height - top - bottom⟩ ⟨0, 0, 0, 0⟩ ∧
    (g.rows_from top (g.size.height - top - bottom)).pixels.length
      = g.size.width * (g.size.height - top - bottom) ∧
    top + (g.rows_from top (g.size.height - top - bottom)).size.height + bottom
      = g.size.height ∧
    (o.include_line_spacing = true →
      size_and_margins o face = (face.glyph_size, ⟨0, 0, 0, 0⟩) ∧
      values (generate_all_stream o itf T face font_name)
        = (face.glyphs.map fun gl => glyph_bytes o T gl face.glyph_size ⟨0, 0, 0, 0⟩).flatten ∧
      ∀ s, generate_subset_stream o itf T face font_name = Except.ok s →
        ∃ lut, subset_lut_of o itf face.exported_glyph_ids (bytes_per_glyph face.glyph_size)
            = Except.ok lut ∧
          values s = (face.exported_glyph_ids.map
              (face_glyph_bytes o T face face.glyph_size ⟨0, 0, 0, 0⟩)).flatten
            ++ values lut) := by
  have hrows := trimmed_pixels_rows g top bottom left right hpx
  refine ⟨?_, ?_, ?_, ?_⟩
  · rw [glyph_bytes_eq_pack, glyph_bytes_eq_pack, hrows,
      trimmed_pixels_zero _ ⟨0, 0, 0, 0⟩ rfl rfl]
  · rw [← hrows]
    unfold trimmed_pixels
    simp only [List.length_take, List.length_drop, hpx]
    have h1 : g.size.width * g.size.height - top * g.size.width - bottom * g.size.width
        = (g.size.height - top - bottom) * g.size.width := by
      rw [Nat.sub_mul, Nat.sub_mul, Nat.mul_comm g.size.width g.size.height]
    have h2 : (g.size.height - top - bottom) * g.size.width
        ≤ g.size.width * g.size.height - top * g.size.width := by
      rw [← h1]; omega
    rw [h1, Nat.min_eq_left h2, Nat.mul_comm]
  · show top + (g.size.height - top - bottom) + bottom = g.size.height
    omega
  · intro hls
    have hsm : size_and_margins o face = (face.glyph_size, ⟨0, 0, 0, 0⟩) := by
      unfold size_and_margins; rw [if_pos hls]
    refine ⟨hsm, ?_, ?_⟩
    · rw [values_generate_all_stream, hsm]
      simp only [glyph_bytes_eq_pack]
    · intro s hs
      have := values_generate_subset_stream o itf T face font_name s hs
      rw [hsm] at this
      exact this

/-- The instance of `trimmed_rows_packed` at the glyph `9` with one row trimmed at the top
and one at the bottom. -/
theorem trimmed_rows_packed_witness :
    glyph_bytes {} Format.C glyph_nine ⟨glyph_nine.size.width, glyph_nine.size.height - 1 - 1⟩
        ⟨1 * glyph_nine.size.width, 1 * glyph_nine.size.width, 0, 0⟩
      = glyph_bytes {} Format.C (glyph_nine.rows_from 1 (glyph_nine.size.height - 1 - 1))
          ⟨glyph_nine.size.width, glyph_nine.size.height - 1 - 1⟩ ⟨0, 0, 0, 0⟩ :=
  (trimmed_rows_packed {} ⟨"", fun _ => ""⟩ Format.C glyph_nine 1 1 0 0 empty_face "font"
    (by decide) (by decide)).1

/-! ## Line wrapping in `output_glyph` -/

theorem tellp_singleton (T : Format) (e : Idiom) : tellp T [e] = (T.append e).length := by
  unfold tellp str str
  rw [String.length_append]
  rfl

theorem append_byte_wrap (o : source_code_options) (T : Format) (st : glyph_state)
    (hpos : st.pos ≤ tellp T st.s) (rest : List Nat) :
    (append_byte o T st).pos ≤ tellp T (append_byte o T st).s ∧
    (append_byte o T st).s
        ++ wrapped_rows o T (tellp T (append_byte o T st).s - (append_byte o T st).pos) rest
      = st.s ++ wrapped_rows o T (tellp T st.s - st.pos) (emitted_byte o st.bits :: rest) := by
  have hb : (if o.invert_bits then bitset_flip st.bits else st.bits) % 2 ^ 8
      = emitted_byte o st.bits := rfl
  have ht : tellp T (st.s ++ [Idiom.value 8 (emitted_byte o st.bits)]) - st.pos
      = tellp T st.s - st.pos + (T.append (Idiom.value 8 (emitted_byte o st.bits))).length := by
    rw [tellp_append, tellp_singleton]; omega
  unfold append_byte
  simp only [hb, ht]
  rw [wrapped_rows]
  by_cases hc : tellp T st.s - st.pos
      + (T.append (Idiom.value 8 (emitted_byte o st.bits))).length ≥ o.wrap_column
  · simp only [hc, if_true]
    constructor
    · rw [tellp_append T (_ ++ _) [Idiom.begin_array_row o.indentation]]; omega
    · have h2 : tellp T (st.s ++ [Idiom.value 8 (emitted_byte o st.bits)]
            ++ [Idiom.array_line_break] ++ [Idiom.begin_array_row o.indentation])
          - tellp T (st.s ++ [Idiom.value 8 (emitted_byte o st.bits)]
            ++ [Idiom.array_line_break])
          = (T.append (Idiom.begin_array_row o.indentation)).length := by
        rw [tellp_append T (_ ++ _) [Idiom.begin_array_row o.indentation],
          tellp_singleton]; omega
      rw [h2]
      simp only [List.append_assoc, List.singleton_append, List.cons_append, List.nil_append]
  · simp only [hc, if_false]
    constructor
    · rw [tellp_append]; omega
    · rw [ht]
      simp only [List.append_assoc, List.singleton_append]

theorem pack_from_cons (o : source_code_options) (width : Nat) (st : pack_state) (p : Bool)
    (ps : List Bool) :
    pack_from o width st (p :: ps)
      = (pack_step o width { st with out := [] } p).out
        ++ pack_from o width (pack_step o width { st with out := [] } p) ps := by
  unfold pack_from
  simp only [List.foldl_cons]
  have h := foldl_pack_step_prepend o width (pack_step o width { st with out := [] } p).out ps
    { pack_step o width { st with out := [] } p with out := [] }
  simp only [List.append_nil] at h
  rw [h]

theorem pack_from_step_out (o : source_code_options) (width : Nat) (st : pack_state)
    (p : Bool) (ps : List Bool) :
    pack_from o width (pack_step o width { st with out := [] } p) ps
      = pack_from o width (pack_step o width st p) ps := by
  have h := pack_step_prepend o width st.out { st with out := [] } p
  simp only [List.append_nil] at h
  have h2 : ({ st with out := st.out } : pack_state) = st := rfl
  rw [h2] at h
  rw [h]
  rfl

theorem pixel_step_wrap (o : source_code_options) (T : Format) (width : Nat)
    (st : glyph_state) (p : Bool) (hpos : st.pos ≤ tellp T st.s) (rest : List Nat) :
    (pixel_step o T width st p).pos ≤ tellp T (pixel_step o T width st p).s ∧
    (pixel_step o T width st p).s
        ++ wrapped_rows o T
          (tellp T (pixel_step o T width st p).s - (pixel_step o T width st p).pos) rest
      = st.s ++ wrapped_rows o T (tellp T st.s - st.pos)
          ((pack_step o width { pack_view st with out := [] } p).out ++ rest) := by
  have hb : (match o.bit_numbering with
      | .LSB => bitset_set st.bits st.bit_pos p
      | .MSB => bitset_set st.bits (byte_size - 1 - st.bit_pos) p)
      = bitset_set st.bits (bit_index o st.bit_pos) p := by
    unfold bit_index; cases o.bit_numbering <;> rfl
  have ha := append_byte_wrap o T
    { st with bits := bitset_set st.bits (bit_index o st.bit_pos) p } hpos rest
  unfold pixel_step pack_step
  simp only [hb, pack_view]
  by_cases h1 : st.col + 1 ≥ width
  · simp only [h1, if_true, List.nil_append, List.singleton_append]
    exact ha
  · by_cases h2 : st.bit_pos + 1 ≥ byte_size
    · simp only [h1, h2, if_true, if_false, List.nil_append, List.singleton_append]
      exact ha
    · simp only [h1, h2, if_false, List.nil_append, and_true]
      exact hpos

theorem foldl_pixel_step_wrap (o : source_code_options) (T : Format) (width : Nat)
    (l : List Bool) (st : glyph_state) (hpos : st.pos ≤ tellp T st.s) :
    (l.foldl (pixel_step o T width) st).s
      = st.s ++ wrapped_rows o T (tellp T st.s - st.pos)
          (pack_from o width (pack_view st) l) := by
  induction l generalizing st with
  | nil => simp [pack_from, wrapped_rows]
  | cons p ps ih =>
    have hs := pixel_step_wrap o T width st p hpos
      (pack_from o width (pack_view (pixel_step o T width st p)) ps)
    rw [List.foldl_cons, ih _ hs.1, hs.2, pack_from_cons, pixel_step_view,
      pack_from_step_out]

/-- The stream `output_glyph` produces is the opening of a row followed by the packed bytes
of the glyph laid out by `wrapped_rows`. -/
theorem output_glyph_wrapped (o : source_code_options) (T : Format) (glyph : Glyph)
    (size : Size) (margins : Margins) (s : List Idiom) :
    output_glyph o T glyph size margins s
      = s ++ Idiom.begin_array_row o.indentation ::
          wrapped_rows o T (T.append (Idiom.begin_array_row o.indentation)).length
            (glyph_bytes o T glyph size margins) := by
  rw [output_glyph_append, glyph_bytes_eq_pack]
  congr 1
  unfold output_glyph
  have h := foldl_pixel_step_wrap o T size.width (trimmed_pixels glyph margins)
    (glyph_state.mk 0 0 0 (tellp T []) ([] ++ [Idiom.begin_array_row o.indentation]))
    (Nat.zero_le _)
  have h0 : tellp T [] = 0 := rfl
  simp only [h0, List.nil_append, Nat.sub_zero, tellp_singleton] at h ⊢
  rw [h]
  rfl

theorem pack_step_out_lt (o : source_code_options) (width : Nat) (st : pack_state) (p : Bool)
    (h : ∀ b, b ∈ st.out → b < 256) : ∀ b, b ∈ (pack_step o width st p).out → b < 256 := by
  unfold pack_step
  intro b hb
  split_ifs at hb
  · rcases List.mem_append.mp hb with h1 | h1
    · exact h b h1
    · rw [List.mem_singleton] at h1; rw [h1]; exact emitted_byte_lt _ _
  · rcases List.mem_append.mp hb with h1 | h1
    · exact h b h1
    · rw [List.mem_singleton] at h1; rw [h1]; exact emitted_byte_lt _ _
  · exact h b hb

theorem foldl_pack_step_out_lt (o : source_code_options) (width : Nat) (l : List Bool)
    (st : pack_state) (h : ∀ b, b ∈ st.out → b < 256) :
    ∀ b, b ∈ (l.foldl (pack_step o width) st).out → b < 256 := by
  induction l generalizing st with
  | nil => exact h
  | cons p ps ih => exact ih _ (pack_step_out_lt o width st p h)

/-- Every byte `output_glyph` emits is below 256. -/
theorem glyph_bytes_lt (o : source_code_options) (T : Format) (glyph : Glyph) (size : Size)
    (margins : Margins) : ∀ b, b ∈ glyph_bytes o T glyph size margins → b < 256 := by
  rw [glyph_bytes_eq_pack]
  exact foldl_pack_step_out_lt o size.width _ _ (fun b hb => by simp at hb)

theorem wrapped_rows_two_aux (o : source_code_options) (hw : o.wrap_column = 10)
    (hind : (Format.append Format.C (Idiom.begin_array_row o.indentation)).length = 1)
    (bytes : List Nat) (hlt : ∀ b, b ∈ bytes → b < 256) :
    wrapped_rows o Format.C 1 bytes = rows_of_two o.indentation bytes ∧
    ∀ a, a < 256 →
      wrapped_rows o Format.C 1 (a :: bytes) = rows_of_two o.indentation (a :: bytes) := by
  induction bytes with
  | nil =>
    refine ⟨rfl, fun a ha => ?_⟩
    have h5 := value_text_length Format.C 8 a ha
    simp only at h5
    simp only [wrapped_rows, rows_of_two, h5, hw]
    simp
  | cons b rest ih =>
    have ih2 := ih (fun c hc => hlt c (by simp [hc]))
    have hb : b < 256 := hlt b (by simp)
    refine ⟨ih2.2 b hb, fun a ha => ?_⟩
    have h5a := value_text_length Format.C 8 a ha
    have h5b := value_text_length Format.C 8 b hb
    simp only at h5a h5b
    simp only [wrapped_rows, rows_of_two, h5a, h5b, hw, hind]
    simp [ih2.1]

theorem wrapped_rows_two (o : source_code_options) (hw : o.wrap_column = 10)
    (bytes : List Nat) (hlt : ∀ b, b ∈ bytes → b < 256)
    (hind : (Format.append Format.C (Idiom.begin_array_row o.indentation)).length = 1) :
    wrapped_rows o Format.C 1 bytes = rows_of_two o.indentation bytes :=
  (wrapped_rows_two_aux o hw hind bytes hlt).1

/-- C11: `output_glyph` opens a row and writes the bytes of the glyph as `wrapped_rows` lays
them out: after each value, a line break and the opening of a new row follow if and only if
the characters written since just before the opening of the current row (indentation
included) are `wrap_column` or more, whatever the pixel rows are. Hence with `wrap_column`
10, format C and an indentation of one character, every row that is followed by another
value of the glyph holds exactly two values. -/
theorem output_glyph_wraps (o : source_code_options) (T : Format) (glyph : Glyph)
    (size : Size) (margins : Margins) (s : List Idiom) :
    output_glyph o T glyph size margins s
      = s ++ Idiom.begin_array_row o.indentation ::
          wrapped_rows o T (T.append (Idiom.begin_array_row o.indentation)).length
            (glyph_bytes o T glyph size margins) ∧
    (o.wrap_column = 10 → o.indentation.length = 1 →
      output_glyph o Format.C glyph size margins s
        = s ++ Idiom.begin_array_row o.indentation ::
            rows_of_two o.indentation (glyph_bytes o Format.C glyph size margins)) := by
  refine ⟨output_glyph_wrapped o T glyph size margins s, fun hw hind => ?_⟩
  have hind2 : (Format.append Format.C (Idiom.begin_array_row o.indentation)).length = 1 :=
    hind
  rw [output_glyph_wrapped, hind2,
    wrapped_rows_two o hw _ (glyph_bytes_lt o Format.C glyph size margins) hind2]

set_option maxRecDepth 100000 in
/-- The instance of `output_glyph_wraps` at the glyph `9` (9 bytes) with `wrap_column` 10,
a tab and format C: four rows of two values and a last row of one. -/
theorem output_glyph_wraps_witness :
    output_glyph { wrap_column := 10 } Format.C glyph_nine ⟨8, 9⟩ ⟨0, 0, 0, 0⟩ []
      = [] ++ Idiom.begin_array_row "\t" ::
          rows_of_two "\t" (glyph_bytes { wrap_column := 10 } Format.C glyph_nine ⟨8, 9⟩
            ⟨0, 0, 0, 0⟩) :=
  (output_glyph_wraps { wrap_column := 10 } Format.C glyph_nine ⟨8, 9⟩ ⟨0, 0, 0, 0⟩ []).2
    rfl (by decide)

/-! ## The data array of `generate_all` -/

theorem comments_append (a b : List Idiom) : comments (a ++ b) = comments a ++ comments b := by
  induction a with
  | nil => rfl
  | cons e a ih => cases e <;> simp [comments, ih]

theorem wrapped_rows_plain (o : source_code_options) (T : Format) (bytes : List Nat)
    (cur : Nat) :
    (wrapped_rows o T cur bytes).filter is_begin_array = [] ∧
    comments (wrapped_rows o T cur bytes) = [] := by
  induction bytes generalizing cur with
  | nil => exact ⟨rfl, rfl⟩
  | cons b rest ih =>
    rw [wrapped_rows]
    split_ifs
    · simp [List.filter_cons, is_begin_array, comments, ih]
    · simp [List.filter_cons, is_begin_array, comments, ih]

theorem glyph_chunk_plain (o : source_code_options) (itf : generator_interface) (T : Format)
    (size : Size) (margins : Margins) (glyph_id : Nat) (glyph : Glyph) :
    (glyph_chunk o itf T size margins glyph_id glyph).filter is_begin_array = [] ∧
    comments (glyph_chunk o itf T size margins glyph_id glyph)
      = [itf.comment_for_glyph glyph_id] ∧
    values (glyph_chunk o itf T size margins glyph_id glyph)
      = glyph_bytes o T glyph size margins := by
  unfold glyph_chunk
  refine ⟨?_, ?_, ?_⟩
  · rw [output_glyph_wrapped]
    simp [List.filter_cons, is_begin_array, (wrapped_rows_plain o T _ _).1]
  · rw [output_glyph_wrapped]
    simp [comments_append, comments, (wrapped_rows_plain o T _ _).2]
  · rw [values_append]
    simp [values, glyph_bytes]

theorem all_glyphs_chunks (o : source_code_options) (itf : generator_interface) (T : Format)
    (size : Size) (margins : Margins) (glyphs : List Glyph) (k : Nat) :
    all_glyphs o itf T size margins glyphs k []
      = ((glyphs.enumFrom k).map fun ig =>
          glyph_chunk o itf T size margins ig.1 ig.2).flatten := by
  induction glyphs generalizing k with
  | nil => rfl
  | cons g gs ih =>
    unfold all_glyphs
    simp only []
    rw [all_glyphs_append, ih, List.enumFrom_cons, List.map_cons, List.flatten_cons]
    simp [glyph_chunk]

theorem chunks_plain (o : source_code_options) (itf : generator_interface) (T : Format)
    (size : Size) (margins : Margins) (glyphs : List Glyph) (k : Nat) :
    (((glyphs.enumFrom k).map fun ig =>
        glyph_chunk o itf T size margins ig.1 ig.2).flatten).filter is_begin_array = [] ∧
    comments (((glyphs.enumFrom k).map fun ig =>
        glyph_chunk o itf T size margins ig.1 ig.2).flatten)
      = (List.range' k glyphs.length).map itf.comment_for_glyph := by
  induction glyphs generalizing k with
  | nil => exact ⟨rfl, rfl⟩
  | cons g gs ih =>
    have hc := glyph_chunk_plain o itf T size margins k g
    rw [List.enumFrom_cons, List.map_cons, List.flatten_cons, List.filter_append,
      comments_append, hc.1, hc.2.1, (ih (k + 1)).1, (ih (k + 1)).2]
    simp [List.range'_succ]

theorem flatten_length_const (L : List (List Nat)) (m : Nat) (h : ∀ l, l ∈ L → l.length = m) :
    L.flatten.length = L.length * m := by
  induction L with
  | nil => simp
  | cons l L ih =>
    rw [List.flatten_cons, List.length_append, h l (by simp),
      ih (fun x hx => h x (by simp [hx])), List.length_cons, Nat.succ_mul]
    omega

theorem flatten_drop_take (L : List (List Nat)) (m : Nat) (h : ∀ l, l ∈ L → l.length = m)
    (i : Nat) (hi : i < L.length) : (L.flatten.drop (i * m)).take m = L[i] := by
  induction L generalizing i with
  | nil => simp at hi
  | cons l L ih =>
    have hl : l.length = m := h l (by simp)
    cases i with
    | zero =>
      rw [List.flatten_cons]
      simp only [Nat.zero_mul, List.drop_zero, List.getElem_cons_zero]
      rw [← hl, List.take_left]
    | succ i =>
      have hi2 : i < L.length := by simpa using hi
      have e : (i + 1) * m = l.length + i * m := by rw [Nat.succ_mul, hl]; omega
      rw [List.flatten_cons, e, List.drop_append, List.getElem_cons_succ]
      exact ih (fun x hx => h x (by simp [hx])) i hi2

theorem generate_all_stream_chunks (o : source_code_options) (itf : generator_interface)
    (T : Format) (face : Face) (font_name : String) :
    generate_all_stream o itf T face font_name
      = [Idiom.begin font_name (size_and_margins o face).1 itf.current_timestamp,
          Idiom.begin_array 8 font_name]
        ++ ((face.glyphs.enumFrom 0).map fun ig =>
            glyph_chunk o itf T (size_and_margins o face).1 (size_and_margins o face).2
              ig.1 ig.2).flatten
        ++ [Idiom.end_array, Idiom.end_] := by
  unfold generate_all_stream
  simp only []
  rw [all_glyphs_append, all_glyphs_chunks]
  simp

/-- C14: with `ExportAll`, `generate` returns the text of a stream that holds, between the
header and the closing of the array, one chunk per glyph in face order: the rows of the
glyph's bytes, one comment for its index and a line break. The stream opens exactly one
array, named by `font_name` (no `lut` array); for a face of `n` glyphs whose walked pixels
are `width * height` each, it holds `n * bytes_per_glyph` values, those of glyph `i` at the
positions `[i * bytes_per_glyph, (i + 1) * bytes_per_glyph)`, and its comments are those of
the indices `0 .. n - 1` in order. -/
theorem generate_all_layout (o : source_code_options) (itf : generator_interface)
    (T : Format) (face : Face) (font_name : String)
    (hall : o.export_method = ExportMethod.ExportAll)
    (hpx : ∀ g, g ∈ face.glyphs →
      (trimmed_pixels g (size_and_margins o face).2).length
        = (size_and_margins o face).1.width * (size_and_margins o face).1.height) :
    generate o itf T face font_name
      = Except.ok (str T (generate_all_stream o itf T face font_name)) ∧
    generate_all_stream o itf T face font_name
      = [Idiom.begin font_name (size_and_margins o face).1 itf.current_timestamp,
          Idiom.begin_array 8 font_name]
        ++ ((face.glyphs.enumFrom 0).map fun ig =>
            glyph_chunk o itf T (size_and_margins o face).1 (size_and_margins o face).2
              ig.1 ig.2).flatten
        ++ [Idiom.end_array, Idiom.end_] ∧
    (generate_all_stream o itf T face font_name).filter is_begin_array
      = [Idiom.begin_array 8 font_name] ∧
    comments (generate_all_stream o itf T face font_name)
      = (List.range face.glyphs.length).map itf.comment_for_glyph ∧
    (values (generate_all_stream o itf T face font_name)).length
      = face.glyphs.length
        * ((size_and_margins o face).1.height * bytes_per_line (size_and_margins o face).1.width) ∧
    ∀ i (hi : i < face.glyphs.length),
      ((values (generate_all_stream o itf T face font_name)).drop
          (i * ((size_and_margins o face).1.height
            * bytes_per_line (size_and_margins o face).1.width))).take
          ((size_and_margins o face).1.height * bytes_per_line (size_and_margins o face).1.width)
        = glyph_bytes o T face.glyphs[i] (size_and_margins o face).1
            (size_and_margins o face).2 := by
  have hgen : generate o itf T face font_name
      = Except.ok (str T (generate_all_stream o itf T face font_name)) := by
    unfold generate generate_all
    rw [hall]
  have hchunks := generate_all_stream_chunks o itf T face font_name
  have hplain := chunks_plain o itf T (size_and_margins o face).1 (size_and_margins o face).2
    face.glyphs 0
  have hlen : ∀ l, l ∈ (face.glyphs.map fun g =>
      pack o (size_and_margins o face).1.width
        (trimmed_pixels g (size_and_margins o face).2)) →
      l.length = (size_and_margins o face).1.height
        * bytes_per_line (size_and_margins o face).1.width := by
    intro l hl
    obtain ⟨g, hg, rfl⟩ := List.mem_map.mp hl
    exact pack_length o _ _ _ (hpx g hg)
  refine ⟨hgen, hchunks, ?_, ?_, ?_, ?_⟩
  · rw [hchunks, List.filter_append, List.filter_append, hplain.1]
    simp [List.filter_cons, is_begin_array]
  · rw [hchunks, comments_append, comments_append, hplain.2, List.range_eq_range']
    simp [comments]
  · rw [values_generate_all_stream, flatten_length_const _ _ hlen, List.length_map]
  · intro i hi
    rw [values_generate_all_stream,
      flatten_drop_take _ _ hlen i (by rw [List.length_map]; exact hi), List.getElem_map,
      glyph_bytes_eq_pack]

/-- The instance of `generate_all_layout` at the one-glyph face of the glyph `9`, line
spacing included: one array, named `font`. -/
theorem generate_all_layout_witness :
    (generate_all_stream
        { export_method := ExportMethod.ExportAll, include_line_spacing := true }
        ⟨"now", fun _ => "9"⟩ Format.C (face_nine [] ⟨0, 0, 0, 0⟩) "font").filter
      is_begin_array = [Idiom.begin_array 8 "font"] :=
  (generate_all_layout
    { export_method := ExportMethod.ExportAll, include_line_spacing := true }
    ⟨"now", fun _ => "9"⟩ Format.C (face_nine [] ⟨0, 0, 0, 0⟩) "font" rfl
    (by decide)).2.2.1

/-! ## The rows of the lookup table -/

theorem lut_emit_append (V : Nat) (ind : String) (a b : List (Option (Nat × String)))
    (p : Bool) :
    lut_emit V ind p (a ++ b) = lut_emit V ind p a ++ lut_emit V ind (flag_after p a) b := by
  induction a generalizing p with
  | nil => rfl
  | cons e a ih =>
    cases e with
    | none => simp [lut_emit, flag_after, ih]
    | some x =>
      obtain ⟨v, c⟩ := x
      simp [lut_emit, flag_after, ih]

theorem flag_after_append (a b : List (Option (Nat × String))) (p : Bool) :
    flag_after p (a ++ b) = flag_after (flag_after p a) b := by
  induction a generalizing p with
  | nil => rfl
  | cons e a ih => simp [flag_after, ih]

theorem lut_emit_rows (V : Nat) (ind : String) (es : List (Option (Nat × String)))
    (run : Nat) :
    (if run = 0 then []
      else Idiom.begin_array_row ind :: List.replicate run (Idiom.value V 0))
      ++ lut_emit V ind (decide (run = 0)) es
      = (lut_rows V ind run es).flatten := by
  induction es generalizing run with
  | nil =>
    by_cases h : run = 0
    · simp [lut_emit, lut_rows, h]
    · simp [lut_emit, lut_rows, h]
  | cons e rest ih =>
    cases e with
    | none =>
      rw [lut_rows, ← ih (run + 1)]
      by_cases h : run = 0
      · subst h
        simp [lut_emit, List.replicate]
      · simp [lut_emit, h, List.replicate_succ']
    | some x =>
      obtain ⟨v, c⟩ := x
      have ih0 := ih 0
      simp only [if_true, List.nil_append, decide_True] at ih0
      rw [lut_rows, List.flatten_append, List.flatten_append, ← ih0]
      by_cases h : run = 0
      · subst h
        simp [lut_emit]
      · simp [lut_emit, h]

theorem lut_rows_length (V : Nat) (ind : String) (es : List (Option (Nat × String)))
    (run : Nat) :
    (lut_rows V ind run es).length
      = (es.filter Option.isSome).length + entry_runs (decide (run = 0)) es
        + (if run = 0 then 0 else 1) := by
  induction es generalizing run with
  | nil =>
    by_cases h : run = 0
    · simp [lut_rows, entry_runs, h]
    · simp [lut_rows, entry_runs, h]
  | cons e rest ih =>
    cases e with
    | none =>
      rw [lut_rows, ih (run + 1)]
      by_cases h : run = 0
      · simp [entry_runs, h]; omega
      · simp [entry_runs, h]
    | some x =>
      obtain ⟨v, c⟩ := x
      rw [lut_rows, List.length_append, List.length_append, ih 0]
      by_cases h : run = 0
      · simp [entry_runs, h]; omega
      · simp [entry_runs, h]; omega

theorem lut_step_emit (o : source_code_options) (itf : generator_interface) (V : Nat)
    (ids : List Nat) (bpg : Nat) (st : lut_state) (g : Nat) :
    (lut_step o itf V ids bpg st g).is_previous_exported = decide (g ∈ ids) ∧
    (lut_step o itf V ids bpg st g).s
      = st.s ++ lut_emit V o.indentation st.is_previous_exported
          [if g ∈ ids then
            some ((bpg * st.exported_id) % 2 ^ 64 % 2 ^ V, itf.comment_for_glyph g)
           else none] := by
  unfold lut_step
  by_cases hg : g ∈ ids
  · simp only [hg, if_true, decide_True, lut_emit, true_and]
    cases st.is_previous_exported <;> simp
  · simp only [hg, if_false, decide_False, lut_emit, true_and]
    cases st.is_previous_exported <;> simp

theorem lut_foldl_emit (o : source_code_options) (itf : generator_interface) (V : Nat)
    (ids : List Nat) (hn : ids.Nodup) (bpg : Nat) (s0 : List Idiom) (n : Nat) :
    ((List.range n).foldl (lut_step o itf V ids bpg)
        { exported_id := 0, is_previous_exported := true, s := s0 }).is_previous_exported
      = flag_after true (lut_entries itf V ids bpg (List.range n)) ∧
    ((List.range n).foldl (lut_step o itf V ids bpg)
        { exported_id := 0, is_previous_exported := true, s := s0 }).s
      = s0 ++ lut_emit V o.indentation true (lut_entries itf V ids bpg (List.range n)) := by
  induction n with
  | zero => simp [lut_entries, flag_after, lut_emit]
  | succ n ih =>
    obtain ⟨h1, h2⟩ := ih
    have hid := (lut_foldl o itf V ids hn bpg s0 n).1
    have hent : lut_entries itf V ids bpg (List.range n ++ [n])
        = lut_entries itf V ids bpg (List.range n)
          ++ [if n ∈ ids then some (lut_entry V ids bpg n, itf.comment_for_glyph n)
              else none] := by
      unfold lut_entries
      rw [List.map_append]
      rfl
    have hval : (if n ∈ ids then
          some ((bpg * (rank ids n % 2 ^ 16)) % 2 ^ 64 % 2 ^ V, itf.comment_for_glyph n)
        else none)
        = (if n ∈ ids then some (lut_entry V ids bpg n, itf.comment_for_glyph n)
            else none) := by
      unfold lut_entry
      by_cases hm : n ∈ ids
      · simp only [hm, if_true]
      · simp only [hm, if_false]
    rw [List.range_succ, List.foldl_append]
    simp only [List.foldl_cons, List.foldl_nil]
    have hs := lut_step_emit o itf V ids bpg
      ((List.range n).foldl (lut_step o itf V ids bpg)
        { exported_id := 0, is_previous_exported := true, s := s0 }) n
    rw [hid, h1, h2, hval] at hs
    rw [hent, flag_after_append, lut_emit_append, ← List.append_assoc]
    refine ⟨?_, hs.2⟩
    rw [hs.1]
    by_cases hm : n ∈ ids
    · simp [hm, flag_after]
    · simp [hm, flag_after]

/-- The stream of `subset_lut`, row by row. -/
theorem subset_lut_rows_eq (o : source_code_options) (itf : generator_interface) (V : Nat)
    (ids : List Nat) (hn : ids.Nodup) (bpg : Nat) (last : Nat)
    (hlast : ids.getLast? = some last) :
    subset_lut o itf V ids bpg
      = Except.ok (Idiom.begin_array V "lut" ::
          (lut_rows V o.indentation 0
            (lut_entries itf V ids bpg (List.range (last + 1)))).flatten
          ++ [Idiom.end_array]) := by
  unfold subset_lut
  rw [hlast]
  simp only []
  rw [(lut_foldl_emit o itf V ids hn bpg _ (last + 1)).2]
  have h := lut_emit_rows V o.indentation
    (lut_entries itf V ids bpg (List.range (last + 1))) 0
  simp only [if_true, List.nil_append, decide_True] at h
  rw [h]
  rfl

theorem lut_rows_closed (V : Nat) (ind : String) (es : List (Option (Nat × String)))
    (run : Nat) (p : Bool) (hflag : flag_after p es = true) (hrun : es = [] → run = 0) :
    ∀ row, row ∈ lut_rows V ind run es →
      (∃ v c, some (v, c) ∈ es ∧
        row = [Idiom.begin_array_row ind, Idiom.value V v, Idiom.comment c,
          Idiom.array_line_break]) ∨
      (∃ k, 1 ≤ k ∧
        row = Idiom.begin_array_row ind :: List.replicate k (Idiom.value V 0)
          ++ [Idiom.array_line_break]) := by
  induction es generalizing run p with
  | nil =>
    intro row hrow
    rw [lut_rows, if_pos (hrun rfl)] at hrow
    simp at hrow
  | cons e rest ih =>
    intro row hrow
    cases e with
    | none =>
      rw [lut_rows] at hrow
      have hf : flag_after false rest = true := hflag
      have hr : rest = [] → run + 1 = 0 := by
        intro hnil; rw [hnil] at hf; simp [flag_after] at hf
      rcases ih (run + 1) false hf hr row hrow with ⟨v, c, hm, hrw⟩ | hk
      · exact Or.inl ⟨v, c, List.mem_cons_of_mem _ hm, hrw⟩
      · exact Or.inr hk
    | some x =>
      obtain ⟨v, c⟩ := x
      rw [lut_rows] at hrow
      have hf : flag_after true rest = true := hflag
      rcases List.mem_append.mp hrow with h1 | h1
      · rcases List.mem_append.mp h1 with h2 | h2
        · by_cases h0 : run = 0
          · simp [h0] at h2
          · rw [if_neg h0, List.mem_singleton] at h2
            exact Or.inr ⟨run, by omega, h2⟩
        · rw [List.mem_singleton] at h2
          exact Or.inl ⟨v, c, List.mem_cons_self _ _, h2⟩
      · rcases ih 0 true hf (fun _ => rfl) row h1 with ⟨v2, c2, hm, hrw⟩ | hk
        · exact Or.inl ⟨v2, c2, List.mem_cons_of_mem _ hm, hrw⟩
        · exact Or.inr hk

theorem lut_entries_somes (itf : generator_interface) (V : Nat) (ids : List Nat)
    (hn : ids.Nodup) (bpg n : Nat) :
    ((lut_entries itf V ids bpg (List.range n)).filter Option.isSome).length = rank ids n := by
  induction n with
  | zero => simp [lut_entries, rank]
  | succ n ih =>
    unfold lut_entries at ih ⊢
    rw [List.range_succ, List.map_append, List.filter_append, List.length_append, ih,
      rank_succ ids hn]
    by_cases hm : n ∈ ids
    · simp [hm]
    · simp [hm]

theorem rank_all (ids : List Nat) (n : Nat) (h : ∀ i, i ∈ ids → i < n) :
    rank ids n = ids.length := by
  unfold rank
  rw [List.filter_eq_self.mpr]
  intro i hi
  simpa using h i hi

theorem mem_of_getLast (ids : List Nat) (last : Nat) (hlast : ids.getLast? = some last) :
    last ∈ ids := by
  obtain ⟨ys, rfl⟩ := List.getLast?_eq_some_iff.mp hlast
  simp

theorem lut_entries_flag (itf : generator_interface) (V : Nat) (ids : List Nat)
    (bpg last : Nat) (hm : last ∈ ids) :
    flag_after true (lut_entries itf V ids bpg (List.range (last + 1))) = true := by
  unfold lut_entries
  rw [List.range_succ, List.map_append, flag_after_append]
  simp [hm, flag_after]

theorem lut_entries_mem (itf : generator_interface) (V : Nat) (ids : List Nat)
    (bpg : Nat) (indices : List Nat) (v : Nat) (c : String)
    (h : some (v, c) ∈ lut_entries itf V ids bpg indices) :
    ∃ i, i ∈ ids ∧ i ∈ indices ∧ v = lut_entry V ids bpg i ∧ c = itf.comment_for_glyph i := by
  unfold lut_entries at h
  obtain ⟨i, hi, he⟩ := List.mem_map.mp h
  by_cases hm : i ∈ ids
  · rw [if_pos hm] at he
    simp only [Option.some.injEq, Prod.mk.injEq] at he
    exact ⟨i, hm, hi, he.1.symm, he.2.symm⟩
  · rw [if_neg hm] at he
    cases he

/-- C15: for a non-empty set of exported ids whose largest is `last`, the stream of
`subset_lut` is the opening of the array `lut`, the rows of `lut_rows` for the indices
`0 .. last`, and the closing of the array. Every row is either the row of one exported index
(the opening of the row, its one value, its comment, a line break) or the row shared by a
maximal run of consecutive non-exported indices (the opening of the row, one 0 per index, a
line break); the number of rows is the number of exported ids plus the number of such runs.
For the exported ids 2 and 5 and 16 bytes per glyph the rows hold `[0, 0]`, `[0]`, `[0, 0]`,
`[16]`. -/
theorem subset_lut_row_layout (o : source_code_options) (itf : generator_interface) (V : Nat)
    (ids : List Nat) (bpg last : Nat) (h : ascending ids)
    (hlast : ids.getLast? = some last) :
    subset_lut o itf V ids bpg
      = Except.ok (Idiom.begin_array V "lut" ::
          (lut_rows V o.indentation 0
            (lut_entries itf V ids bpg (List.range (last + 1)))).flatten
          ++ [Idiom.end_array]) ∧
    (lut_rows V o.indentation 0 (lut_entries itf V ids bpg (List.range (last + 1)))).length
      = ids.length + entry_runs true (lut_entries itf V ids bpg (List.range (last + 1))) ∧
    (∀ row, row ∈ lut_rows V o.indentation 0
        (lut_entries itf V ids bpg (List.range (last + 1))) →
      (∃ i, i ∈ ids ∧
        row = [Idiom.begin_array_row o.indentation, Idiom.value V (lut_entry V ids bpg i),
          Idiom.comment (itf.comment_for_glyph i), Idiom.array_line_break]) ∨
      (∃ k, 1 ≤ k ∧
        row = Idiom.begin_array_row o.indentation :: List.replicate k (Idiom.value V 0)
          ++ [Idiom.array_line_break])) ∧
    lut_rows 8 o.indentation 0 (lut_entries itf 8 [2, 5] 16 (List.range 6))
      = [[Idiom.begin_array_row o.indentation, Idiom.value 8 0, Idiom.value 8 0,
            Idiom.array_line_break],
          [Idiom.begin_array_row o.indentation, Idiom.value 8 0,
            Idiom.comment (itf.comment_for_glyph 2), Idiom.array_line_break],
          [Idiom.begin_array_row o.indentation, Idiom.value 8 0, Idiom.value 8 0,
            Idiom.array_line_break],
          [Idiom.begin_array_row o.indentation, Idiom.value 8 16,
            Idiom.comment (itf.comment_for_glyph 5), Idiom.array_line_break]] := by
  have hn := ascending_nodup ids h
  have hmem := mem_of_getLast ids last hlast
  have hle := ascending_le_getLast ids h last hlast
  refine ⟨subset_lut_rows_eq o itf V ids hn bpg last hlast, ?_, ?_, rfl⟩
  · rw [lut_rows_length, lut_entries_somes itf V ids hn,
      rank_all ids (last + 1) (fun i hi => Nat.lt_succ_of_le (hle i hi))]
    simp
  · intro row hrow
    rcases lut_rows_closed V o.indentation _ 0 true
        (lut_entries_flag itf V ids bpg last hmem) (fun _ => rfl) row hrow with
      ⟨v, c, hm, hrw⟩ | hk
    · obtain ⟨i, hi, -, hv, hc⟩ := lut_entries_mem itf V ids bpg _ v c hm
      exact Or.inl ⟨i, hi, by rw [hrw, hv, hc]⟩
    · exact Or.inr hk

/-- The instance of `subset_lut_row_layout` at the exported ids 2 and 5 with 16 bytes per
glyph: four rows, two exported ids and two runs. -/
theorem subset_lut_row_layout_witness :
    (lut_rows 8 "\t" 0 (lut_entries ⟨"", fun _ => ""⟩ 8 [2, 5] 16 (List.range (5 + 1)))).length
      = [2, 5].length
        + entry_runs true (lut_entries ⟨"", fun _ => ""⟩ 8 [2, 5] 16 (List.range (5 + 1))) :=
  (subset_lut_row_layout {} ⟨"", fun _ => ""⟩ 8 [2, 5] 16 5 (by decide) rfl).2.1

/-! ## The Arduino format against the C format -/

theorem arduino_eq_c (e : Idiom) (h1 : is_begin e = false) (h2 : is_begin_array e = false) :
    Format.append Format.Arduino e = Format.append Format.C e := by
  cases e with
  | «begin» font_name size timestamp => simp [is_begin] at h1
  | begin_array V name => simp [is_begin_array] at h2
  | _ => rfl

theorem wrapped_rows_arduino (o : source_code_options) (cur : Nat) (bytes : List Nat) :
    wrapped_rows o Format.Arduino cur bytes = wrapped_rows o Format.C cur bytes := by
  induction bytes generalizing cur with
  | nil => rfl
  | cons b rest ih =>
    rw [wrapped_rows, wrapped_rows, arduino_eq_c (Idiom.value 8 b) rfl rfl,
      arduino_eq_c (Idiom.begin_array_row o.indentation) rfl rfl, ih, ih]

/-- C24: for every element other than `begin` and `begin_array` (a value of any type, the
opening of a row, a line break, the closing of an array, the end of the document, a comment
with any text) the Arduino format writes exactly the text the C format writes; for `begin` it
writes the C text followed by an empty line and the line `#include <Arduino.h>`; hence a
glyph is written to the same rows and the same text in both formats. -/
theorem arduino_renders_as_c (o : source_code_options) (glyph : Glyph) (size : Size)
    (margins : Margins) :
    (∀ e, is_begin e = false → is_begin_array e = false →
      Format.append Format.Arduino e = Format.append Format.C e) ∧
    (∀ V v, Format.append Format.Arduino (Idiom.value V v)
      = Format.append Format.C (Idiom.value V v)) ∧
    (∀ text, Format.append Format.Arduino (Idiom.comment text)
      = Format.append Format.C (Idiom.comment text)) ∧
    (∀ font_name sz timestamp,
      Format.append Format.Arduino (Idiom.begin font_name sz timestamp)
        = Format.append Format.C (Idiom.begin font_name sz timestamp)
          ++ "\n" ++ "#include <Arduino.h>" ++ "\n") ∧
    output_glyph o Format.Arduino glyph size margins []
      = output_glyph o Format.C glyph size margins [] ∧
    str Format.Arduino (output_glyph o Format.Arduino glyph size margins [])
      = str Format.C (output_glyph o Format.C glyph size margins []) := by
  have hog : output_glyph o Format.Arduino glyph size margins []
      = output_glyph o Format.C glyph size margins [] := by
    rw [output_glyph_wrapped, output_glyph_wrapped, wrapped_rows_arduino,
      arduino_eq_c (Idiom.begin_array_row o.indentation) rfl rfl, glyph_bytes_eq_pack,
      glyph_bytes_eq_pack]
  have hstr : ∀ s : List Idiom, s.filter is_begin = [] → s.filter is_begin_array = [] →
      str Format.Arduino s = str Format.C s := by
    intro s
    induction s with
    | nil => intro _ _; rfl
    | cons e s ih =>
      intro hb ha
      have hb1 : is_begin e = false := by
        cases hq : is_begin e with
        | false => rfl
        | true => rw [List.filter_cons, if_pos hq] at hb; cases hb
      have ha1 : is_begin_array e = false := by
        cases hq : is_begin_array e with
        | false => rfl
        | true => rw [List.filter_cons, if_pos hq] at ha; cases ha
      rw [List.filter_cons, if_neg (by simp [hb1])] at hb
      rw [List.filter_cons, if_neg (by simp [ha1])] at ha
      rw [str, str, arduino_eq_c e hb1 ha1, ih hb ha]
  refine ⟨arduino_eq_c, fun _ _ => rfl, fun _ => rfl, ?_, hog, ?_⟩
  · intro font_name sz timestamp
    show C_append (Idiom.begin font_name sz timestamp) ++ "\n#include <Arduino.h>\n" = _
    have e : "\n#include <Arduino.h>\n" = "\n" ++ "#include <Arduino.h>" ++ "\n" := by decide
    rw [e]
    simp only [Format.append, String.append_assoc]
  · rw [hog]
    apply hstr
    · rw [output_glyph_wrapped]
      have : ∀ cur bytes, (wrapped_rows o Format.C cur bytes).filter is_begin = [] := by
        intro cur bytes
        induction bytes generalizing cur with
        | nil => rfl
        | cons b rest ih =>
          rw [wrapped_rows]
          split_ifs <;> simp [List.filter_cons, is_begin, ih]
      simp [List.filter_cons, is_begin, this]
    · rw [output_glyph_wrapped]
      simp [List.filter_cons, is_begin_array, (wrapped_rows_plain o Format.C _ _).1]

/-- The instance of `arduino_renders_as_c` at the closing of an array. -/
theorem arduino_renders_as_c_witness :
    Format.append Format.Arduino Idiom.end_array = Format.append Format.C Idiom.end_array :=
  (arduino_renders_as_c {} glyph_nine ⟨8, 9⟩ ⟨0, 0, 0, 0⟩).1 Idiom.end_array rfl rfl

/-! ## A wrap at the last byte of a glyph -/

theorem wrapped_rows_snoc (o : source_code_options) (T : Format) (bytes : List Nat) (b : Nat)
    (cur : Nat) :
    wrapped_rows o T cur (bytes ++ [b])
      = wrapped_rows o T cur bytes ++ wrapped_rows o T (row_chars o T cur bytes) [b] := by
  induction bytes generalizing cur with
  | nil => rfl
  | cons a rest ih =>
    rw [List.cons_append, wrapped_rows, wrapped_rows, row_chars]
    split_ifs
    · rw [ih]; rfl
    · rw [ih]; rfl

theorem row_chars_open_row (o : source_code_options) (T : Format) (bytes : List Nat)
    (cur : Nat) (acc : List Idiom) (hacc : tellp T acc = cur) :
    tellp T (open_row_from acc (wrapped_rows o T cur bytes)) = row_chars o T cur bytes := by
  induction bytes generalizing cur acc with
  | nil => exact hacc
  | cons b rest ih =>
    rw [wrapped_rows, row_chars]
    split_ifs
    · exact ih (T.append (Idiom.begin_array_row o.indentation)).length
        ([] ++ [Idiom.begin_array_row o.indentation])
        (by rw [List.nil_append, tellp_singleton])
    · exact ih (cur + (T.append (Idiom.value 8 b)).length) (acc ++ [Idiom.value 8 b])
        (by rw [tellp_append, tellp_singleton, hacc])

/-- C26: when the last byte of a glyph brings the character count of its row to `wrap_column`
or more, `output_glyph` writes after that byte a line break and opens a new row that gets no
value, so that the comment of the glyph and the closing line break, which `generate_all` and
`generate_subset` write next, form a row of their own without a value; otherwise the last
byte ends what `output_glyph` writes. The character count is the text length of the elements
after the last line break. With `wrap_column` 10, a tab and format C a glyph of 8 by 2
pixels (2 bytes, 1 + 5 + 5 = 11 characters) is written that way. -/
theorem comment_on_empty_row (o : source_code_options) (itf : generator_interface)
    (T : Format) (glyph : Glyph) (size : Size) (margins : Margins) (glyph_id : Nat)
    (bytes : List Nat) (b : Nat)
    (hbytes : glyph_bytes o T glyph size margins = bytes ++ [b]) :
    row_chars o T (T.append (Idiom.begin_array_row o.indentation)).length bytes
      = tellp T (open_row_from []
          (Idiom.begin_array_row o.indentation ::
            wrapped_rows o T (T.append (Idiom.begin_array_row o.indentation)).length bytes)) ∧
    (row_chars o T (T.append (Idiom.begin_array_row o.indentation)).length bytes
        + (T.append (Idiom.value 8 b)).length ≥ o.wrap_column →
      (∀ s, output_glyph o T glyph size margins s
        = s ++ Idiom.begin_array_row o.indentation ::
            wrapped_rows o T (T.append (Idiom.begin_array_row o.indentation)).length bytes
          ++ [Idiom.value 8 b, Idiom.array_line_break,
              Idiom.begin_array_row o.indentation]) ∧
      glyph_chunk o itf T size margins glyph_id glyph
        = Idiom.begin_array_row o.indentation ::
            wrapped_rows o T (T.append (Idiom.begin_array_row o.indentation)).length bytes
          ++ [Idiom.value 8 b, Idiom.array_line_break]
          ++ [Idiom.begin_array_row o.indentation,
              Idiom.comment (itf.comment_for_glyph glyph_id), Idiom.array_line_break]) ∧
    (row_chars o T (T.append (Idiom.begin_array_row o.indentation)).length bytes
        + (T.append (Idiom.value 8 b)).length < o.wrap_column →
      ∀ s, output_glyph o T glyph size margins s
        = s ++ Idiom.begin_array_row o.indentation ::
            wrapped_rows o T (T.append (Idiom.begin_array_row o.indentation)).length bytes
          ++ [Idiom.value 8 b]) ∧
    glyph_chunk { wrap_column := 10 } itf Format.C ⟨8, 2⟩ ⟨0, 0, 0, 0⟩ glyph_id glyph_8x2
      = [Idiom.begin_array_row "\t", Idiom.value 8 0, Idiom.value 8 0,
          Idiom.array_line_break,
          Idiom.begin_array_row "\t", Idiom.comment (itf.comment_for_glyph glyph_id),
          Idiom.array_line_break] := by
  have hlast : ∀ cur, wrapped_rows o T cur [b]
      = Idiom.value 8 b ::
        (if cur + (T.append (Idiom.value 8 b)).length ≥ o.wrap_column then
          [Idiom.array_line_break, Idiom.begin_array_row o.indentation] else []) := by
    intro cur
    rw [wrapped_rows]
    split_ifs <;> rfl
  refine ⟨?_, fun h => ⟨fun s => ?_, ?_⟩, fun h s => ?_, ?_⟩
  · exact (row_chars_open_row o T bytes (T.append (Idiom.begin_array_row o.indentation)).length
      ([] ++ [Idiom.begin_array_row o.indentation])
      (by rw [List.nil_append, tellp_singleton])).symm
  · rw [output_glyph_wrapped, hbytes, wrapped_rows_snoc, hlast, if_pos h]
    simp
  · rw [glyph_chunk, output_glyph_wrapped, hbytes, wrapped_rows_snoc, hlast, if_pos h]
    simp
  · rw [output_glyph_wrapped, hbytes, wrapped_rows_snoc, hlast, if_neg (by omega)]
    simp
  · have hb : glyph_bytes { wrap_column := 10 } Format.C glyph_8x2 ⟨8, 2⟩ ⟨0, 0, 0, 0⟩
        = [0, 0] := by
      rw [glyph_bytes_eq_pack]; decide
    rw [glyph_chunk, output_glyph_wrapped, hb]
    rfl

/-- The instance of `comment_on_empty_row` at the glyph of 8 by 2 pixels with `wrap_column`
10, a tab and format C. -/
theorem comment_on_empty_row_witness :
    glyph_chunk { wrap_column := 10 } ⟨"", fun _ => "glyph"⟩ Format.C ⟨8, 2⟩ ⟨0, 0, 0, 0⟩ 0
        glyph_8x2
      = Idiom.begin_array_row "\t" :: wrapped_rows { wrap_column := 10 } Format.C 1 [0]
          ++ [Idiom.value 8 0, Idiom.array_line_break]
          ++ [Idiom.begin_array_row "\t", Idiom.comment "glyph", Idiom.array_line_break] :=
  ((comment_on_empty_row { wrap_column := 10 } ⟨"", fun _ => "glyph"⟩ Format.C glyph_8x2
    ⟨8, 2⟩ ⟨0, 0, 0, 0⟩ 0 [0] 0 (by rw [glyph_bytes_eq_pack]; decide)).2.1 (by decide)).2

/-! ## Rows and line breaks inside the arrays -/

theorem row_scan_append (a b : List Idiom) (p : Bool) :
    row_scan p (a ++ b) = (row_scan p a).bind fun q => row_scan q b := by
  induction a generalizing p with
  | nil => cases p <;> rfl
  | cons e a ih =>
    cases p <;> cases e <;> simp [row_scan, ih]

theorem row_scan_last (s : List Idiom) (p : Bool) (h : row_scan p s = some false)
    (hne : s ≠ []) : s.getLast? = some Idiom.array_line_break := by
  induction s generalizing p with
  | nil => exact absurd rfl hne
  | cons e t ih =>
    cases t with
    | nil => cases p <;> cases e <;> simp [row_scan] at h ⊢
    | cons e2 t2 =>
      rw [List.getLast?_cons_cons]
      cases p <;> cases e <;> simp only [row_scan] at h
      all_goals first
        | exact ih _ h (List.cons_ne_nil _ _)
        | cases h

theorem row_scan_head (s : List Idiom) (h : row_scan false s = some false) (hne : s ≠ []) :
    ∃ indentation, s.head? = some (Idiom.begin_array_row indentation) := by
  cases s with
  | nil => exact absurd rfl hne
  | cons e t =>
    cases e <;> simp only [row_scan] at h
    all_goals first
      | exact ⟨_, rfl⟩
      | cases h

theorem rows_closed_of_scan (s : List Idiom) (h : row_scan false s = some false)
    (hne : s ≠ []) : rows_closed s :=
  ⟨h, row_scan_head s h hne, row_scan_last s false h hne⟩

theorem row_scan_wrapped_rows (o : source_code_options) (T : Format) (bytes : List Nat)
    (cur : Nat) : row_scan true (wrapped_rows o T cur bytes) = some true := by
  induction bytes generalizing cur with
  | nil => rfl
  | cons b rest ih =>
    rw [wrapped_rows]
    split_ifs
    · simp only [row_scan]; exact ih _
    · simp only [row_scan]; exact ih _

theorem row_scan_glyph_chunk (o : source_code_options) (itf : generator_interface)
    (T : Format) (size : Size) (margins : Margins) (glyph_id : Nat) (glyph : Glyph) :
    row_scan false (glyph_chunk o itf T size margins glyph_id glyph) = some false := by
  rw [glyph_chunk, output_glyph_wrapped, List.nil_append, List.cons_append, row_scan,
    row_scan_append, row_scan_wrapped_rows]
  rfl

theorem row_scan_flatten (L : List (List Idiom))
    (h : ∀ c, c ∈ L → row_scan false c = some false) :
    row_scan false L.flatten = some false := by
  induction L with
  | nil => rfl
  | cons c L ih =>
    rw [List.flatten_cons, row_scan_append, h c (List.mem_cons_self _ _)]
    exact ih fun d hd => h d (List.mem_cons_of_mem _ hd)

theorem glyph_chunk_ne_nil (o : source_code_options) (itf : generator_interface)
    (T : Format) (size : Size) (margins : Margins) (glyph_id : Nat) (glyph : Glyph) :
    glyph_chunk o itf T size margins glyph_id glyph ≠ [] := by
  rw [glyph_chunk]
  simp

theorem subset_glyphs_chunks (o : source_code_options) (itf : generator_interface)
    (T : Format) (face : Face) (size : Size) (margins : Margins) (ids : List Nat)
    (h : ∀ i, i ∈ ids → i < face.glyphs.length) (s : List Idiom) :
    subset_glyphs o itf T face size margins ids s
      = Except.ok (s ++ (ids.map (face_glyph_chunk o itf T face size margins)).flatten) := by
  induction ids generalizing s with
  | nil => simp [subset_glyphs]
  | cons i rest ih =>
    have hi : i < face.glyphs.length := h i (List.mem_cons_self _ _)
    rw [subset_glyphs, glyph_at_ok face i hi]
    simp only
    rw [ih (fun j hj => h j (List.mem_cons_of_mem _ hj)), output_glyph_append]
    have hc : face_glyph_chunk o itf T face size margins i
        = glyph_chunk o itf T size margins i face.glyphs[i] := by
      rw [face_glyph_chunk, List.get?_eq_getElem?, List.getElem?_eq_getElem hi]
    rw [List.map_cons, List.flatten_cons, hc, glyph_chunk]
    simp [List.append_assoc]

theorem face_glyph_chunk_scan (o : source_code_options) (itf : generator_interface)
    (T : Format) (face : Face) (size : Size) (margins : Margins) (glyph_id : Nat) :
    row_scan false (face_glyph_chunk o itf T face size margins glyph_id) = some false := by
  rw [face_glyph_chunk]
  cases face.glyphs.get? glyph_id with
  | none => rfl
  | some g => exact row_scan_glyph_chunk o itf T size margins glyph_id g

theorem lut_row_scan (V : Nat) (k : Nat) (rest : List Idiom) :
    row_scan true (List.replicate k (Idiom.value V 0) ++ rest) = row_scan true rest := by
  induction k with
  | zero => rfl
  | succ k ih => rw [List.replicate_succ, List.cons_append, row_scan, ih]

theorem flatten_ne_nil (L : List (List Idiom)) (hL : L ≠ []) (h : ∀ c, c ∈ L → c ≠ []) :
    L.flatten ≠ [] := by
  cases L with
  | nil => exact absurd rfl hL
  | cons c L =>
    rw [List.flatten_cons]
    intro he
    exact h c (List.mem_cons_self _ _) (List.append_eq_nil.mp he).1

theorem lut_rows_scan (itf : generator_interface) (V : Nat) (ind : String) (ids : List Nat)
    (h : ascending ids) (bpg last : Nat) (hlast : ids.getLast? = some last) :
    rows_closed (lut_rows V ind 0 (lut_entries itf V ids bpg (List.range (last + 1)))).flatten := by
  have hn := ascending_nodup ids h
  have hmem := mem_of_getLast ids last hlast
  have hle := ascending_le_getLast ids h last hlast
  have hrows := lut_rows_closed V ind (lut_entries itf V ids bpg (List.range (last + 1))) 0 true
    (lut_entries_flag itf V ids bpg last hmem) (fun _ => rfl)
  have hlen : (lut_rows V ind 0 (lut_entries itf V ids bpg (List.range (last + 1)))).length
      = ids.length + entry_runs true (lut_entries itf V ids bpg (List.range (last + 1))) := by
    rw [lut_rows_length, lut_entries_somes itf V ids hn,
      rank_all ids (last + 1) (fun i hi => Nat.lt_succ_of_le (hle i hi))]
    simp
  have hpos : 0 < ids.length := List.length_pos_of_mem hmem
  apply rows_closed_of_scan
  · apply row_scan_flatten
    intro row hrow
    rcases hrows row hrow with ⟨v, c, -, hrw⟩ | ⟨k, -, hrw⟩
    · rw [hrw]; rfl
    · rw [hrw, List.cons_append, row_scan, lut_row_scan]; rfl
  · apply flatten_ne_nil
    · intro he
      rw [he] at hlen
      simp at hlen
      omega
    · intro row hrow
      rcases hrows row hrow with ⟨v, c, -, hrw⟩ | ⟨k, -, hrw⟩
      · rw [hrw]; simp
      · rw [hrw]; simp

/-- C25: in what `generate_all` writes for a face with at least one glyph, and in what
`generate_subset` writes for a non-empty exported set within the face, the elements between
the opening of an array and its closing (the data array, and the table `lut`) are rows:
openings of rows and line breaks alternate, the first element opens a row, the last one,
right before the closing of the array, is a line break, and every value and comment is
between the opening of a row and its line break. In format PythonBytes the opening of a row
writes the opening quote and the line break the closing one. -/
theorem arrays_are_rows (o : source_code_options) (itf : generator_interface) (T : Format)
    (face : Face) (font_name : String) :
    (face.glyphs ≠ [] →
      ∃ body, generate_all_stream o itf T face font_name
          = [Idiom.begin font_name (size_and_margins o face).1 itf.current_timestamp,
              Idiom.begin_array 8 font_name] ++ body ++ [Idiom.end_array, Idiom.end_] ∧
        rows_closed body) ∧
    (face.exported_glyph_ids ≠ [] → ascending face.exported_glyph_ids →
      (∀ i, i ∈ face.exported_glyph_ids → i < face.glyphs.length) →
      ∃ body V lut_body, generate_subset_stream o itf T face font_name
          = Except.ok
            ([Idiom.begin font_name (size_and_margins o face).1 itf.current_timestamp,
                Idiom.begin_array 8 font_name] ++ body ++ [Idiom.end_array]
              ++ (Idiom.begin_array V "lut" :: lut_body ++ [Idiom.end_array])
              ++ [Idiom.end_]) ∧
        rows_closed body ∧ rows_closed lut_body) ∧
    (∀ indentation, Format.append Format.PythonBytes (Idiom.begin_array_row indentation)
      = indentation ++ "\x27") ∧
    Format.append Format.PythonBytes Idiom.array_line_break = "\x27 \\\n" := by
  refine ⟨fun hg => ?_, fun hne hasc hr => ?_, fun _ => rfl, rfl⟩
  · refine ⟨_, generate_all_stream_chunks o itf T face font_name, ?_⟩
    apply rows_closed_of_scan
    · apply row_scan_flatten
      intro c hc
      obtain ⟨ig, -, rfl⟩ := List.mem_map.mp hc
      exact row_scan_glyph_chunk _ _ _ _ _ _ _
    · apply flatten_ne_nil
      · cases hgl : face.glyphs with
        | nil => exact absurd hgl hg
        | cons g rest => simp [List.enumFrom]
      · intro c hc
        obtain ⟨ig, -, rfl⟩ := List.mem_map.mp hc
        exact glyph_chunk_ne_nil _ _ _ _ _ _ _
  · obtain ⟨last, hlast⟩ : ∃ last, face.exported_glyph_ids.getLast? = some last := by
      cases hq : face.exported_glyph_ids.getLast? with
      | none => exact absurd (List.getLast?_eq_none_iff.mp hq) hne
      | some last => exact ⟨last, rfl⟩
    refine ⟨(face.exported_glyph_ids.map (face_glyph_chunk o itf T face
        (size_and_margins o face).1 (size_and_margins o face).2)).flatten,
      lut_bits (max_offset face.exported_glyph_ids.length
        (bytes_per_glyph (size_and_margins o face).1)),
      (lut_rows (lut_bits (max_offset face.exported_glyph_ids.length
          (bytes_per_glyph (size_and_margins o face).1))) o.indentation 0
        (lut_entries itf (lut_bits (max_offset face.exported_glyph_ids.length
          (bytes_per_glyph (size_and_margins o face).1))) face.exported_glyph_ids
        (bytes_per_glyph (size_and_margins o face).1) (List.range (last + 1)))).flatten,
      ?_, ?_, lut_rows_scan itf _ o.indentation _ hasc _ last hlast⟩
    · have hlut : subset_lut_of o itf face.exported_glyph_ids
          (bytes_per_glyph (size_and_margins o face).1)
          = Except.ok (Idiom.begin_array (lut_bits (max_offset face.exported_glyph_ids.length
              (bytes_per_glyph (size_and_margins o face).1))) "lut" ::
            (lut_rows (lut_bits (max_offset face.exported_glyph_ids.length
          (bytes_per_glyph (size_and_margins o face).1))) o.indentation 0
              (lut_entries itf (lut_bits (max_offset face.exported_glyph_ids.length
          (bytes_per_glyph (size_and_margins o face).1))) face.exported_glyph_ids
              (bytes_per_glyph (size_and_margins o face).1) (List.range (last + 1)))).flatten
            ++ [Idiom.end_array]) :=
        subset_lut_rows_eq o itf _ _ (ascending_nodup _ hasc) _ last hlast
      rw [generate_subset_stream]
      simp only
      rw [subset_glyphs_chunks o itf T face _ _ _ hr, hlut]
      simp [List.append_assoc]
    · apply rows_closed_of_scan
      · apply row_scan_flatten
        intro c hc
        obtain ⟨i, -, rfl⟩ := List.mem_map.mp hc
        exact face_glyph_chunk_scan _ _ _ _ _ _ _
      · apply flatten_ne_nil
        · simpa using hne
        · intro c hc
          obtain ⟨i, hi, rfl⟩ := List.mem_map.mp hc
          have hi2 := hr i hi
          rw [face_glyph_chunk, List.get?_eq_getElem?, List.getElem?_eq_getElem hi2]
          exact glyph_chunk_ne_nil _ _ _ _ _ _ _

/-- The instance of `arrays_are_rows` at a face that holds the glyph `9` alone and exports
it. -/
theorem arrays_are_rows_witness :
    ∃ body V lut_body,
      generate_subset_stream {} ⟨"", fun _ => ""⟩ Format.PythonBytes
          (face_nine [0] ⟨0, 0, 0, 0⟩) "font"
        = Except.ok
          ([Idiom.begin "font" (size_and_margins {} (face_nine [0] ⟨0, 0, 0, 0⟩)).1 "",
              Idiom.begin_array 8 "font"] ++ body ++ [Idiom.end_array]
            ++ (Idiom.begin_array V "lut" :: lut_body ++ [Idiom.end_array])
            ++ [Idiom.end_]) ∧
      rows_closed body ∧ rows_closed lut_body :=
  (arrays_are_rows {} ⟨"", fun _ => ""⟩ Format.PythonBytes (face_nine [0] ⟨0, 0, 0, 0⟩)
    "font").2.1 (by simp [face_nine]) (by simp [face_nine, ascending])
    (by simp [face_nine])

/-! ## The data array of `generate_subset` and the offsets of the table -/

theorem generate_subset_stream_ok (o : source_code_options) (itf : generator_interface)
    (T : Format) (face : Face) (font_name : String) (hne : face.exported_glyph_ids ≠ [])
    (h : ∀ i, i ∈ face.exported_glyph_ids → i < face.glyphs.length) :
    ∃ s, generate_subset_stream o itf T face font_name = Except.ok s := by
  unfold generate_subset_stream
  simp only []
  obtain ⟨b, hb⟩ := subset_glyphs_ok o itf T face (size_and_margins o face).1
    (size_and_margins o face).2 face.exported_glyph_ids h
    ([Idiom.begin font_name (size_and_margins o face).1 itf.current_timestamp]
      ++ [Idiom.begin_array 8 font_name])
  obtain ⟨lut, hl⟩ := subset_lut_of_ok o itf face.exported_glyph_ids hne
    (bytes_per_glyph (size_and_margins o face).1)
  rw [hb]
  simp only []
  rw [hl]
  exact ⟨_, rfl⟩

theorem face_glyph_bytes_length (o : source_code_options) (T : Format) (face : Face)
    (size : Size) (margins : Margins) (i : Nat) (hi : i < face.glyphs.length)
    (hpx : (trimmed_pixels face.glyphs[i] margins).length = size.width * size.height)
    (hfit : size.height * bytes_per_line size.width < 2 ^ 64) :
    (face_glyph_bytes o T face size margins i).length = bytes_per_glyph size := by
  rw [face_glyph_bytes, List.get?_eq_getElem?, List.getElem?_eq_getElem hi]
  simp only
  rw [glyph_bytes_eq_pack, pack_length o size.width size.height _ hpx, bytes_per_glyph,
    Nat.mod_eq_of_lt hfit]

/-- The data array and the table of `generate_subset` when the counter of `subset_lut` does
not wrap: the data array holds one run of `bytes_per_glyph` values per exported id, and the
value the table has at an exported id is the position in the data array at which the bytes
of that glyph start. -/
theorem generate_subset_offsets (o : source_code_options) (itf : generator_interface)
    (T : Format) (face : Face) (font_name : String)
    (hne : face.exported_glyph_ids ≠ []) (hasc : ascending face.exported_glyph_ids)
    (hr : ∀ i, i ∈ face.exported_glyph_ids → i < face.glyphs.length)
    (hcount : face.exported_glyph_ids.length ≤ 2 ^ 16)
    (hlen : ∀ i, i ∈ face.exported_glyph_ids →
      (face_glyph_bytes o T face (size_and_margins o face).1 (size_and_margins o face).2
        i).length = bytes_per_glyph (size_and_margins o face).1)
    (hfit : (face.exported_glyph_ids.length - 1) * bytes_per_glyph (size_and_margins o face).1
      < 2 ^ 64) :
    ∃ s lut data, generate_subset_stream o itf T face font_name = Except.ok s ∧
      subset_lut_of o itf face.exported_glyph_ids
        (bytes_per_glyph (size_and_margins o face).1) = Except.ok lut ∧
      data = (face.exported_glyph_ids.map (face_glyph_bytes o T face
        (size_and_margins o face).1 (size_and_margins o face).2)).flatten ∧
      values s = data ++ values lut ∧
      data.length
        = face.exported_glyph_ids.length * bytes_per_glyph (size_and_margins o face).1 ∧
      ∀ k (hk : k < face.exported_glyph_ids.length),
        (data.drop ((values lut).getD face.exported_glyph_ids[k] 0)).take
            (bytes_per_glyph (size_and_margins o face).1)
          = face_glyph_bytes o T face (size_and_margins o face).1 (size_and_margins o face).2
              face.exported_glyph_ids[k] := by
  obtain ⟨s, hs⟩ := generate_subset_stream_ok o itf T face font_name hne hr
  obtain ⟨lut, hl, hv⟩ := values_generate_subset_stream o itf T face font_name s hs
  obtain ⟨last, hlast⟩ : ∃ last, face.exported_glyph_ids.getLast? = some last := by
    cases hq : face.exported_glyph_ids.getLast? with
    | none => exact absurd (List.getLast?_eq_none_iff.mp hq) hne
    | some last => exact ⟨last, rfl⟩
  obtain ⟨lut2, hl2, -, -, hoff⟩ := subset_lut_of_spec o itf face.exported_glyph_ids hasc
    (bytes_per_glyph (size_and_margins o face).1) last hlast hcount hfit
  rw [hl] at hl2
  cases hl2
  have hall : ∀ l, l ∈ face.exported_glyph_ids.map (face_glyph_bytes o T face
      (size_and_margins o face).1 (size_and_margins o face).2) →
      l.length = bytes_per_glyph (size_and_margins o face).1 := by
    intro l hl
    obtain ⟨i, hi, rfl⟩ := List.mem_map.mp hl
    exact hlen i hi
  refine ⟨s, lut, _, hs, hl, rfl, hv, ?_, ?_⟩
  · rw [flatten_length_const _ _ hall, List.length_map]
  · intro k hk
    rw [hoff k hk, flatten_drop_take _ _ hall k (by rw [List.length_map]; exact hk),
      List.getElem_map]

theorem size_and_margins_65537 (o : source_code_options) :
    size_and_margins o face_65537 = (⟨8, 16⟩, ⟨0, 0, 0, 0⟩) := by
  unfold size_and_margins
  split <;> rfl

theorem face_65537_bytes (o : source_code_options) (T : Format) (i : Nat) :
    face_glyph_bytes o T face_65537 ⟨8, 16⟩ ⟨0, 0, 0, 0⟩ i
      = if i < 65536 then glyph_bytes o T (glyph_8x16 false) ⟨8, 16⟩ ⟨0, 0, 0, 0⟩
        else if i = 65536 then glyph_bytes o T (glyph_8x16 true) ⟨8, 16⟩ ⟨0, 0, 0, 0⟩
        else [] := by
  have hg : face_65537.glyphs
      = List.replicate 65536 (glyph_8x16 false) ++ [glyph_8x16 true] := rfl
  rw [face_glyph_bytes, hg, List.get?_eq_getElem?]
  by_cases h1 : i < 65536
  · rw [if_pos h1, List.getElem?_append_left (by rw [List.length_replicate]; exact h1),
      List.getElem?_eq_getElem (by rw [List.length_replicate]; exact h1),
      List.getElem_replicate]
  · rw [if_neg h1, List.getElem?_append_right (by rw [List.length_replicate]; omega),
      List.length_replicate]
    by_cases h2 : i = 65536
    · rw [if_pos h2, h2]; rfl
    · rw [if_neg h2]
      have : i - 65536 = (i - 65537) + 1 := by omega
      rw [this]; rfl

theorem glyph_8x16_bytes_length (o : source_code_options) (T : Format) (v : Bool) :
    (glyph_bytes o T (glyph_8x16 v) ⟨8, 16⟩ ⟨0, 0, 0, 0⟩).length = 16 := by
  rw [glyph_bytes_eq_pack, trimmed_pixels_zero _ _ rfl rfl,
    pack_length o 8 16 _ (by simp [glyph_8x16])]
  rfl

set_option maxRecDepth 100000 in
theorem glyph_8x16_bytes (T : Format) :
    glyph_bytes {} T (glyph_8x16 false) ⟨8, 16⟩ ⟨0, 0, 0, 0⟩ = List.replicate 16 0 ∧
    glyph_bytes {} T (glyph_8x16 true) ⟨8, 16⟩ ⟨0, 0, 0, 0⟩ = List.replicate 16 255 := by
  constructor <;> rw [glyph_bytes_eq_pack] <;> decide

/-- C23, the code at an input where it departs from the claim: for the face of 65537 glyphs
of 8 by 16 pixels, all exported, `generate_subset` returns; the data array holds
`65537 * 16` values and the 16 bytes of the glyph of index 65536 start at position
`65536 * 16` of it, but the value the table has at index 65536 is 0, the position of the
bytes of glyph 0: the `uint16_t` counter `exported_id` of `subset_lut` has wrapped. With the
default options the bytes at position 0 are 16 times 0 and those of glyph 65536 are 16
times 255. -/
theorem generate_subset_offset_wraps (o : source_code_options) (itf : generator_interface)
    (T : Format) :
    ∃ s lut data, generate_subset_stream o itf T face_65537 "font" = Except.ok s ∧
      subset_lut_of o itf face_65537.exported_glyph_ids
        (bytes_per_glyph (size_and_margins o face_65537).1) = Except.ok lut ∧
      values s = data ++ values lut ∧
      face_65537.exported_glyph_ids.length = 65537 ∧
      bytes_per_glyph (size_and_margins o face_65537).1 = 16 ∧
      data.length = 65537 * 16 ∧
      (data.drop (65536 * 16)).take 16
        = glyph_bytes o T (glyph_8x16 true) ⟨8, 16⟩ ⟨0, 0, 0, 0⟩ ∧
      (data.drop 0).take 16 = glyph_bytes o T (glyph_8x16 false) ⟨8, 16⟩ ⟨0, 0, 0, 0⟩ ∧
      (values lut).getD 65536 0 = 0 ∧
      glyph_bytes {} T (glyph_8x16 false) ⟨8, 16⟩ ⟨0, 0, 0, 0⟩ = List.replicate 16 0 ∧
      glyph_bytes {} T (glyph_8x16 true) ⟨8, 16⟩ ⟨0, 0, 0, 0⟩ = List.replicate 16 255 := by
  have hids : face_65537.exported_glyph_ids = List.range 65537 := by rw [face_65537]
  have hgl : face_65537.glyphs.length = 65537 := by
    show (List.replicate 65536 (glyph_8x16 false) ++ [glyph_8x16 true]).length = 65537
    rw [List.length_append, List.length_replicate]; rfl
  have hlenr : (List.range 65537).length = 65537 := List.length_range _
  have hasc : ascending (List.range 65537) := List.pairwise_lt_range _
  have hlast : (List.range 65537).getLast? = some 65536 := by
    rw [List.getLast?_range]; rfl
  have hne : face_65537.exported_glyph_ids ≠ [] := by
    rw [hids]; intro e; rw [e] at hlenr; simp at hlenr
  have hr : ∀ i, i ∈ face_65537.exported_glyph_ids → i < face_65537.glyphs.length := by
    intro i hi
    rw [hids] at hi
    rw [hgl]
    exact List.mem_range.mp hi
  obtain ⟨s, hs⟩ := generate_subset_stream_ok o itf T face_65537 "font" hne hr
  obtain ⟨lut, hl, hv⟩ := values_generate_subset_stream o itf T face_65537 "font" s hs
  have hbpg : bytes_per_glyph (size_and_margins o face_65537).1 = 16 := by
    rw [size_and_margins_65537]; rfl
  have hV : lut_bits (max_offset (List.range 65537).length 16) = 32 := by
    rw [hlenr]; decide
  obtain ⟨lut2, hl2, hv2⟩ := values_subset_lut_of o itf _ hasc 16 65536 hlast
  have hl3 := hl
  rw [hbpg, hids, hl2] at hl3
  cases hl3
  have hrank : rank (List.range 65537) 65536 = 65536 := by
    have := rank_getElem (List.range 65537) hasc 65536 (by rw [hlenr]; decide)
    rwa [List.getElem_range] at this
  have hall : ∀ l, l ∈ (List.range 65537).map
      (face_glyph_bytes o T face_65537 ⟨8, 16⟩ ⟨0, 0, 0, 0⟩) → l.length = 16 := by
    intro l hl
    obtain ⟨i, hi, rfl⟩ := List.mem_map.mp hl
    have hi2 := List.mem_range.mp hi
    rw [face_65537_bytes]
    split_ifs with h1 h2
    · exact glyph_8x16_bytes_length o T false
    · exact glyph_8x16_bytes_length o T true
    · omega
  rw [size_and_margins_65537, hids] at hv
  refine ⟨s, lut, _, hs, hl, hv, by rw [hids, hlenr], hbpg, ?_, ?_, ?_, ?_,
    (glyph_8x16_bytes T).1, (glyph_8x16_bytes T).2⟩
  · rw [flatten_length_const _ _ hall, List.length_map, hlenr]
  · rw [flatten_drop_take _ _ hall 65536 (by rw [List.length_map, hlenr]; decide),
      List.getElem_map, List.getElem_range, face_65537_bytes]
    rfl
  · have h0 : (0 : Nat) = 0 * 16 := rfl
    rw [h0, flatten_drop_take _ _ hall 0 (by rw [List.length_map, hlenr]; decide),
      List.getElem_map, List.getElem_range, face_65537_bytes]
    rfl
  · rw [hv2, getD_map_range _ _ _ (by decide), hV]
    unfold lut_entry
    rw [if_pos (List.mem_range.mpr (by decide)), hrank]
    decide

/-! ## The settings and the format of the application model -/

theorem formats_items (qvariant_cast : QVariant → BitNumbering) (settings_ : QSettings) :
    (MainWindowModel.construct qvariant_cast settings_).formats_.items
      = [("arduino", "Arduino"), ("c", "C/C++"), ("python-bytes", "Python Bytes"),
          ("python-list", "Python List")] := by
  show (QMap.insert (QMap.insert (QMap.insert (QMap.insert ⟨[]⟩ "c" "C/C++")
    "arduino" "Arduino") "python-list" "Python List") "python-bytes" "Python Bytes").items = _
  decide

theorem formats_firstKey (qvariant_cast : QVariant → BitNumbering) (settings_ : QSettings) :
    (MainWindowModel.construct qvariant_cast settings_).formats_.firstKey = "arduino" := by
  rw [QMap.firstKey, formats_items]

theorem formats_first (qvariant_cast : QVariant → BitNumbering) (settings_ : QSettings) :
    (MainWindowModel.construct qvariant_cast settings_).formats_.first = "Arduino" := by
  rw [QMap.first, formats_items]

theorem construct_currentFormat (qvariant_cast : QVariant → BitNumbering)
    (settings_ : QSettings) :
    (MainWindowModel.construct qvariant_cast settings_).currentFormat_
      = (settings_.value SettingsKey.format (QVariant.string
          (MainWindowModel.construct qvariant_cast settings_).formats_.firstKey)).toString :=
  rfl

theorem setOutputFormat_formats (m : MainWindowModel) (format : String) :
    (m.setOutputFormat format).formats_ = m.formats_ := rfl

theorem reachable_formats (qvariant_cast : QVariant → BitNumbering) (settings_ : QSettings)
    (m : MainWindowModel) (h : reachable qvariant_cast settings_ m) :
    m.formats_.items
      = [("arduino", "Arduino"), ("c", "C/C++"), ("python-bytes", "Python Bytes"),
          ("python-list", "Python List")] := by
  induction h with
  | constructed => exact formats_items qvariant_cast settings_
  | setOutputFormat m format _ ih => rw [setOutputFormat_formats]; exact ih

/-- C21, as the code has it: when the settings store holds no value for the format key, the
constructor sets the current format to `formats_.firstKey()`, the smallest key of the map
`formats_`, which is the identifier `arduino`; that is one of the four identifiers of
`Format::available_formats`, which are pairwise distinct and of which `c`, the first one
inserted, is the first. -/
theorem construct_default_format (qvariant_cast : QVariant → BitNumbering)
    (settings_ : QSettings) (h : settings_.stored SettingsKey.format = none) :
    (MainWindowModel.construct qvariant_cast settings_).currentFormat_ = "arduino" ∧
    (MainWindowModel.construct qvariant_cast settings_).currentFormat_
      = (MainWindowModel.construct qvariant_cast settings_).formats_.firstKey ∧
    (MainWindowModel.construct qvariant_cast settings_).formats_.items.map Prod.fst
      = ["arduino", "c", "python-bytes", "python-list"] ∧
    (MainWindowModel.construct qvariant_cast settings_).currentFormat_ ∈ available_formats ∧
    available_formats = ["c", "arduino", "python-list", "python-bytes"] ∧
    available_formats.Nodup := by
  have hc : (MainWindowModel.construct qvariant_cast settings_).currentFormat_
      = "arduino" := by
    rw [construct_currentFormat, formats_firstKey, QSettings.value, h]
    rfl
  refine ⟨hc, ?_, ?_, ?_, rfl, by decide⟩
  · rw [hc, formats_firstKey]
  · rw [formats_items]; rfl
  · rw [hc]; decide

/-- The instance of `construct_default_format` at the store that holds no value. -/
theorem construct_default_format_witness :
    (MainWindowModel.construct (fun _ => BitNumbering.LSB) no_settings).currentFormat_
      = "arduino" :=
  (construct_default_format (fun _ => BitNumbering.LSB) no_settings rfl).1

/-- C21, the claim fails: with a settings store that holds no value, the current format
after the constructor is not the identifier `c`, the first of `Format::available_formats`. -/
theorem construct_default_format_not_c :
    no_settings.stored SettingsKey.format = none ∧
    available_formats.head? = some "c" ∧
    (MainWindowModel.construct (fun _ => BitNumbering.LSB) no_settings).currentFormat_
      ≠ "c" := by
  refine ⟨rfl, rfl, ?_⟩
  have hc : (MainWindowModel.construct (fun _ => BitNumbering.LSB) no_settings).currentFormat_
      = "arduino" := by
    rw [construct_currentFormat, formats_firstKey]; rfl
  rw [hc]
  decide

/-- C22, the code at an input where it departs from the claim: `setIncludeLineSpacing(v)`
stores `v` under the key `source_code_options/invert_bits` and leaves the value under
`source_code_options/include_line_spacing` as it was; called with `true` on a store that
holds no value, it leaves no value under `source_code_options/include_line_spacing` and
`true` under `source_code_options/invert_bits`, which the constructor reads as the option
`invert_bits` the next time. The setters `setInvertBits` and
`setMSBEnabled` store under their own keys and leave the other keys as they were. -/
theorem setIncludeLineSpacing_writes_invert_bits (qvariant_cast : QVariant → BitNumbering)
    (m : MainWindowModel) (v : Bool) :
    (m.setIncludeLineSpacing v).settings_.stored "source_code_options/invert_bits"
      = some (QVariant.bool v) ∧
    (m.setIncludeLineSpacing v).settings_.stored "source_code_options/include_line_spacing"
      = m.settings_.stored "source_code_options/include_line_spacing" ∧
    (m.setIncludeLineSpacing v).sourceCodeOptions_.include_line_spacing = v ∧
    ((MainWindowModel.construct qvariant_cast no_settings).setIncludeLineSpacing
        true).settings_.stored SettingsKey.includeLineSpacing = none ∧
    ((MainWindowModel.construct qvariant_cast no_settings).setIncludeLineSpacing
        true).settings_.stored SettingsKey.invertBits = some (QVariant.bool true) ∧
    (MainWindowModel.construct qvariant_cast no_settings).settings_.stored
        SettingsKey.invertBits = none ∧
    (MainWindowModel.construct qvariant_cast no_settings).sourceCodeOptions_.invert_bits
      = false ∧
    (MainWindowModel.construct qvariant_cast
        ((MainWindowModel.construct qvariant_cast no_settings).setIncludeLineSpacing
          true).settings_).sourceCodeOptions_.invert_bits = true ∧
    (m.setInvertBits v).settings_.stored SettingsKey.invertBits = some (QVariant.bool v) ∧
    (∀ key, key ≠ SettingsKey.invertBits →
      (m.setInvertBits v).settings_.stored key = m.settings_.stored key) ∧
    (m.setMSBEnabled v).settings_.stored SettingsKey.bitNumbering
      = some (QVariant.int (if v then 1 else 0)) ∧
    (∀ key, key ≠ SettingsKey.bitNumbering →
      (m.setMSBEnabled v).settings_.stored key = m.settings_.stored key) := by
  have hs : ∀ (s : QSettings) (key : String) (x : QVariant),
      (s.setValue key x).stored key = some x := by
    intro s key x
    simp [QSettings.setValue]
  have ho : ∀ (s : QSettings) (key key2 : String) (x : QVariant), key2 ≠ key →
      (s.setValue key x).stored key2 = s.stored key2 := by
    intro s key key2 x hk
    simp [QSettings.setValue, hk]
  refine ⟨hs _ _ _, ho _ _ _ _ (by decide), rfl, ho _ _ _ _ (by decide), hs _ _ _, rfl,
    rfl, ?_, hs _ _ _, fun key hk => ho _ _ _ _ hk, ?_, fun key hk => ho _ _ _ _ hk⟩
  · show (QSettings.value ((MainWindowModel.construct qvariant_cast
      no_settings).setIncludeLineSpacing true).settings_ SettingsKey.invertBits
      (QVariant.bool false)).toBool = true
    rw [QSettings.value, show ((MainWindowModel.construct qvariant_cast
      no_settings).setIncludeLineSpacing true).settings_.stored SettingsKey.invertBits
      = some (QVariant.bool true) from hs _ _ _]
    rfl
  cases v <;> exact hs _ _ _

/-- C27, the code at an input where it departs from the claim: after the constructor on a
settings store that holds no value (the current format is then the identifier `arduino`),
`setOutputFormat` called with a text that is not the display name of a format, as the
identifier `python-list` is not, sets the current format to `formats_.first()`, the display
name `Arduino`, which is none of the four identifiers; that text is stored under the format
key and handed to the `SourceCodeRunnable`, and the constructor takes it from the store as the current format the
next time. Called with the display name `C/C++` it sets the identifier `c`. -/
theorem setOutputFormat_falls_back_to_display_name
    (qvariant_cast : QVariant → BitNumbering) :
    (MainWindowModel.construct qvariant_cast no_settings).currentFormat_ = "arduino" ∧
    reachable qvariant_cast no_settings
      ((MainWindowModel.construct qvariant_cast no_settings).setOutputFormat "python-list") ∧
    ((MainWindowModel.construct qvariant_cast no_settings).setOutputFormat
        "python-list").currentFormat_ = "Arduino" ∧
    "Arduino" ∉ available_formats ∧
    ((MainWindowModel.construct qvariant_cast no_settings).setOutputFormat
        "python-list").settings_.stored SettingsKey.format
      = some (QVariant.string "Arduino") ∧
    ((MainWindowModel.construct qvariant_cast no_settings).setOutputFormat
        "python-list").runnables_.map Prod.snd = ["Arduino"] ∧
    (MainWindowModel.construct qvariant_cast
        ((MainWindowModel.construct qvariant_cast no_settings).setOutputFormat
          "python-list").settings_).currentFormat_ = "Arduino" ∧
    (∀ m format, reachable qvariant_cast no_settings m →
      format ∉ ["Arduino", "C/C++", "Python Bytes", "Python List"] →
      (m.setOutputFormat format).currentFormat_ = "Arduino") ∧
    (∀ m, reachable qvariant_cast no_settings m →
      (m.setOutputFormat "C/C++").currentFormat_ = "c") := by
  have hcur : ∀ (m : MainWindowModel) (format : String),
      (m.setOutputFormat format).currentFormat_ = m.formats_.key format m.formats_.first :=
    fun _ _ => rfl
  have hkey : ∀ m, reachable qvariant_cast no_settings m → ∀ format,
      format ∉ ["Arduino", "C/C++", "Python Bytes", "Python List"] →
      (m.setOutputFormat format).currentFormat_ = "Arduino" := by
    intro m hm format hf
    have hi := reachable_formats qvariant_cast no_settings m hm
    rw [hcur, QMap.key, QMap.first, hi]
    simp only [List.mem_cons, List.mem_singleton, List.not_mem_nil, or_false, not_or] at hf
    obtain ⟨h1, h2, h3, h4⟩ := hf
    have e1 : ("Arduino" == format) = false := beq_false_of_ne (Ne.symm h1)
    have e2 : ("C/C++" == format) = false := beq_false_of_ne (Ne.symm h2)
    have e3 : ("Python Bytes" == format) = false := beq_false_of_ne (Ne.symm h3)
    have e4 : ("Python List" == format) = false := beq_false_of_ne (Ne.symm h4)
    simp only [List.find?, e1, e2, e3, e4]
  have h0 := @reachable.constructed qvariant_cast no_settings
  have hpl := hkey _ h0 "python-list" (by decide)
  have hst : ((MainWindowModel.construct qvariant_cast no_settings).setOutputFormat
      "python-list").settings_.stored SettingsKey.format
      = some (QVariant.string "Arduino") := by
    show (QSettings.setValue _ SettingsKey.format (QVariant.string
      ((MainWindowModel.construct qvariant_cast no_settings).setOutputFormat
        "python-list").currentFormat_)).stored SettingsKey.format = _
    rw [hpl]
    simp [QSettings.setValue]
  refine ⟨?_, reachable.setOutputFormat _ _ h0, hpl, by decide, hst, ?_, ?_,
    fun m format hm hf => hkey m hm format hf, ?_⟩
  · rw [construct_currentFormat, formats_firstKey]; rfl
  · show [((MainWindowModel.construct qvariant_cast no_settings).setOutputFormat
        "python-list").currentFormat_] = _
    rw [hpl]
  · rw [construct_currentFormat, QSettings.value, hst]
    rfl
  · intro m hm
    have hi := reachable_formats qvariant_cast no_settings m hm
    rw [hcur, QMap.key, QMap.first, hi]
    decide

/-! ## The grid of glyph widgets -/

theorem exported_below_eq_rank (ids : List Nat) (hn : ids.Nodup) (n : Nat) :
    exported_below ids n = rank ids n := by
  induction n with
  | zero => simp [exported_below, rank]
  | succ n ih =>
    rw [rank_succ ids hn, ← ih, exported_below, exported_below, List.range_succ,
      List.filter_append, List.length_append]
    by_cases h : n ∈ ids <;> simp [h]

theorem load_fold (ids : List Nat) (glyphs : List Glyph) (w : FaceWidget)
    (hs : w.showsNonExportedItems_ = false) :
    (glyphs.foldl (load_step ids) { index := 0, widgetIndex := 0, w := w }).index
      = glyphs.length ∧
    (glyphs.foldl (load_step ids) { index := 0, widgetIndex := 0, w := w }).widgetIndex
      = exported_below ids glyphs.length ∧
    (glyphs.foldl (load_step ids) { index := 0, widgetIndex := 0, w := w }).w.layout_.items
      = w.layout_.items ++
        ((List.range glyphs.length).filter fun j => decide (j ∈ ids)).map (fun j =>
          ((exported_below ids j / w.columnCount_, exported_below ids j % w.columnCount_), j)) ∧
    (glyphs.foldl (load_step ids)
      { index := 0, widgetIndex := 0, w := w }).w.columnCount_ = w.columnCount_ ∧
    (glyphs.foldl (load_step ids)
      { index := 0, widgetIndex := 0, w := w }).w.showsNonExportedItems_ = false ∧
    (glyphs.foldl (load_step ids) { index := 0, widgetIndex := 0, w := w }).w.face_
      = w.face_ := by
  induction glyphs using List.reverseRecOn with
  | nil => simp [exported_below, hs]
  | append_singleton l g ih =>
    obtain ⟨h1, h2, h3, h4, h5, h6⟩ := ih
    rw [List.foldl_append, List.foldl_cons, List.foldl_nil, List.length_append,
      List.length_singleton]
    generalize l.foldl (load_step ids) { index := 0, widgetIndex := 0, w := w } = st at *
    have hb : exported_below ids (l.length + 1)
        = exported_below ids l.length + (if l.length ∈ ids then 1 else 0) := by
      rw [exported_below, exported_below, List.range_succ, List.filter_append,
        List.length_append]
      by_cases h : l.length ∈ ids <;> simp [h]
    unfold load_step
    simp only [h5, h1, Bool.or_false, decide_eq_true_eq]
    by_cases hm : l.length ∈ ids
    · simp only [if_pos hm]
      refine ⟨trivial, ?_, ?_, h4, h5, h6⟩
      · rw [h2, hb, if_pos hm]
      · simp only [FaceWidget.addGlyphInfoWidget, QGraphicsGridLayout.addItem]
        rw [h3, h4, h2, List.range_succ, List.filter_append, List.map_append,
          List.append_assoc]
        simp [hm]
    · simp only [if_neg hm]
      refine ⟨trivial, ?_, ?_, h4, h5, h6⟩
      · rw [h2, hb, if_neg hm, Nat.add_zero]
      · rw [h3, List.range_succ, List.filter_append]
        simp [hm]

theorem itemIndex_eq_rank (ids : List Nat) (h : ascending ids) (i : Nat) :
    ((ids.takeWhile fun j => j != i).filter fun j => decide (j < i)).length = rank ids i := by
  unfold rank
  induction ids with
  | nil => rfl
  | cons a t ih =>
    have hat : ∀ b, b ∈ t → a < b := (List.pairwise_cons.mp h).1
    have ht := ih (List.pairwise_cons.mp h).2
    by_cases hai : a = i
    · subst hai
      have hnil : t.filter (fun j => decide (j < a)) = [] := by
        rw [List.filter_eq_nil_iff]
        intro b hb
        have := hat b hb
        simp only [decide_eq_true_eq]
        omega
      simp [List.takeWhile_cons, List.filter_cons, hnil]
    · have hne : (a != i) = true := by simp [hai]
      rw [List.takeWhile_cons, hne]
      simp only [if_true, List.filter_cons]
      split_ifs
      · rw [List.length_cons, List.length_cons, ht]
      · exact ht

theorem find_unique {α : Type} (l : List α) (p : α → Bool) (a : α) (ha : a ∈ l)
    (hp : p a = true) (hu : ∀ b, b ∈ l → p b = true → b = a) : l.find? p = some a := by
  induction l with
  | nil => cases ha
  | cons x t ih =>
    rw [List.find?_cons]
    cases hx : p x with
    | true => rw [hu x (List.mem_cons_self _ _) hx]
    | false =>
      have hat : a ∈ t := by
        rcases List.mem_cons.mp ha with e | e
        · rw [e, hx] at hp; cases hp
        · exact e
      exact ih hat fun b hb hpb => hu b (List.mem_cons_of_mem _ hb) hpb

theorem cell_inj (c a b : Nat) (_hc : 1 ≤ c) (h : (a / c, a % c) = (b / c, b % c)) : a = b := by
  have h1 : a / c = b / c := congrArg Prod.fst h
  have h2 : a % c = b % c := congrArg Prod.snd h
  rw [← Nat.div_add_mod a c, ← Nat.div_add_mod b c, h1, h2]

theorem rank_inj (ids : List Nat) (h : ascending ids) (i j : Nat) (hi : i ∈ ids)
    (hj : j ∈ ids) (e : rank ids i = rank ids j) : i = j := by
  obtain ⟨a, ha, rfl⟩ := List.getElem_of_mem hi
  obtain ⟨b, hb, rfl⟩ := List.getElem_of_mem hj
  rw [rank_getElem ids h a ha, rank_getElem ids h b hb] at e
  subst e
  rfl

/-- C28: with non-exported items hidden, for every face, every column count of at least 1
and every glyph index `i` of the face that is among the exported ids, the item index
`glyphWidgetAtIndex(i)` computes is the number `r` of exported ids smaller than `i`; `load`
placed the widget of glyph `i` at the cell `(r / columnCount, r % columnCount)` and at no
other cell, and the widget `glyphWidgetAtIndex(i)` finds at that cell is the one of glyph
`i`. -/
theorem glyphWidgetAtIndex_load (w : FaceWidget) (face : Face) (i : Nat)
    (hs : w.showsNonExportedItems_ = false) (hc : 1 ≤ w.columnCount_)
    (hasc : ascending face.exported_glyph_ids) (hi : i ∈ face.exported_glyph_ids)
    (hlt : i < face.glyphs.length) :
    (w.load face).itemIndex i = rank face.exported_glyph_ids i ∧
    ((rank face.exported_glyph_ids i / w.columnCount_,
        rank face.exported_glyph_ids i % w.columnCount_), i) ∈ (w.load face).layout_.items ∧
    (∀ cell, (cell, i) ∈ (w.load face).layout_.items →
      cell = (rank face.exported_glyph_ids i / w.columnCount_,
        rank face.exported_glyph_ids i % w.columnCount_)) ∧
    (w.load face).glyphWidgetAtIndex i = some i := by
  have hn := ascending_nodup _ hasc
  obtain ⟨-, -, h3, h4, h5, h6⟩ := load_fold face.exported_glyph_ids face.glyphs
    { w with face_ := face, layout_ := { items := [] } } hs
  have hitems : (w.load face).layout_.items
      = ((List.range face.glyphs.length).filter
          fun j => decide (j ∈ face.exported_glyph_ids)).map fun j =>
          ((rank face.exported_glyph_ids j / w.columnCount_,
            rank face.exported_glyph_ids j % w.columnCount_), j) := by
    rw [show (w.load face).layout_.items = _ from h3, List.nil_append]
    apply List.map_congr_left
    intro j _
    rw [exported_below_eq_rank _ hn]
  have hcc : (w.load face).columnCount_ = w.columnCount_ := h4
  have hsh : (w.load face).showsNonExportedItems_ = false := h5
  have hface : (w.load face).face_ = face := h6
  have hidx : (w.load face).itemIndex i = rank face.exported_glyph_ids i := by
    rw [FaceWidget.itemIndex, hsh, hface]
    simp only [Bool.not_false, if_true]
    exact itemIndex_eq_rank _ hasc i
  have hmem : ((rank face.exported_glyph_ids i / w.columnCount_,
      rank face.exported_glyph_ids i % w.columnCount_), i) ∈ (w.load face).layout_.items := by
    rw [hitems]
    exact List.mem_map.mpr ⟨i, List.mem_filter.mpr ⟨List.mem_range.mpr hlt, by simpa using hi⟩,
      rfl⟩
  refine ⟨hidx, hmem, ?_, ?_⟩
  · intro cell hcell
    rw [hitems] at hcell
    obtain ⟨j, -, hj⟩ := List.mem_map.mp hcell
    obtain ⟨hx, hy⟩ := Prod.mk.inj hj
    rw [← hx, hy]
  · rw [FaceWidget.glyphWidgetAtIndex]
    rw [hidx, hcc, QGraphicsGridLayout.itemAt,
      find_unique _ _ _ hmem (by simp)]
    · rfl
    · intro b hb hpb
      rw [hitems] at hb
      obtain ⟨j, hjm, rfl⟩ := List.mem_map.mp hb
      have hjids : j ∈ face.exported_glyph_ids := by
        simpa using (List.mem_filter.mp hjm).2
      have hcell : (rank face.exported_glyph_ids j / w.columnCount_,
          rank face.exported_glyph_ids j % w.columnCount_)
          = (rank face.exported_glyph_ids i / w.columnCount_,
            rank face.exported_glyph_ids i % w.columnCount_) := by
        simpa using hpb
      have hr := cell_inj _ _ _ hc hcell
      rw [rank_inj _ hasc j i hjids hi hr]

/-- The instance of `glyphWidgetAtIndex_load` at a face of three blank glyphs of which those
of index 0 and 2 are exported, with one column: the widget of glyph 2 is in row 1. -/
theorem glyphWidgetAtIndex_load_witness :
    (FaceWidget.load ⟨1, false, empty_face, ⟨[]⟩⟩
        ⟨⟨8, 2⟩, [glyph_8x2, glyph_8x2, glyph_8x2], [0, 2], ⟨0, 0, 0, 0⟩⟩).glyphWidgetAtIndex 2
      = some 2 :=
  (glyphWidgetAtIndex_load ⟨1, false, empty_face, ⟨[]⟩⟩
    ⟨⟨8, 2⟩, [glyph_8x2, glyph_8x2, glyph_8x2], [0, 2], ⟨0, 0, 0, 0⟩⟩ 2 rfl (by decide)
    (by decide) (by decide) (by decide)).2.2.2

end f2b
